import Mathlib

set_option linter.unusedSectionVars false

/-!
Verification of the UU factorization core of the Umatch_paper repository
(`src/decomp_row_use_pairs.rs`).

The Rust code is shallowly embedded as follows.

* A Rust `HashMap` is modelled as an association list (`Hash K V`) whose list
  order is the map's iteration order; all map operations below preserve the
  "no duplicate keys" discipline that `HashMap` guarantees.
* A Rust `BinaryHeap<Reverse<K>>` is a multiset of keys from which `pop`
  removes a minimal element; it is modelled as a `List K` together with
  `heapPop`, which removes the first occurrence of the minimum.
* Machine integers (`usize` indices) are modelled as `Nat`; ring coefficients
  are an arbitrary type `SnzVal` equipped with a `RingMetadata` record of the
  operations the Rust trait bounds provide (`Add`, `Neg`, `Mul`, `AddAssign`,
  `InvMod` and the `RingMetadata` methods `is_0`, `inverse`, `simplify`).
* The inner `while let Some(Reverse(minkey)) = heap_reduced.pop()` loop of
  `decomp_row_use_pairs` is not structurally recursive, so it takes a fuel
  argument and returns `none` on fuel exhaustion; the outer loop consumes the
  worklist from its last element, which is modelled as structural recursion
  over the reversed worklist.

`CSM` (`src/csm.rs`), `Indexing` (`src/chx.rs`), `add_assign_hash`
(`src/solver.rs`) and the concrete modulus ring (`src/matrix.rs`) are not
among the provided sources; they are modelled from the specification and
marked as such in their doc comments.
-/

namespace Umatch

/-- Entries of a Rust `HashMap`, as an association list in iteration order. -/
abbrev Hash (K V : Type) := List (K × V)

variable {K V : Type}

/-- Lookup in the association list (`HashMap::get`). -/
def hashLookup [DecidableEq K] : Hash K V → K → Option V
  | [], _ => none
  | p :: t, k => if p.1 = k then some p.2 else hashLookup t k

/-- Remove a key (`HashMap::remove` discarding the value). -/
def hashRemoveKey [DecidableEq K] : Hash K V → K → Hash K V
  | [], _ => []
  | p :: t, k => if p.1 = k then t else p :: hashRemoveKey t k

/-- Remove a key and return its value together with the remaining map
(`HashMap::remove`). -/
def hashRemoveGet [DecidableEq K] : Hash K V → K → Option (V × Hash K V)
  | [], _ => none
  | p :: t, k =>
    if p.1 = k then some (p.2, t)
    else
      match hashRemoveGet t k with
      | none => none
      | some (v, t2) => some (v, p :: t2)

/-- Overwrite the value stored at a key that is already present
(`*hash.get_mut(&key) = ...`). -/
def hashSet [DecidableEq K] : Hash K V → K → V → Hash K V
  | [], _, _ => []
  | p :: t, k, v => if p.1 = k then (k, v) :: t else p :: hashSet t k v

/-- Insert (`HashMap::insert`): overwrite if the key is present, otherwise
append a fresh entry. -/
def hashInsert [DecidableEq K] (h : Hash K V) (k : K) (v : V) : Hash K V :=
  match hashLookup h k with
  | some _ => hashSet h k v
  | none => h ++ [(k, v)]

/-- The key discipline a Rust `HashMap` maintains: no duplicate keys. -/
def hashNodup (h : Hash K V) : Prop := (h.map Prod.fst).Nodup

instance [DecidableEq K] (h : Hash K V) : Decidable (hashNodup h) := by
  unfold hashNodup; infer_instance

/-- Pop a minimal element from the multiset modelling
`BinaryHeap<Reverse<K>>` (the `Reverse` wrapper turns the max-heap into a
min-heap), returning it with the remaining multiset. -/
def heapPop [LinearOrder K] : List K → Option (K × List K)
  | [] => none
  | h :: t =>
    match heapPop t with
    | none => some (h, [])
    | some (m, rest) => if h ≤ m then some (h, t) else some (m, h :: rest)

/-- Pop every element of a heap in ascending order; the fuel is the heap size
(each pop removes exactly one element). -/
def heapDrainAux [LinearOrder K] : Nat → List K → List K
  | 0, _ => []
  | n + 1, heap =>
    match heapPop heap with
    | none => []
    | some (m, rest) => m :: heapDrainAux n rest

/-- Drain a heap completely, yielding its elements in ascending order
(the `while let Some(Reverse(minkey)) = heap.pop()` idiom). -/
def heapDrain [LinearOrder K] (heap : List K) : List K :=
  heapDrainAux heap.length heap

/-- The coefficient-ring capability.  The Rust code splits it between the
`RingMetadata` struct (`is_0`, `inverse`, `simplify`, the identities; from
`src/matrix.rs`, not among the sources, hence modelled from the spec §4.1)
and the trait bounds `Add`, `Neg`, `Mul`, `AddAssign` on `SnzVal`; the
embedding collects all of these operations in one record. -/
structure RingMetadata (SnzVal : Type) where
  add : SnzVal → SnzVal → SnzVal
  neg : SnzVal → SnzVal
  mul : SnzVal → SnzVal → SnzVal
  is_0 : SnzVal → Bool
  inverse : SnzVal → Option SnzVal
  simplify : SnzVal → SnzVal
  identity_additive : SnzVal
  identity_multiplicative : SnzVal

/-- The coefficient of `accumulator + scale * source_row` at a key, stated
from the spec's words (§4.3): the mathematical sum that the merge primitive
is claimed to realize.  `none` means the key is absent from both operands. -/
def sumCoeff {K SnzVal : Type} [DecidableEq K] (ring : RingMetadata SnzVal)
    (hash row : Hash K SnzVal) (scale : SnzVal) (k : K) : Option SnzVal :=
  match hashLookup hash k, hashLookup row k with
  | some a, some b => some (ring.add a (ring.mul scale b))
  | some a, none => some a
  | none, some b => some (ring.mul scale b)
  | none, none => none

/-- The sparse row oracle capability (`SmOracle`): a ring plus random read
access to the (finite, duplicate-free) list of nonzero entries of each major
row (`maj_itr`). -/
structure SmOracle (MajKey MinKey SnzVal : Type) where
  ring : RingMetadata SnzVal
  maj_itr : MajKey → List (MinKey × SnzVal)

/-- Modelled from the spec (§4.5): the compressed output matrix `CSM` of
`src/csm.rs`, which is not among the sources.  `rows` are the committed rows
in increasing dense-index order; `pending` holds entries placed by
`push_snzval` that the next `append_maj` will commit.  Capacity hints and
`shrink_to_fit` have no observable effect in this model. -/
structure CSM (SnzVal : Type) where
  rows : List (List (Nat × SnzVal))
  pending : List (Nat × SnzVal)
  deriving Repr, DecidableEq

/-- Modelled from the spec (§4.5): an empty `CSM` (capacity is not
observable). -/
def CSM.with_capacity {SnzVal : Type} : CSM SnzVal := { rows := [], pending := [] }

/-- Modelled from the spec (§4.5): the number of committed rows. -/
def CSM.nummaj {SnzVal : Type} (m : CSM SnzVal) : Nat := m.rows.length

/-- Modelled from the spec (§4.5): `push_scalar` places a single value at a
row (used for the pivot's self-entry). -/
def CSM.push_snzval {SnzVal : Type} (m : CSM SnzVal) (maj : Nat) (v : SnzVal) : CSM SnzVal :=
  { m with pending := m.pending ++ [(maj, v)] }

/-- Modelled from the spec (§4.5): `append_row` drains a hash map of
(index, coefficient) pairs into storage as the next row, advancing the row
count. -/
def CSM.append_maj {SnzVal : Type} (m : CSM SnzVal) (hash : Hash Nat SnzVal) : CSM SnzVal :=
  { rows := m.rows ++ [m.pending ++ hash], pending := [] }

/-- Modelled from the spec (§4.5): `row_as_hash` reconstructs a hash-map view
of a stored row. -/
def CSM.maj_hash {SnzVal : Type} (m : CSM SnzVal) (i : Nat) : Hash Nat SnzVal :=
  m.rows.getD i []

/-- Modelled from the spec (§4.5): trimming capacity is unobservable. -/
def CSM.shrink_to_fit {SnzVal : Type} (m : CSM SnzVal) : CSM SnzVal := m

/-- Modelled from the spec (§3, §4.6): the `Indexing` bijection of
`src/chx.rs`, which is not among the sources: two forward maps
(key to dense index) and two backward sequences (dense index to key),
plus the derived ascending-minor-order permutation. -/
structure Indexing (MinKey MajKey : Type) where
  minkey_2_index : Hash MinKey Nat
  majkey_2_index : Hash MajKey Nat
  index_2_majkey : List MajKey
  index_2_minkey : List MinKey
  ordered_minind : List Nat
  deriving Repr, DecidableEq

/-- Modelled from the spec (§4.6): an empty `Indexing` (capacity is not
observable). -/
def Indexing.with_capacity {MinKey MajKey : Type} : Indexing MinKey MajKey :=
  { minkey_2_index := [], majkey_2_index := [], index_2_majkey := [],
    index_2_minkey := [], ordered_minind := [] }

/-- Modelled from the spec (§4.6): trimming capacity is unobservable. -/
def Indexing.shrink_to_fit {MinKey MajKey : Type} (ix : Indexing MinKey MajKey) :
    Indexing MinKey MajKey := ix

variable {MajKey MinKey SnzVal : Type}

/-- `update_heap_hash` (src/decomp_row_use_pairs.rs, lines 35-57): drain
`row`, scale each value, and merge it into the accumulator `hash`, pushing
newly inserted keys onto `heap`; entries whose updated value is judged zero
are removed from the hash (their heap copies become tolerated stale
duplicates).  Returns the updated heap, the updated hash, and the drained
(empty) source row. -/
def update_heap_hash [DecidableEq MinKey] (ringmetadata : RingMetadata SnzVal)
    (heap : List MinKey) (hash : Hash MinKey SnzVal) (row : Hash MinKey SnzVal)
    (scale : SnzVal) : List MinKey × Hash MinKey SnzVal × Hash MinKey SnzVal :=
  match row with
  | [] => (heap, hash, [])
  | (key, val) :: rest =>
    let value := ringmetadata.mul scale val
    match hashLookup hash key with
    | some x =>
      let x2 := ringmetadata.add x value
      if ringmetadata.is_0 x2 then
        update_heap_hash ringmetadata heap (hashRemoveKey hash key) rest scale
      else
        update_heap_hash ringmetadata heap (hashSet hash key x2) rest scale
    | none =>
      if ringmetadata.is_0 value then
        update_heap_hash ringmetadata heap hash rest scale
      else
        update_heap_hash ringmetadata (key :: heap) (hashInsert hash key value) rest scale

/-- Modelled from the spec (§4.3, §4.4 step a): `add_assign_hash` of
`src/solver.rs`, which is not among the sources — the merge primitive
without the heap: drain `row`, scale each value, and merge it into `hash`,
deleting entries whose updated value is judged zero and inserting fresh
nonzero entries.  Returns the updated hash and the drained (empty) row. -/
def add_assign_hash [DecidableEq MinKey] (ringmetadata : RingMetadata SnzVal)
    (hash : Hash MinKey SnzVal) (row : Hash MinKey SnzVal) (scale : SnzVal) :
    Hash MinKey SnzVal × Hash MinKey SnzVal :=
  match row with
  | [] => (hash, [])
  | (key, val) :: rest =>
    let value := ringmetadata.mul scale val
    match hashLookup hash key with
    | some x =>
      let x2 := ringmetadata.add x value
      if ringmetadata.is_0 x2 then
        add_assign_hash ringmetadata (hashRemoveKey hash key) rest scale
      else
        add_assign_hash ringmetadata (hashSet hash key x2) rest scale
    | none =>
      if ringmetadata.is_0 value then
        add_assign_hash ringmetadata hash rest scale
      else
        add_assign_hash ringmetadata (hashInsert hash key value) rest scale

/-- The restriction of an oracle row to the active minor set, as a hash map
(src/decomp_row_use_pairs.rs, lines 124-127):
`for (key, val) in matrix.maj_itr(maj) { if min_to_reduce.contains(&key)
{ row.insert(key, val); } }`. -/
def restrictRow [DecidableEq MinKey] (matrix : SmOracle MajKey MinKey SnzVal)
    (min_to_reduce : MinKey → Bool) (majkey : MajKey) : Hash MinKey SnzVal :=
  (matrix.maj_itr majkey).foldl
    (fun h kv => if min_to_reduce kv.1 then hashInsert h kv.1 kv.2 else h) []

/-- The initial load of a popped major row into the working accumulator
(src/decomp_row_use_pairs.rs, lines 103-108): restrict to the active minor
set, pushing each kept key onto the heap and inserting it into the hash. -/
def loadRow [DecidableEq MinKey] (matrix : SmOracle MajKey MinKey SnzVal)
    (min_to_reduce : MinKey → Bool) (majkey : MajKey) :
    List MinKey × Hash MinKey SnzVal :=
  (matrix.maj_itr majkey).foldl
    (fun hh kv =>
      if min_to_reduce kv.1 then (kv.1 :: hh.1, hashInsert hh.2 kv.1 kv.2) else hh)
    ([], [])

/-- The reconstruction of a previously discovered pivot row
(src/decomp_row_use_pairs.rs, lines 121-130): for each (index, coefficient)
entry of the stored row-operation row, re-fetch the oracle row of the major
key at that index, restrict it to the active minor set, and accumulate it
scaled by the coefficient. -/
def reconstruct [DecidableEq MinKey] [Inhabited MajKey]
    (matrix : SmOracle MajKey MinKey SnzVal) (min_to_reduce : MinKey → Bool)
    (indexing : Indexing MinKey MajKey) (row_rowoper : Hash Nat SnzVal) :
    Hash MinKey SnzVal :=
  row_rowoper.foldl
    (fun row_reduced p =>
      (add_assign_hash matrix.ring row_reduced
        (restrictRow matrix min_to_reduce (indexing.index_2_majkey.getD p.1 default))
        p.2).1)
    []

/-- The per-major working state of the inner elimination loop: the main
working accumulator (`heap_reduced`, `hash_reduced`) and the row-operation
accumulator (`heap_rowoper`, `hash_rowoper`). -/
structure InnerState (MinKey SnzVal : Type) where
  heap_reduced : List MinKey
  hash_reduced : Hash MinKey SnzVal
  heap_rowoper : List Nat
  hash_rowoper : Hash Nat SnzVal
  deriving Repr, DecidableEq

/-- One iteration of the inner elimination loop of `decomp_row_use_pairs`
(src/decomp_row_use_pairs.rs, lines 110-152): pop the smallest candidate
minor key (`Sum.inr` if the heap is exhausted, ending the current major
with no pivot); skip it when its hash entry is gone or zero; when the key
is already a pivot, reconstruct that pivot's row, remove the dominator and
— if it is invertible — merge the scaled rows into both accumulators
(when the dominator is absent or not invertible, nothing is updated and the
loop simply proceeds); when the key is not yet a pivot, record the new
pivot in `indexing`, append the row-operation row (self-entry plus drained
accumulator) to `rowoper`, and stop (`break`, yielding `Sum.inr`). -/
def inner_step [LinearOrder MinKey] [DecidableEq MajKey] [Inhabited MajKey]
    (matrix : SmOracle MajKey MinKey SnzVal) (min_to_reduce : MinKey → Bool)
    (majkey : MajKey) (rowoper : CSM SnzVal) (indexing : Indexing MinKey MajKey)
    (s : InnerState MinKey SnzVal) :
    InnerState MinKey SnzVal ⊕ (CSM SnzVal × Indexing MinKey MajKey) :=
  match heapPop s.heap_reduced with
  | none => Sum.inr (rowoper, indexing)
  | some (minkey, heap1) =>
    match hashRemoveGet s.hash_reduced minkey with
    | none => Sum.inl { s with heap_reduced := heap1 }
    | some (leading_entry, hash1) =>
      if matrix.ring.is_0 leading_entry then
        Sum.inl { s with heap_reduced := heap1, hash_reduced := hash1 }
      else
        match hashLookup indexing.minkey_2_index minkey with
        | some index =>
          let row_rowoper := rowoper.maj_hash index
          let row_reduced := reconstruct matrix min_to_reduce indexing row_rowoper
          match hashRemoveGet row_reduced minkey with
          | some (dominator, row_reduced1) =>
            match matrix.ring.inverse dominator with
            | some inv =>
              let scale := matrix.ring.simplify
                (matrix.ring.mul (matrix.ring.neg leading_entry) inv)
              let hr := update_heap_hash matrix.ring heap1 hash1 row_reduced1 scale
              let ho := update_heap_hash matrix.ring s.heap_rowoper s.hash_rowoper
                row_rowoper scale
              Sum.inl
                { heap_reduced := hr.1, hash_reduced := hr.2.1,
                  heap_rowoper := ho.1, hash_rowoper := ho.2.1 }
            | none => Sum.inl { s with heap_reduced := heap1, hash_reduced := hash1 }
          | none => Sum.inl { s with heap_reduced := heap1, hash_reduced := hash1 }
        | none =>
          let idx := rowoper.nummaj
          let indexing1 : Indexing MinKey MajKey :=
            { indexing with
              minkey_2_index := hashInsert indexing.minkey_2_index minkey idx
              majkey_2_index := hashInsert indexing.majkey_2_index majkey idx
              index_2_majkey := indexing.index_2_majkey ++ [majkey]
              index_2_minkey := indexing.index_2_minkey ++ [minkey] }
          let rowoper1 :=
            (rowoper.push_snzval idx matrix.ring.identity_multiplicative).append_maj
              s.hash_rowoper
          Sum.inr (rowoper1, indexing1)

/-- The inner elimination loop: iterate `inner_step` until it ends the
current major key (`Sum.inr`).  Each continuing iteration consumes one unit
of fuel; `none` means the fuel ran out. -/
def inner_loop [LinearOrder MinKey] [DecidableEq MajKey] [Inhabited MajKey]
    (matrix : SmOracle MajKey MinKey SnzVal) (min_to_reduce : MinKey → Bool)
    (majkey : MajKey) :
    Nat → CSM SnzVal → Indexing MinKey MajKey → InnerState MinKey SnzVal →
    Option (CSM SnzVal × Indexing MinKey MajKey)
  | fuel, rowoper, indexing, s =>
    match inner_step matrix min_to_reduce majkey rowoper indexing s with
    | Sum.inr r => some r
    | Sum.inl s2 =>
      match fuel with
      | 0 => none
      | fuel + 1 => inner_loop matrix min_to_reduce majkey fuel rowoper indexing s2

/-- The working state at the start of a major-key iteration
(src/decomp_row_use_pairs.rs, lines 98-108): the four accumulators cleared
and the restricted oracle row of the popped major key loaded into the main
accumulator. -/
def initState [DecidableEq MinKey] (matrix : SmOracle MajKey MinKey SnzVal)
    (min_to_reduce : MinKey → Bool) (majkey : MajKey) : InnerState MinKey SnzVal :=
  { heap_reduced := (loadRow matrix min_to_reduce majkey).1
    hash_reduced := (loadRow matrix min_to_reduce majkey).2
    heap_rowoper := []
    hash_rowoper := [] }

/-- The outer loop of `decomp_row_use_pairs`
(src/decomp_row_use_pairs.rs, lines 96-153) over the worklist already
reversed: `while let Some(majkey) = maj_to_reduce.pop()` removes the last
element of the worklist first, which is the head of the reversed worklist.
For each major key the four working accumulators are cleared, the restricted
oracle row is loaded, and the inner elimination loop runs. -/
def outer_go [LinearOrder MinKey] [DecidableEq MajKey] [Inhabited MajKey]
    (ifuel : Nat) (matrix : SmOracle MajKey MinKey SnzVal)
    (min_to_reduce : MinKey → Bool) :
    List MajKey → CSM SnzVal → Indexing MinKey MajKey →
    Option (CSM SnzVal × Indexing MinKey MajKey)
  | [], rowoper, indexing => some (rowoper, indexing)
  | majkey :: rest, rowoper, indexing =>
    match inner_loop matrix min_to_reduce majkey ifuel rowoper indexing
        (initState matrix min_to_reduce majkey) with
    | none => none
    | some (rowoper1, indexing1) =>
      outer_go ifuel matrix min_to_reduce rest rowoper1 indexing1

/-- `decomp_row_use_pairs` (src/decomp_row_use_pairs.rs, lines 67-166): run
the outer loop over the worklist (consumed from its last element), then the
post-pass (lines 155-161): push every discovered minor key onto the heap,
pop them in ascending order, and record their dense indices as
`ordered_minind`; finally trim the structures.  The fuel bounds each major
key's inner elimination loop; `none` means some inner loop ran out of
fuel. -/
def decomp_row_use_pairs [LinearOrder MinKey] [DecidableEq MajKey] [Inhabited MajKey]
    (ifuel : Nat) (matrix : SmOracle MajKey MinKey SnzVal)
    (maj_to_reduce : List MajKey) (min_to_reduce : MinKey → Bool) :
    Option (CSM SnzVal × Indexing MinKey MajKey) :=
  match outer_go ifuel matrix min_to_reduce maj_to_reduce.reverse
      CSM.with_capacity Indexing.with_capacity with
  | none => none
  | some (rowoper, indexing) =>
    some (rowoper.shrink_to_fit,
      (Indexing.shrink_to_fit
        { indexing with
          ordered_minind :=
            (heapDrain indexing.index_2_minkey).map
              (fun minkey => (hashLookup indexing.minkey_2_index minkey).getD 0) }))

/-- Strict triangularity of the output matrix (spec §3, §8): row `i` is the
self-entry `(i, one)` followed by coefficients at strictly smaller
indices. -/
def Triangular {SnzVal : Type} (one : SnzVal) (m : CSM SnzVal) : Prop :=
  ∀ i, i < m.nummaj →
    ∃ rest, m.rows.getD i [] = (i, one) :: rest ∧ ∀ p ∈ rest, p.1 < i

/-- The minor-side state invariant of the main pass: no pending output
entries, triangular committed rows, dense-index bounds for the minor-key
map, backward sequences of the right length, the minor-key bijection in
both directions, and all recorded minor keys active. -/
def Inv {MajKey MinKey SnzVal : Type} [DecidableEq MinKey]
    (min_to_reduce : MinKey → Bool) (one : SnzVal) (ro : CSM SnzVal)
    (ix : Indexing MinKey MajKey) : Prop :=
  ro.pending = [] ∧
  Triangular one ro ∧
  ix.index_2_minkey.length = ro.nummaj ∧
  ix.index_2_majkey.length = ro.nummaj ∧
  (∀ mk i, hashLookup ix.minkey_2_index mk = some i →
    i < ro.nummaj ∧ ix.index_2_minkey[i]? = some mk) ∧
  (∀ i mk, ix.index_2_minkey[i]? = some mk →
    hashLookup ix.minkey_2_index mk = some i) ∧
  (∀ mk, mk ∈ ix.index_2_minkey → min_to_reduce mk = true)

/-- The major-side bijection invariant of the main pass, relative to the
not-yet-processed part of the (reversed) worklist: the major-key map and
backward sequence invert each other and no recorded major key is still
waiting to be processed. -/
def MajInv {MajKey MinKey SnzVal : Type} [DecidableEq MajKey]
    (ro : CSM SnzVal) (ix : Indexing MinKey MajKey) (rest : List MajKey) : Prop :=
  (∀ i maj, ix.index_2_majkey[i]? = some maj →
    hashLookup ix.majkey_2_index maj = some i) ∧
  (∀ maj i, hashLookup ix.majkey_2_index maj = some i →
    i < ro.nummaj ∧ ix.index_2_majkey[i]? = some maj) ∧
  (∀ maj, (hashLookup ix.majkey_2_index maj).isSome → maj ∉ rest)

/-- Laws the spec (§4.1) imposes on the ring capability, phrased as an
interpretation `phi` of coefficient values into a commutative ring `Q`:
the exact arithmetic operations are mapped homomorphically, the zero test
decides exactly the kernel of `phi`, `simplify` canonicalizes without
changing the value, and a successful `inverse` produces a multiplicative
inverse.  The modulus ring realizes these laws with `Q = ZMod n`. -/
structure RingLaws {SnzVal Q : Type} [CommRing Q] (ring : RingMetadata SnzVal)
    (phi : SnzVal → Q) : Prop where
  map_add : ∀ x y, phi (ring.add x y) = phi x + phi y
  map_neg : ∀ x, phi (ring.neg x) = - phi x
  map_mul : ∀ x y, phi (ring.mul x y) = phi x * phi y
  map_one : phi ring.identity_multiplicative = 1
  is0_iff : ∀ x, ring.is_0 x = true ↔ phi x = 0
  map_simplify : ∀ x, phi (ring.simplify x) = phi x
  inverse_spec : ∀ d v, ring.inverse d = some v → phi v * phi d = 1

/-- The value of a sparse row at a key under a coefficient interpretation
`phi` into a commutative ring (absent keys count as zero). -/
def valphi {K SnzVal Q : Type} [DecidableEq K] [CommRing Q] (phi : SnzVal → Q)
    (h : Hash K SnzVal) (k : K) : Q :=
  match hashLookup h k with
  | some v => phi v
  | none => 0

/-- The restricted oracle row of the major key recorded at dense index
`j`. -/
def Rrow {MajKey MinKey SnzVal : Type} [DecidableEq MinKey] [Inhabited MajKey]
    (matrix : SmOracle MajKey MinKey SnzVal) (min_to_reduce : MinKey → Bool)
    (ix : Indexing MinKey MajKey) (j : Nat) : Hash MinKey SnzVal :=
  restrictRow matrix min_to_reduce (ix.index_2_majkey.getD j default)

/-- The reconstruction of the pivot row recorded at dense index `i`. -/
def reconOf {MajKey MinKey SnzVal : Type} [DecidableEq MinKey] [Inhabited MajKey]
    (matrix : SmOracle MajKey MinKey SnzVal) (min_to_reduce : MinKey → Bool)
    (ro : CSM SnzVal) (ix : Indexing MinKey MajKey) (i : Nat) : Hash MinKey SnzVal :=
  reconstruct matrix min_to_reduce ix (ro.maj_hash i)

/-- A pivot minor key whose reconstructed dominator exists and is
invertible: elimination steps at this key succeed. -/
def goodKey {MajKey MinKey SnzVal : Type} [DecidableEq MinKey] [Inhabited MajKey]
    (matrix : SmOracle MajKey MinKey SnzVal) (min_to_reduce : MinKey → Bool)
    (ro : CSM SnzVal) (ix : Indexing MinKey MajKey) (k : MinKey) : Bool :=
  match hashLookup ix.minkey_2_index k with
  | none => false
  | some i =>
    match hashLookup (reconOf matrix min_to_reduce ro ix i) k with
    | none => false
    | some d => (matrix.ring.inverse d).isSome

/-- A pivot minor key whose reconstructed dominator is absent or not
invertible: elimination steps at this key silently drop the leading
entry. -/
def BadKey {MajKey MinKey SnzVal : Type} [DecidableEq MinKey] [Inhabited MajKey]
    (matrix : SmOracle MajKey MinKey SnzVal) (min_to_reduce : MinKey → Bool)
    (ro : CSM SnzVal) (ix : Indexing MinKey MajKey) (k : MinKey) : Prop :=
  (hashLookup ix.minkey_2_index k).isSome ∧
  goodKey matrix min_to_reduce ro ix k = false

/-- The finite set of good pivot minor keys of the current state. -/
def GoodSet {MajKey MinKey SnzVal : Type} [LinearOrder MinKey] [Inhabited MajKey]
    (matrix : SmOracle MajKey MinKey SnzVal) (min_to_reduce : MinKey → Bool)
    (ro : CSM SnzVal) (ix : Indexing MinKey MajKey) : Finset MinKey :=
  (ix.index_2_minkey.filter (goodKey matrix min_to_reduce ro ix)).toFinset

/-- The number of good pivot minor keys strictly above `g`. -/
def aboveCount {MajKey MinKey SnzVal : Type} [LinearOrder MinKey] [Inhabited MajKey]
    (matrix : SmOracle MajKey MinKey SnzVal) (min_to_reduce : MinKey → Bool)
    (ro : CSM SnzVal) (ix : Indexing MinKey MajKey) (g : MinKey) : Nat :=
  ((GoodSet matrix min_to_reduce ro ix).filter (fun h2 => g < h2)).card

/-- The largest length of a reconstructed pivot row. -/
def maxRecon {MajKey MinKey SnzVal : Type} [DecidableEq MinKey] [Inhabited MajKey]
    (matrix : SmOracle MajKey MinKey SnzVal) (min_to_reduce : MinKey → Bool)
    (ro : CSM SnzVal) (ix : Indexing MinKey MajKey) : Nat :=
  ((List.range ro.nummaj).map
    (fun i => (reconOf matrix min_to_reduce ro ix i).length)).foldr Nat.max 0

/-- The per-iteration budget: more than the number of good keys and more
than any reconstructed row length. -/
def termS {MajKey MinKey SnzVal : Type} [LinearOrder MinKey] [Inhabited MajKey]
    (matrix : SmOracle MajKey MinKey SnzVal) (min_to_reduce : MinKey → Bool)
    (ro : CSM SnzVal) (ix : Indexing MinKey MajKey) : Nat :=
  (GoodSet matrix min_to_reduce ro ix).card +
    maxRecon matrix min_to_reduce ro ix + 1

/-- The geometric weight base. -/
def termB {MajKey MinKey SnzVal : Type} [LinearOrder MinKey] [Inhabited MajKey]
    (matrix : SmOracle MajKey MinKey SnzVal) (min_to_reduce : MinKey → Bool)
    (ro : CSM SnzVal) (ix : Indexing MinKey MajKey) : Nat :=
  2 * termS matrix min_to_reduce ro ix + 2

/-- The weight of a good pivot minor key: geometrically decreasing in key
order. -/
def keyWeight {MajKey MinKey SnzVal : Type} [LinearOrder MinKey] [Inhabited MajKey]
    (matrix : SmOracle MajKey MinKey SnzVal) (min_to_reduce : MinKey → Bool)
    (ro : CSM SnzVal) (ix : Indexing MinKey MajKey) (g : MinKey) : Nat :=
  termB matrix min_to_reduce ro ix ^ (aboveCount matrix min_to_reduce ro ix g + 1)

/-- The termination potential of an inner-loop state: the heap size plus
the weights of the good keys live in the accumulator. -/
def phiMeasure {MajKey MinKey SnzVal : Type} [LinearOrder MinKey] [Inhabited MajKey]
    (matrix : SmOracle MajKey MinKey SnzVal) (min_to_reduce : MinKey → Bool)
    (ro : CSM SnzVal) (ix : Indexing MinKey MajKey) (s : InnerState MinKey SnzVal) :
    Nat :=
  s.heap_reduced.length +
  (GoodSet matrix min_to_reduce ro ix).sum
    (fun g => if (hashLookup s.hash_reduced g).isSome then
      keyWeight matrix min_to_reduce ro ix g else 0)

/-- The history invariant that makes elimination steps push only larger
good keys: every key strictly below a pivot's own minor key that survives
in that pivot's reconstructed row is a bad pivot. -/
def GoodInv {MajKey MinKey SnzVal : Type} [LinearOrder MinKey] [Inhabited MajKey]
    (matrix : SmOracle MajKey MinKey SnzVal) (min_to_reduce : MinKey → Bool)
    (ro : CSM SnzVal) (ix : Indexing MinKey MajKey) : Prop :=
  ∀ i, i < ro.nummaj → ∀ mk k, ix.index_2_minkey[i]? = some mk → k < mk →
    (hashLookup (reconOf matrix min_to_reduce ro ix i) k).isSome →
    BadKey matrix min_to_reduce ro ix k

/-- Duplicate-free keys in every committed output row. -/
def RowsNodup {SnzVal : Type} (ro : CSM SnzVal) : Prop :=
  ∀ i, i < ro.nummaj → hashNodup (ro.rows.getD i [])

/-- The value, in the interpretation ring, of the sparse vector being
assembled for the current major key: the restricted original row plus the
row-operation combination of the restricted rows of earlier pivots. -/
def Vcomb {MajKey MinKey SnzVal Q : Type} [DecidableEq MinKey] [CommRing Q]
    [Inhabited MajKey] (phi : SnzVal → Q) (matrix : SmOracle MajKey MinKey SnzVal)
    (min_to_reduce : MinKey → Bool) (ix : Indexing MinKey MajKey) (majkey : MajKey)
    (n : Nat) (hhR : Hash Nat SnzVal) (k : MinKey) : Q :=
  valphi phi (restrictRow matrix min_to_reduce majkey) k +
  (Finset.range n).sum
    (fun j => valphi phi hhR j * valphi phi (Rrow matrix min_to_reduce ix j) k)

/-- The per-key accumulator invariant of the inner loop: except at bad
pivot keys (where dropped contributions accumulate), the main accumulator
holds exactly the value of the assembled combination. -/
def InnerVal {MajKey MinKey SnzVal Q : Type} [LinearOrder MinKey] [CommRing Q]
    [Inhabited MajKey] (phi : SnzVal → Q) (matrix : SmOracle MajKey MinKey SnzVal)
    (min_to_reduce : MinKey → Bool) (ro : CSM SnzVal) (ix : Indexing MinKey MajKey)
    (majkey : MajKey) (s : InnerState MinKey SnzVal) : Prop :=
  ∀ k, BadKey matrix min_to_reduce ro ix k ∨
    valphi phi s.hash_reduced k =
      Vcomb phi matrix min_to_reduce ix majkey ro.nummaj s.hash_rowoper k

/-- The run invariant of the inner elimination loop used by the termination
argument: both accumulators are duplicate-free, row-operation keys stay
below the number of committed rows, the heap covers the accumulator's key
set, and the per-key value invariant holds. -/
def StateInv {MajKey MinKey SnzVal Q : Type} [LinearOrder MinKey] [CommRing Q]
    [Inhabited MajKey] (phi : SnzVal → Q) (matrix : SmOracle MajKey MinKey SnzVal)
    (min_to_reduce : MinKey → Bool) (ro : CSM SnzVal) (ix : Indexing MinKey MajKey)
    (majkey : MajKey) (s : InnerState MinKey SnzVal) : Prop :=
  hashNodup s.hash_reduced ∧ hashNodup s.hash_rowoper ∧
  (∀ p ∈ s.hash_rowoper, p.1 < ro.nummaj) ∧
  (∀ k, (hashLookup s.hash_reduced k).isSome → k ∈ s.heap_reduced) ∧
  InnerVal phi matrix min_to_reduce ro ix majkey s

/-- Modelled from the spec (§4.1): the modulus ring `RingSpec::Modulus(n)`
of `src/matrix.rs`, which is not among the sources — exact integer
arithmetic with zero test, canonicalization and partial inversion modulo
`n`. -/
def modRing (n : Int) : RingMetadata Int where
  add := fun a b => a + b
  neg := fun a => -a
  mul := fun a b => a * b
  is_0 := fun v => v % n == 0
  inverse := fun v =>
    (((List.range n.natAbs).map (fun u => (u : Int))).find? (fun u => (v * u) % n == 1))
  simplify := fun v => v % n
  identity_additive := 0
  identity_multiplicative := 1

/-- The end-to-end scenario oracle of spec §8: modulus-2 ring, major keys
A = 0 and B = 1, minor keys x = 0 and y = 1, row A = x + y and row B = x. -/
def oracle22 : SmOracle Nat Nat Int where
  ring := modRing 2
  maj_itr := fun m => if m = 0 then [(0, 1), (1, 1)] else [(0, 1)]

/-- The active minor set of the end-to-end scenario: both minor keys 0, 1. -/
def mins01 : Nat → Bool := fun k => decide (k < 2)

/-- Expected output matrix of the end-to-end scenario: row 0 is the
self-entry of pivot B on x; row 1 is the self-entry of pivot A on y plus
coefficient 1 (the elimination scale mod 2) at row 0. -/
def csm22 : CSM Int := { rows := [[(0, 1)], [(1, 1), (0, 1)]], pending := [] }

/-- Expected indexing of the end-to-end scenario: index 0 is
(major B = 1, minor x = 0), index 1 is (major A = 0, minor y = 1), and the
ascending-minor-order permutation is [0, 1]. -/
def indexing22 : Indexing Nat Nat :=
  { minkey_2_index := [(0, 0), (1, 1)]
    majkey_2_index := [(1, 0), (0, 1)]
    index_2_majkey := [1, 0]
    index_2_minkey := [0, 1]
    ordered_minind := [0, 1] }

/-- An oracle over the modulus-4 ring whose every row is 2x + y; with
minor 0 = x not invertible it exhibits the worklist-duplication behavior
and the non-invertible-dominator branch. -/
def oracle4 : SmOracle Nat Nat Int where
  ring := modRing 4
  maj_itr := fun _ => [(0, 2), (1, 1)]

/-- A degenerate oracle over the modulus-2 ring whose every row is empty
(used to exhibit the missing-dominator branch on a reconstructed row). -/
def oracleEmptyRow : SmOracle Nat Nat Int where
  ring := modRing 2
  maj_itr := fun _ => []

/-- An oracle over the modulus-4 ring whose every row is 2x (used to
exhibit the non-invertible-dominator branch: the dominator 2 has no inverse
modulo 4). -/
def oracleTwoX : SmOracle Nat Nat Int where
  ring := modRing 4
  maj_itr := fun _ => [(0, 2)]

/-- A one-pivot indexing used by the branch witnesses: index 0 is
(major 0, minor 0). -/
def indexing0 : Indexing Nat Nat :=
  { minkey_2_index := [(0, 0)], majkey_2_index := [(0, 0)],
    index_2_majkey := [0], index_2_minkey := [0], ordered_minind := [] }

/-- A one-row output matrix used by the branch witnesses: row 0 is just the
self-entry. -/
def rowoper0 : CSM Int := { rows := [[(0, 1)]], pending := [] }

/-- A working state used by the branch witnesses: minor key 0 is pending
with coefficient 1. -/
def state0 : InnerState Nat Int :=
  { heap_reduced := [0], hash_reduced := [(0, 1)],
    heap_rowoper := [], hash_rowoper := [] }

/-- Output matrix of the duplicate-worklist run of `oracle4`: major 0 is
processed twice and pivots twice (on x with leading value 2, then — after
the non-invertible dominator 2 drops the x entry — on y). -/
def csm4 : CSM Int := { rows := [[(0, 1)], [(1, 1)]], pending := [] }

/-- Indexing of the duplicate-worklist run of `oracle4`: indices 0 and 1
both carry major key 0, and `majkey_2_index` keeps only the later index. -/
def indexing4 : Indexing Nat Nat :=
  { minkey_2_index := [(0, 0), (1, 1)]
    majkey_2_index := [(0, 1)]
    index_2_majkey := [0, 0]
    index_2_minkey := [0, 1]
    ordered_minind := [0, 1] }

/-- Claim C1: end-to-end scenario over the modulus-2 ring.  The worklist is
the vector with A = 0 first and B = 1 last, so that `pop()` removes B first;
with active minors {x, y} the factorization pivots B on x at index 0 with
self entry 1, eliminates A's x entry with scale 1 mod 2, pivots A on y at
index 1, and the ascending-minor-order permutation is [0, 1]. -/
theorem C1_end_to_end :
    decomp_row_use_pairs 5 oracle22 [0, 1] mins01 = some (csm22, indexing22) := by
  decide

section HashLemmas

variable {K V : Type} [DecidableEq K]

lemma hashLookup_cons (p : K × V) (t : Hash K V) (k : K) :
    hashLookup (p :: t) k = if p.1 = k then some p.2 else hashLookup t k := rfl

lemma hashLookup_isSome_iff_mem (h : Hash K V) (k : K) :
    (hashLookup h k).isSome ↔ k ∈ h.map Prod.fst := by
  induction h with
  | nil => simp [hashLookup]
  | cons p t ih =>
    by_cases hp : p.1 = k
    · simp [hashLookup, hp]
    · have hp2 : ¬k = p.1 := fun h => hp h.symm
      simp [hashLookup, hp, hp2, ih]

lemma hashLookup_eq_none_of_not_mem {h : Hash K V} {k : K}
    (hk : k ∉ h.map Prod.fst) : hashLookup h k = none := by
  have := (hashLookup_isSome_iff_mem h k).not.2 hk
  cases hl : hashLookup h k with
  | none => rfl
  | some v => rw [hl] at this; simp at this

lemma hashLookup_mem {h : Hash K V} {k : K} {v : V}
    (hl : hashLookup h k = some v) : (k, v) ∈ h := by
  induction h with
  | nil => simp [hashLookup] at hl
  | cons p t ih =>
    rw [hashLookup_cons] at hl
    by_cases hp : p.1 = k
    · subst hp
      rw [if_pos rfl] at hl
      cases hl
      exact List.mem_cons_self _ _
    · rw [if_neg hp] at hl
      exact List.mem_cons_of_mem _ (ih hl)

lemma hashLookup_remove_ne {h : Hash K V} {k k2 : K} (hne : k2 ≠ k) :
    hashLookup (hashRemoveKey h k) k2 = hashLookup h k2 := by
  induction h with
  | nil => rfl
  | cons p t ih =>
    by_cases hp : p.1 = k
    · rw [hashRemoveKey, if_pos hp, hashLookup_cons,
        if_neg (show ¬p.1 = k2 from fun h => hne (h ▸ hp))]
    · rw [hashRemoveKey, if_neg hp, hashLookup_cons, hashLookup_cons, ih]

lemma keys_remove_subset (h : Hash K V) (k : K) :
    ((hashRemoveKey h k).map Prod.fst) ⊆ h.map Prod.fst := by
  induction h with
  | nil => simp [hashRemoveKey]
  | cons p t ih =>
    by_cases hp : p.1 = k
    · simp only [hashRemoveKey, if_pos hp, List.map_cons]
      intro a ha
      exact List.mem_cons_of_mem _ ha
    · simp only [hashRemoveKey, if_neg hp, List.map_cons]
      intro a ha
      rcases List.mem_cons.1 ha with ha | ha
      · exact ha ▸ List.mem_cons_self _ _
      · exact List.mem_cons_of_mem _ (ih ha)

lemma mem_remove_subset {h : Hash K V} {k : K} {p : K × V}
    (hp : p ∈ hashRemoveKey h k) : p ∈ h := by
  induction h with
  | nil => simp [hashRemoveKey] at hp
  | cons q t ih =>
    by_cases hq : q.1 = k
    · rw [hashRemoveKey, if_pos hq] at hp
      exact List.mem_cons_of_mem _ hp
    · rw [hashRemoveKey, if_neg hq] at hp
      rcases List.mem_cons.1 hp with hp | hp
      · exact hp ▸ List.mem_cons_self _ _
      · exact List.mem_cons_of_mem _ (ih hp)

omit [DecidableEq K] in
lemma hashNodup_cons {p : K × V} {t : Hash K V} :
    hashNodup (p :: t) ↔ p.1 ∉ t.map Prod.fst ∧ hashNodup t := by
  simp [hashNodup]

lemma hashNodup_remove {h : Hash K V} (hn : hashNodup h) (k : K) :
    hashNodup (hashRemoveKey h k) := by
  induction h with
  | nil => simpa [hashRemoveKey] using hn
  | cons p t ih =>
    rw [hashNodup_cons] at hn
    by_cases hp : p.1 = k
    · rw [hashRemoveKey, if_pos hp]
      exact hn.2
    · rw [hashRemoveKey, if_neg hp, hashNodup_cons]
      exact ⟨fun hmem => hn.1 (keys_remove_subset t k hmem), ih hn.2⟩

lemma hashLookup_remove_self {h : Hash K V} (hn : hashNodup h) (k : K) :
    hashLookup (hashRemoveKey h k) k = none := by
  induction h with
  | nil => rfl
  | cons p t ih =>
    rw [hashNodup_cons] at hn
    by_cases hp : p.1 = k
    · rw [hashRemoveKey, if_pos hp]
      exact hashLookup_eq_none_of_not_mem (hp ▸ hn.1)
    · rw [hashRemoveKey, if_neg hp, hashLookup_cons, if_neg hp]
      exact ih hn.2

lemma map_fst_hashSet (h : Hash K V) (k : K) (v : V) :
    (hashSet h k v).map Prod.fst = h.map Prod.fst := by
  induction h with
  | nil => rfl
  | cons p t ih =>
    by_cases hp : p.1 = k
    · simp [hashSet, hp]
    · simp [hashSet, hp, ih]

lemma hashNodup_set {h : Hash K V} (hn : hashNodup h) (k : K) (v : V) :
    hashNodup (hashSet h k v) := by
  unfold hashNodup
  rw [map_fst_hashSet]
  exact hn

lemma hashLookup_set_ne {h : Hash K V} {k k2 : K} (v : V) (hne : k2 ≠ k) :
    hashLookup (hashSet h k v) k2 = hashLookup h k2 := by
  induction h with
  | nil => rfl
  | cons p t ih =>
    by_cases hp : p.1 = k
    · rw [hashSet, if_pos hp, hashLookup_cons, hashLookup_cons]
      simp only [hp]
      rw [if_neg (fun h => hne h.symm), if_neg (fun h => hne h.symm)]
    · rw [hashSet, if_neg hp, hashLookup_cons, hashLookup_cons, ih]

lemma hashLookup_set_self {h : Hash K V} {k : K} (v : V)
    (hs : (hashLookup h k).isSome) : hashLookup (hashSet h k v) k = some v := by
  induction h with
  | nil => simp [hashLookup] at hs
  | cons p t ih =>
    by_cases hp : p.1 = k
    · rw [hashSet, if_pos hp, hashLookup_cons, if_pos rfl]
    · rw [hashLookup_cons, if_neg hp] at hs
      rw [hashSet, if_neg hp, hashLookup_cons, if_neg hp]
      exact ih hs

lemma mem_hashSet {h : Hash K V} {k : K} {v : V} {p : K × V}
    (hp : p ∈ hashSet h k v) : p ∈ h ∨ p = (k, v) := by
  induction h with
  | nil => simp [hashSet] at hp
  | cons q t ih =>
    by_cases hq : q.1 = k
    · rw [hashSet, if_pos hq] at hp
      rcases List.mem_cons.1 hp with hp | hp
      · right; exact hp
      · left; exact List.mem_cons_of_mem _ hp
    · rw [hashSet, if_neg hq] at hp
      rcases List.mem_cons.1 hp with hp | hp
      · left; exact hp ▸ List.mem_cons_self _ _
      · rcases ih hp with h1 | h1
        · left; exact List.mem_cons_of_mem _ h1
        · right; exact h1

lemma hashLookup_append_of_none {a b : Hash K V} {k : K}
    (ha : hashLookup a k = none) : hashLookup (a ++ b) k = hashLookup b k := by
  induction a with
  | nil => rfl
  | cons p t ih =>
    rw [hashLookup_cons] at ha
    by_cases hp : p.1 = k
    · rw [if_pos hp] at ha; cases ha
    · rw [if_neg hp] at ha
      rw [List.cons_append, hashLookup_cons, if_neg hp]
      exact ih ha

lemma hashLookup_insert_self (h : Hash K V) (k : K) (v : V) :
    hashLookup (hashInsert h k v) k = some v := by
  unfold hashInsert
  cases hl : hashLookup h k with
  | some w => exact hashLookup_set_self v (by rw [hl]; rfl)
  | none =>
    rw [hashLookup_append_of_none hl, hashLookup_cons, if_pos rfl]

lemma hashLookup_append_singleton_ne (a : Hash K V) {k k2 : K} (v : V)
    (hne : k2 ≠ k) : hashLookup (a ++ [(k, v)]) k2 = hashLookup a k2 := by
  induction a with
  | nil =>
    show (if k = k2 then some v else none) = none
    rw [if_neg (fun h => hne h.symm)]
  | cons p t ih =>
    rw [List.cons_append, hashLookup_cons, hashLookup_cons, ih]

lemma hashLookup_insert_ne {h : Hash K V} {k k2 : K} (v : V) (hne : k2 ≠ k) :
    hashLookup (hashInsert h k v) k2 = hashLookup h k2 := by
  unfold hashInsert
  cases hl : hashLookup h k with
  | some w => exact hashLookup_set_ne v hne
  | none => exact hashLookup_append_singleton_ne h v hne

lemma hashNodup_insert {h : Hash K V} (hn : hashNodup h) (k : K) (v : V) :
    hashNodup (hashInsert h k v) := by
  unfold hashInsert
  cases hl : hashLookup h k with
  | some w => exact hashNodup_set hn k v
  | none =>
    unfold hashNodup
    rw [List.map_append]
    simp only [List.map_cons, List.map_nil]
    rw [List.nodup_append]
    refine ⟨hn, List.nodup_singleton _, ?_⟩
    intro a ha hb
    simp only [List.mem_singleton] at hb
    subst hb
    have := (hashLookup_isSome_iff_mem h a).2 ha
    rw [hl] at this
    simp at this

lemma hashRemoveGet_eq (h : Hash K V) (k : K) :
    hashRemoveGet h k =
      match hashLookup h k with
      | none => none
      | some v => some (v, hashRemoveKey h k) := by
  induction h with
  | nil => rfl
  | cons p t ih =>
    by_cases hp : p.1 = k
    · rw [hashRemoveGet, if_pos hp, hashLookup_cons, if_pos hp, hashRemoveKey, if_pos hp]
    · rw [hashRemoveGet, if_neg hp, hashLookup_cons, if_neg hp, hashRemoveKey, if_neg hp, ih]
      cases hashLookup t k <;> rfl

end HashLemmas

section MergeLemmas

variable {K SnzVal : Type} [DecidableEq K]

/-- Claim C3: after `update_heap_hash`, the hash map holds exactly the
ring-nonzero coefficients of (old accumulator) + scale * (source row), and
the source row has been drained.  The accumulator and the source row are
sparse rows in the sense of the data model (§3): duplicate-free keys, and
nonzero stored coefficients in the accumulator. -/
theorem C3_update_heap_hash (ring : RingMetadata SnzVal) (heap : List K)
    (hash row : Hash K SnzVal) (scale : SnzVal)
    (hh : hashNodup hash) (hr : hashNodup row)
    (hnz : ∀ p ∈ hash, ring.is_0 p.2 = false) :
    (update_heap_hash ring heap hash row scale).2.2 = [] ∧
    ∀ k, hashLookup (update_heap_hash ring heap hash row scale).2.1 k =
      match sumCoeff ring hash row scale k with
      | some v => if ring.is_0 v then none else some v
      | none => none := by
  induction row generalizing heap hash with
  | nil =>
    refine ⟨rfl, fun k => ?_⟩
    show hashLookup hash k = _
    unfold sumCoeff
    cases hl : hashLookup hash k with
    | none => simp [hashLookup]
    | some a =>
      have ha : ring.is_0 a = false := hnz _ (hashLookup_mem hl)
      simp [hashLookup, ha]
  | cons q rest ih =>
    obtain ⟨key, val⟩ := q
    rw [hashNodup_cons] at hr
    have hrest : hashLookup rest key = none := hashLookup_eq_none_of_not_mem hr.1
    have step :
        ∀ (hash2 : Hash K SnzVal) (heap2 : List K),
          hashNodup hash2 →
          (∀ p ∈ hash2, ring.is_0 p.2 = false) →
          (∀ k2, k2 ≠ key → hashLookup hash2 k2 = hashLookup hash k2) →
          (hashLookup hash2 key =
            match sumCoeff ring hash ((key, val) :: rest) scale key with
            | some v => if ring.is_0 v then none else some v
            | none => none) →
          (update_heap_hash ring heap2 hash2 rest scale).2.2 = [] ∧
          ∀ k, hashLookup (update_heap_hash ring heap2 hash2 rest scale).2.1 k =
            match sumCoeff ring hash ((key, val) :: rest) scale k with
            | some v => if ring.is_0 v then none else some v
            | none => none := by
      intro hash2 heap2 hn2 hnz2 hne hkey
      obtain ⟨hdrain, hlook⟩ := ih heap2 hash2 hn2 hr.2 hnz2
      refine ⟨hdrain, fun k => ?_⟩
      by_cases hk : k = key
      · subst hk
        rw [hlook k, ← hkey]
        have heq : sumCoeff ring hash2 rest scale k =
            match hashLookup hash2 k with
            | some a => some a
            | none => none := by
          unfold sumCoeff
          rw [hrest]
          cases hashLookup hash2 k <;> rfl
        rw [heq]
        cases hl2 : hashLookup hash2 k with
        | none => simp
        | some a =>
          have ha : ring.is_0 a = false := hnz2 _ (hashLookup_mem hl2)
          simp [ha]
      · rw [hlook k]
        have h1 : sumCoeff ring hash2 rest scale k =
            sumCoeff ring hash ((key, val) :: rest) scale k := by
          unfold sumCoeff
          rw [hne k hk, hashLookup_cons, if_neg (fun h => hk h.symm)]
        rw [h1]
    have hheadlook : hashLookup ((key, val) :: rest) key = some val := by
      rw [hashLookup_cons, if_pos rfl]
    show ((match hashLookup hash key with
      | some x => _
      | none => _ : List K × Hash K SnzVal × Hash K SnzVal)).2.2 = [] ∧ _
    cases hl : hashLookup hash key with
    | some x =>
      have hsome : sumCoeff ring hash ((key, val) :: rest) scale key =
          some (ring.add x (ring.mul scale val)) := by
        unfold sumCoeff
        rw [hl, hheadlook]
      by_cases hz : ring.is_0 (ring.add x (ring.mul scale val))
      · have := step (hashRemoveKey hash key) heap (hashNodup_remove hh key)
          (fun p hp => hnz p (mem_remove_subset hp))
          (fun k2 hk2 => hashLookup_remove_ne hk2)
          (by rw [hashLookup_remove_self hh key, hsome]; simp [hz])
        rw [update_heap_hash, hl]
        simpa [hz] using this
      · have hx : (hashLookup hash key).isSome := by rw [hl]; rfl
        have := step (hashSet hash key (ring.add x (ring.mul scale val))) heap
          (hashNodup_set hh key _)
          (fun p hp => by
            rcases mem_hashSet hp with h1 | h1
            · exact hnz p h1
            · rw [h1]; simpa using eq_false_of_ne_true hz)
          (fun k2 hk2 => hashLookup_set_ne _ hk2)
          (by
            rw [hashLookup_set_self _ hx, hsome]
            simp [hz])
        rw [update_heap_hash, hl]
        simpa [hz] using this
    | none =>
      have hsome : sumCoeff ring hash ((key, val) :: rest) scale key =
          some (ring.mul scale val) := by
        unfold sumCoeff
        rw [hl, hheadlook]
      by_cases hz : ring.is_0 (ring.mul scale val)
      · have := step hash heap hh hnz (fun _ _ => rfl)
          (by rw [hl, hsome]; simp [hz])
        rw [update_heap_hash, hl]
        simpa [hz] using this
      · have := step (hashInsert hash key (ring.mul scale val)) (key :: heap)
          (hashNodup_insert hh key _)
          (fun p hp => by
            unfold hashInsert at hp
            rw [hl] at hp
            rcases List.mem_append.1 hp with h1 | h1
            · exact hnz p h1
            · simp only [List.mem_singleton] at h1
              rw [h1]
              simpa using eq_false_of_ne_true hz)
          (fun k2 hk2 => hashLookup_insert_ne _ hk2)
          (by rw [hashLookup_insert_self, hsome]; simp [hz])
        rw [update_heap_hash, hl]
        simpa [hz] using this

/-- Witness for C3 over the modulus-2 ring: merging the source row
x + y (scale 1) into the accumulator holding x leaves an empty source row,
cancels x, and keeps y. -/
theorem C3_witness :
    (update_heap_hash (modRing 2) [] [(0, 1)] [(0, 1), (1, 1)] 1).2.2 = ([] : Hash Nat Int) ∧
    hashLookup (update_heap_hash (modRing 2) [] [(0, 1)] [(0, 1), (1, 1)] 1).2.1 0 = none := by
  have h := C3_update_heap_hash (modRing 2) [] [(0, 1)] [(0, 1), (1, 1)] 1
    (by decide) (by decide) (by decide)
  exact ⟨h.1, by rw [h.2 0]; decide⟩

end MergeLemmas

section StepLemmas

variable {MajKey MinKey SnzVal : Type} [LinearOrder MinKey] [DecidableEq MajKey]
  [Inhabited MajKey]

lemma update_heap_hash_mem_heap {K : Type} [DecidableEq K] (ring : RingMetadata SnzVal) :
    ∀ (row : Hash K SnzVal) (heap : List K) (hash : Hash K SnzVal) (scale : SnzVal)
      (k : K), k ∈ heap → k ∈ (update_heap_hash ring heap hash row scale).1 := by
  intro row
  induction row with
  | nil => intro heap hash scale k hk; exact hk
  | cons q rest ih =>
    intro heap hash scale k hk
    obtain ⟨key, val⟩ := q
    simp only [update_heap_hash]
    cases hashLookup hash key with
    | some x =>
      by_cases hz : ring.is_0 (ring.add x (ring.mul scale val))
      · simp only [hz, if_true]
        exact ih heap _ scale k hk
      · simp only [hz, if_false]
        exact ih heap _ scale k hk
    | none =>
      by_cases hz : ring.is_0 (ring.mul scale val)
      · simp only [hz, if_true]
        exact ih heap hash scale k hk
      · simp only [hz, if_false]
        exact ih (key :: heap) _ scale k (List.mem_cons_of_mem _ hk)

lemma update_heap_hash_cover {K : Type} [DecidableEq K] (ring : RingMetadata SnzVal) :
    ∀ (row : Hash K SnzVal) (heap : List K) (hash : Hash K SnzVal) (scale : SnzVal),
      (∀ k, (hashLookup hash k).isSome → k ∈ heap) →
      ∀ k, (hashLookup (update_heap_hash ring heap hash row scale).2.1 k).isSome →
        k ∈ (update_heap_hash ring heap hash row scale).1 := by
  intro row
  induction row with
  | nil => intro heap hash scale hcov k hk; exact hcov k hk
  | cons q rest ih =>
    intro heap hash scale hcov k
    obtain ⟨key, val⟩ := q
    simp only [update_heap_hash]
    cases hl : hashLookup hash key with
    | some x =>
      by_cases hz : ring.is_0 (ring.add x (ring.mul scale val))
      · simp only [hz, if_true]
        refine ih heap _ scale (fun k2 hk2 => hcov k2 ?_) k
        rw [hashLookup_isSome_iff_mem] at hk2 ⊢
        exact keys_remove_subset hash key hk2
      · simp only [hz, if_false]
        refine ih heap _ scale (fun k2 hk2 => hcov k2 ?_) k
        rw [hashLookup_isSome_iff_mem] at hk2 ⊢
        rw [map_fst_hashSet] at hk2
        exact hk2
    | none =>
      by_cases hz : ring.is_0 (ring.mul scale val)
      · simp only [hz, if_true]
        exact ih heap hash scale hcov k
      · simp only [hz, if_false]
        refine ih (key :: heap) _ scale (fun k2 hk2 => ?_) k
        by_cases hk2k : k2 = key
        · exact hk2k ▸ List.mem_cons_self _ _
        · rw [hashLookup_insert_ne _ hk2k] at hk2
          exact List.mem_cons_of_mem _ (hcov k2 hk2)

lemma inner_step_stale (matrix : SmOracle MajKey MinKey SnzVal)
    (min_to_reduce : MinKey → Bool) (majkey : MajKey) (rowoper : CSM SnzVal)
    (indexing : Indexing MinKey MajKey) (s : InnerState MinKey SnzVal)
    {minkey : MinKey} {heap1 : List MinKey}
    (hpop : heapPop s.heap_reduced = some (minkey, heap1))
    (hrem : hashRemoveGet s.hash_reduced minkey = none) :
    inner_step matrix min_to_reduce majkey rowoper indexing s =
      Sum.inl { s with heap_reduced := heap1 } := by
  simp only [inner_step, hpop, hrem]

lemma inner_step_zero (matrix : SmOracle MajKey MinKey SnzVal)
    (min_to_reduce : MinKey → Bool) (majkey : MajKey) (rowoper : CSM SnzVal)
    (indexing : Indexing MinKey MajKey) (s : InnerState MinKey SnzVal)
    {minkey : MinKey} {heap1 : List MinKey} {leading_entry : SnzVal}
    {hash1 : Hash MinKey SnzVal}
    (hpop : heapPop s.heap_reduced = some (minkey, heap1))
    (hrem : hashRemoveGet s.hash_reduced minkey = some (leading_entry, hash1))
    (hz : matrix.ring.is_0 leading_entry = true) :
    inner_step matrix min_to_reduce majkey rowoper indexing s =
      Sum.inl { s with heap_reduced := heap1, hash_reduced := hash1 } := by
  simp only [inner_step, hpop, hrem, hz, if_true]

lemma inner_step_nodominator (matrix : SmOracle MajKey MinKey SnzVal)
    (min_to_reduce : MinKey → Bool) (majkey : MajKey) (rowoper : CSM SnzVal)
    (indexing : Indexing MinKey MajKey) (s : InnerState MinKey SnzVal)
    {minkey : MinKey} {heap1 : List MinKey} {leading_entry : SnzVal}
    {hash1 : Hash MinKey SnzVal} {index : Nat}
    (hpop : heapPop s.heap_reduced = some (minkey, heap1))
    (hrem : hashRemoveGet s.hash_reduced minkey = some (leading_entry, hash1))
    (hz : matrix.ring.is_0 leading_entry = false)
    (hidx : hashLookup indexing.minkey_2_index minkey = some index)
    (hdom : hashRemoveGet
      (reconstruct matrix min_to_reduce indexing (rowoper.maj_hash index)) minkey = none) :
    inner_step matrix min_to_reduce majkey rowoper indexing s =
      Sum.inl { s with heap_reduced := heap1, hash_reduced := hash1 } := by
  simp only [inner_step, hpop, hrem, hz, if_false, hidx, hdom, Bool.false_eq_true]

lemma inner_step_noninvertible (matrix : SmOracle MajKey MinKey SnzVal)
    (min_to_reduce : MinKey → Bool) (majkey : MajKey) (rowoper : CSM SnzVal)
    (indexing : Indexing MinKey MajKey) (s : InnerState MinKey SnzVal)
    {minkey : MinKey} {heap1 : List MinKey} {leading_entry dominator : SnzVal}
    {hash1 row_reduced1 : Hash MinKey SnzVal} {index : Nat}
    (hpop : heapPop s.heap_reduced = some (minkey, heap1))
    (hrem : hashRemoveGet s.hash_reduced minkey = some (leading_entry, hash1))
    (hz : matrix.ring.is_0 leading_entry = false)
    (hidx : hashLookup indexing.minkey_2_index minkey = some index)
    (hdom : hashRemoveGet
      (reconstruct matrix min_to_reduce indexing (rowoper.maj_hash index)) minkey =
      some (dominator, row_reduced1))
    (hinv : matrix.ring.inverse dominator = none) :
    inner_step matrix min_to_reduce majkey rowoper indexing s =
      Sum.inl { s with heap_reduced := heap1, hash_reduced := hash1 } := by
  simp only [inner_step, hpop, hrem, hz, if_false, hidx, hdom, hinv, Bool.false_eq_true]

lemma inner_loop_done (matrix : SmOracle MajKey MinKey SnzVal)
    (min_to_reduce : MinKey → Bool) (majkey : MajKey) (fuel : Nat)
    (rowoper : CSM SnzVal) (indexing : Indexing MinKey MajKey)
    (s : InnerState MinKey SnzVal) {r : CSM SnzVal × Indexing MinKey MajKey}
    (h : inner_step matrix min_to_reduce majkey rowoper indexing s = Sum.inr r) :
    inner_loop matrix min_to_reduce majkey fuel rowoper indexing s = some r := by
  rw [inner_loop, h]

lemma inner_loop_cont (matrix : SmOracle MajKey MinKey SnzVal)
    (min_to_reduce : MinKey → Bool) (majkey : MajKey) (fuel : Nat)
    (rowoper : CSM SnzVal) (indexing : Indexing MinKey MajKey)
    (s : InnerState MinKey SnzVal) {s2 : InnerState MinKey SnzVal}
    (h : inner_step matrix min_to_reduce majkey rowoper indexing s = Sum.inl s2) :
    inner_loop matrix min_to_reduce majkey (fuel + 1) rowoper indexing s =
      inner_loop matrix min_to_reduce majkey fuel rowoper indexing s2 := by
  rw [inner_loop, h]

end StepLemmas

section BranchClaims

variable {MajKey MinKey SnzVal : Type} [LinearOrder MinKey] [DecidableEq MajKey]
  [Inhabited MajKey]

/-- Claim C6: accumulator heap soundness.  (1) After any `update_heap_hash`
call, every key present in the hash map appears at least once in the heap,
provided that held before the call (the heap may keep stale duplicates but
never under-approximates the hash).  (2) In the elimination loop, a popped
key that is absent from the hash is silently skipped, the state otherwise
unchanged.  (3) A popped key whose stored value is ring-zero is skipped
likewise, only dropping that entry; in neither case is the key selected as
a leading entry (the step continues with `Sum.inl` and does not touch the
row-operation accumulator or the output). -/
theorem C6_heap_soundness :
    (∀ (ring : RingMetadata SnzVal) (heap : List MinKey)
      (hash row : Hash MinKey SnzVal) (scale : SnzVal),
      (∀ k, (hashLookup hash k).isSome → k ∈ heap) →
      ∀ k, (hashLookup (update_heap_hash ring heap hash row scale).2.1 k).isSome →
        k ∈ (update_heap_hash ring heap hash row scale).1) ∧
    (∀ (matrix : SmOracle MajKey MinKey SnzVal) (min_to_reduce : MinKey → Bool)
      (majkey : MajKey) (rowoper : CSM SnzVal) (indexing : Indexing MinKey MajKey)
      (s : InnerState MinKey SnzVal) (minkey : MinKey) (heap1 : List MinKey),
      heapPop s.heap_reduced = some (minkey, heap1) →
      hashRemoveGet s.hash_reduced minkey = none →
      inner_step matrix min_to_reduce majkey rowoper indexing s =
        Sum.inl { s with heap_reduced := heap1 }) ∧
    (∀ (matrix : SmOracle MajKey MinKey SnzVal) (min_to_reduce : MinKey → Bool)
      (majkey : MajKey) (rowoper : CSM SnzVal) (indexing : Indexing MinKey MajKey)
      (s : InnerState MinKey SnzVal) (minkey : MinKey) (heap1 : List MinKey)
      (leading_entry : SnzVal) (hash1 : Hash MinKey SnzVal),
      heapPop s.heap_reduced = some (minkey, heap1) →
      hashRemoveGet s.hash_reduced minkey = some (leading_entry, hash1) →
      matrix.ring.is_0 leading_entry = true →
      inner_step matrix min_to_reduce majkey rowoper indexing s =
        Sum.inl { s with heap_reduced := heap1, hash_reduced := hash1 }) := by
  refine ⟨fun ring heap hash row scale hcov => update_heap_hash_cover ring row heap hash scale hcov,
    fun matrix mins majkey rowoper indexing s minkey heap1 hpop hrem =>
      inner_step_stale matrix mins majkey rowoper indexing s hpop hrem,
    fun matrix mins majkey rowoper indexing s minkey heap1 le hash1 hpop hrem hz =>
      inner_step_zero matrix mins majkey rowoper indexing s hpop hrem hz⟩

/-- Witness for C6: (1) after merging row y (scale 1) into the accumulator
holding x, the newly live key y = 1 is in the heap; (2) a stale pop of key 0
with an empty hash is skipped; (3) a pop of key 0 holding the ring-zero
value 2 (mod 2) is skipped, dropping only that entry. -/
theorem C6_witness :
    ((1 : Nat) ∈ (update_heap_hash (modRing 2) [0] [(0, 1)] [(1, 1)] 1).1) ∧
    (inner_step oracle22 mins01 0 rowoper0 indexing0
      { heap_reduced := [0], hash_reduced := [], heap_rowoper := [], hash_rowoper := [] } =
      Sum.inl { heap_reduced := [], hash_reduced := [], heap_rowoper := [], hash_rowoper := [] }) ∧
    (inner_step oracle22 mins01 0 rowoper0 indexing0
      { heap_reduced := [0], hash_reduced := [(0, 2)], heap_rowoper := [], hash_rowoper := [] } =
      Sum.inl { heap_reduced := [], hash_reduced := [], heap_rowoper := [], hash_rowoper := [] }) := by
  have h := @C6_heap_soundness Nat Nat Int _ _ _
  refine ⟨h.1 (modRing 2) [0] [(0, 1)] [(1, 1)] 1 ?_ 1 (by decide),
    h.2.1 oracle22 mins01 0 rowoper0 indexing0
      { heap_reduced := [0], hash_reduced := [], heap_rowoper := [], hash_rowoper := [] }
      0 [] (by decide) (by decide),
    h.2.2 oracle22 mins01 0 rowoper0 indexing0
      { heap_reduced := [0], hash_reduced := [(0, 2)], heap_rowoper := [], hash_rowoper := [] }
      0 [] 2 [] (by decide) (by decide) (by decide)⟩
  intro k hk
  rw [hashLookup_isSome_iff_mem] at hk
  simpa using hk

/-- Claim C10 (implicit): when the reconstructed pivot row has no entry at
the current leading minor key (the dominator lookup finds nothing), the
leading entry is silently dropped and the inner loop proceeds to the next
heap candidate with neither accumulator updated — the continuation state is
exactly the one of the non-invertible-dominator case. -/
theorem C10_missing_dominator (matrix : SmOracle MajKey MinKey SnzVal)
    (min_to_reduce : MinKey → Bool) (majkey : MajKey) (rowoper : CSM SnzVal)
    (indexing : Indexing MinKey MajKey) (s : InnerState MinKey SnzVal)
    (minkey : MinKey) (heap1 : List MinKey) (leading_entry : SnzVal)
    (hash1 : Hash MinKey SnzVal) (index : Nat)
    (hpop : heapPop s.heap_reduced = some (minkey, heap1))
    (hrem : hashRemoveGet s.hash_reduced minkey = some (leading_entry, hash1))
    (hz : matrix.ring.is_0 leading_entry = false)
    (hidx : hashLookup indexing.minkey_2_index minkey = some index)
    (hdom : hashRemoveGet
      (reconstruct matrix min_to_reduce indexing (rowoper.maj_hash index)) minkey = none) :
    inner_step matrix min_to_reduce majkey rowoper indexing s =
      Sum.inl { s with heap_reduced := heap1, hash_reduced := hash1 } :=
  inner_step_nodominator matrix min_to_reduce majkey rowoper indexing s hpop hrem hz
    hidx hdom

/-- Witness for C10: over `oracleEmptyRow` the reconstructed pivot row at
index 0 is empty, so the dominator lookup at minor key 0 fails; the popped
leading entry is dropped and the step continues with untouched
accumulators. -/
theorem C10_witness :
    inner_step oracleEmptyRow mins01 0 rowoper0 indexing0 state0 =
      Sum.inl { heap_reduced := [], hash_reduced := [],
                heap_rowoper := [], hash_rowoper := [] } :=
  C10_missing_dominator oracleEmptyRow mins01 0 rowoper0 indexing0 state0 0 [] 1 [] 0
    (by decide) (by decide) (by decide) (by decide) (by decide)

end BranchClaims

section KeyLemmas

variable {K V SnzVal : Type} [DecidableEq K]

lemma hashRemoveGet_some {h : Hash K V} {k : K} {v : V} {h2 : Hash K V}
    (hr : hashRemoveGet h k = some (v, h2)) :
    hashLookup h k = some v ∧ h2 = hashRemoveKey h k := by
  rw [hashRemoveGet_eq] at hr
  cases hl : hashLookup h k with
  | none => rw [hl] at hr; cases hr
  | some w =>
    rw [hl] at hr
    simp only [Option.some.injEq, Prod.mk.injEq] at hr
    exact ⟨by rw [hr.1], hr.2.symm⟩

lemma hashRemoveGet_none {h : Hash K V} {k : K} (hr : hashRemoveGet h k = none) :
    hashLookup h k = none := by
  rw [hashRemoveGet_eq] at hr
  cases hl : hashLookup h k with
  | none => rfl
  | some w => rw [hl] at hr; cases hr

lemma mem_hashInsert {h : Hash K V} {k : K} {v : V} {p : K × V}
    (hp : p ∈ hashInsert h k v) : p ∈ h ∨ p = (k, v) := by
  rw [hashInsert] at hp
  cases hl : hashLookup h k with
  | some w =>
    rw [hl] at hp
    exact mem_hashSet hp
  | none =>
    rw [hl] at hp
    rcases List.mem_append.1 hp with h1 | h1
    · exact Or.inl h1
    · exact Or.inr (List.mem_singleton.1 h1)

lemma keys_hashInsert_subset {h : Hash K V} {k : K} {v : V} {x : K}
    (hx : x ∈ (hashInsert h k v).map Prod.fst) :
    x ∈ h.map Prod.fst ∨ x = k := by
  obtain ⟨p, hp, hpx⟩ := List.mem_map.1 hx
  rcases mem_hashInsert hp with h1 | h1
  · exact Or.inl (hpx ▸ List.mem_map_of_mem _ h1)
  · right
    rw [← hpx, h1]

lemma mem_keys_exists {h : Hash K V} {x : K} (hx : x ∈ h.map Prod.fst) :
    ∃ v, (x, v) ∈ h := by
  obtain ⟨p, hp, hpx⟩ := List.mem_map.1 hx
  exact ⟨p.2, by rw [← hpx]; exact hp⟩

lemma update_heap_hash_mem_keys (ring : RingMetadata SnzVal) :
    ∀ (row : Hash K SnzVal) (heap : List K) (hash : Hash K SnzVal) (scale : SnzVal)
      (p : K × SnzVal), p ∈ (update_heap_hash ring heap hash row scale).2.1 →
      p.1 ∈ hash.map Prod.fst ∨ p.1 ∈ row.map Prod.fst := by
  intro row
  induction row with
  | nil => intro heap hash scale p hp; exact Or.inl (List.mem_map_of_mem _ hp)
  | cons q rest ih =>
    intro heap hash scale p hp
    obtain ⟨key, val⟩ := q
    simp only [update_heap_hash] at hp
    cases hl : hashLookup hash key with
    | some x =>
      rw [hl] at hp
      by_cases hz : ring.is_0 (ring.add x (ring.mul scale val))
      · simp only [hz, if_true] at hp
        rcases ih heap _ scale p hp with h1 | h1
        · exact Or.inl (keys_remove_subset hash key h1)
        · exact Or.inr (List.mem_cons_of_mem _ h1)
      · simp only [hz, if_false] at hp
        rcases ih heap _ scale p hp with h1 | h1
        · rw [map_fst_hashSet] at h1
          exact Or.inl h1
        · exact Or.inr (List.mem_cons_of_mem _ h1)
    | none =>
      rw [hl] at hp
      by_cases hz : ring.is_0 (ring.mul scale val)
      · simp only [hz, if_true] at hp
        rcases ih heap hash scale p hp with h1 | h1
        · exact Or.inl h1
        · exact Or.inr (List.mem_cons_of_mem _ h1)
      · simp only [hz, if_false] at hp
        rcases ih _ _ scale p hp with h1 | h1
        · rcases keys_hashInsert_subset h1 with h2 | h2
          · exact Or.inl h2
          · exact Or.inr (h2 ▸ List.mem_cons_self _ _)
        · exact Or.inr (List.mem_cons_of_mem _ h1)

lemma add_assign_hash_mem_keys (ring : RingMetadata SnzVal) :
    ∀ (row : Hash K SnzVal) (hash : Hash K SnzVal) (scale : SnzVal)
      (p : K × SnzVal), p ∈ (add_assign_hash ring hash row scale).1 →
      p.1 ∈ hash.map Prod.fst ∨ p.1 ∈ row.map Prod.fst := by
  intro row
  induction row with
  | nil => intro hash scale p hp; exact Or.inl (List.mem_map_of_mem _ hp)
  | cons q rest ih =>
    intro hash scale p hp
    obtain ⟨key, val⟩ := q
    simp only [add_assign_hash] at hp
    cases hl : hashLookup hash key with
    | some x =>
      rw [hl] at hp
      by_cases hz : ring.is_0 (ring.add x (ring.mul scale val))
      · simp only [hz, if_true] at hp
        rcases ih _ scale p hp with h1 | h1
        · exact Or.inl (keys_remove_subset hash key h1)
        · exact Or.inr (List.mem_cons_of_mem _ h1)
      · simp only [hz, if_false] at hp
        rcases ih _ scale p hp with h1 | h1
        · rw [map_fst_hashSet] at h1
          exact Or.inl h1
        · exact Or.inr (List.mem_cons_of_mem _ h1)
    | none =>
      rw [hl] at hp
      by_cases hz : ring.is_0 (ring.mul scale val)
      · simp only [hz, if_true] at hp
        rcases ih hash scale p hp with h1 | h1
        · exact Or.inl h1
        · exact Or.inr (List.mem_cons_of_mem _ h1)
      · simp only [hz, if_false] at hp
        rcases ih _ scale p hp with h1 | h1
        · rcases keys_hashInsert_subset h1 with h2 | h2
          · exact Or.inl h2
          · exact Or.inr (h2 ▸ List.mem_cons_self _ _)
        · exact Or.inr (List.mem_cons_of_mem _ h1)

end KeyLemmas

section ActiveLemmas

variable {MajKey MinKey SnzVal : Type} [LinearOrder MinKey] [DecidableEq MajKey]
  [Inhabited MajKey]

lemma restrictRow_active (matrix : SmOracle MajKey MinKey SnzVal)
    (min_to_reduce : MinKey → Bool) (majkey : MajKey) :
    ∀ p ∈ restrictRow matrix min_to_reduce majkey, min_to_reduce p.1 = true := by
  have main : ∀ (l : List (MinKey × SnzVal)) (acc : Hash MinKey SnzVal),
      (∀ p ∈ acc, min_to_reduce p.1 = true) →
      ∀ p ∈ l.foldl
        (fun h kv => if min_to_reduce kv.1 then hashInsert h kv.1 kv.2 else h) acc,
        min_to_reduce p.1 = true := by
    intro l
    induction l with
    | nil => intro acc hacc p hp; exact hacc p hp
    | cons kv t ih =>
      intro acc hacc p hp
      simp only [List.foldl_cons] at hp
      by_cases hm : min_to_reduce kv.1 = true
      · rw [if_pos hm] at hp
        refine ih _ (fun p2 hp2 => ?_) p hp
        rcases mem_hashInsert hp2 with h1 | h1
        · exact hacc p2 h1
        · rw [h1]
          exact hm
      · rw [if_neg hm] at hp
        exact ih acc hacc p hp
  intro p hp
  exact main (matrix.maj_itr majkey) [] (by simp) p hp

lemma reconstruct_active (matrix : SmOracle MajKey MinKey SnzVal)
    (min_to_reduce : MinKey → Bool) (indexing : Indexing MinKey MajKey) :
    ∀ (rro : Hash Nat SnzVal) (p : MinKey × SnzVal),
      p ∈ reconstruct matrix min_to_reduce indexing rro → min_to_reduce p.1 = true := by
  have main : ∀ (rro : Hash Nat SnzVal) (acc : Hash MinKey SnzVal),
      (∀ p ∈ acc, min_to_reduce p.1 = true) →
      ∀ p ∈ rro.foldl
        (fun row_reduced q =>
          (add_assign_hash matrix.ring row_reduced
            (restrictRow matrix min_to_reduce
              (indexing.index_2_majkey.getD q.1 default)) q.2).1) acc,
        min_to_reduce p.1 = true := by
    intro rro
    induction rro with
    | nil => intro acc hacc p hp; exact hacc p hp
    | cons q t ih =>
      intro acc hacc p hp
      simp only [List.foldl_cons] at hp
      refine ih _ (fun p2 hp2 => ?_) p hp
      rcases add_assign_hash_mem_keys matrix.ring _ acc q.2 p2 hp2 with h1 | h1
      · obtain ⟨v, hv⟩ := mem_keys_exists h1
        exact hacc (p2.1, v) hv
      · obtain ⟨v, hv⟩ := mem_keys_exists h1
        exact restrictRow_active matrix min_to_reduce _ (p2.1, v) hv
  intro rro p hp
  exact main rro [] (by simp) p hp

end ActiveLemmas

section StepCases

variable {MajKey MinKey SnzVal : Type} [LinearOrder MinKey] [DecidableEq MajKey]
  [Inhabited MajKey]

lemma inner_step_empty (matrix : SmOracle MajKey MinKey SnzVal)
    (min_to_reduce : MinKey → Bool) (majkey : MajKey) (rowoper : CSM SnzVal)
    (indexing : Indexing MinKey MajKey) (s : InnerState MinKey SnzVal)
    (hpop : heapPop s.heap_reduced = none) :
    inner_step matrix min_to_reduce majkey rowoper indexing s =
      Sum.inr (rowoper, indexing) := by
  simp only [inner_step, hpop]

lemma inner_step_eliminate (matrix : SmOracle MajKey MinKey SnzVal)
    (min_to_reduce : MinKey → Bool) (majkey : MajKey) (rowoper : CSM SnzVal)
    (indexing : Indexing MinKey MajKey) (s : InnerState MinKey SnzVal)
    {minkey : MinKey} {heap1 : List MinKey} {leading_entry dominator inv scale : SnzVal}
    {hash1 row_reduced1 : Hash MinKey SnzVal} {index : Nat}
    (hpop : heapPop s.heap_reduced = some (minkey, heap1))
    (hrem : hashRemoveGet s.hash_reduced minkey = some (leading_entry, hash1))
    (hz : matrix.ring.is_0 leading_entry = false)
    (hidx : hashLookup indexing.minkey_2_index minkey = some index)
    (hdom : hashRemoveGet
      (reconstruct matrix min_to_reduce indexing (rowoper.maj_hash index)) minkey =
      some (dominator, row_reduced1))
    (hinv : matrix.ring.inverse dominator = some inv)
    (hscale : scale = matrix.ring.simplify
      (matrix.ring.mul (matrix.ring.neg leading_entry) inv)) :
    inner_step matrix min_to_reduce majkey rowoper indexing s =
      Sum.inl
        { heap_reduced := (update_heap_hash matrix.ring heap1 hash1 row_reduced1 scale).1
          hash_reduced := (update_heap_hash matrix.ring heap1 hash1 row_reduced1 scale).2.1
          heap_rowoper := (update_heap_hash matrix.ring s.heap_rowoper s.hash_rowoper
            (rowoper.maj_hash index) scale).1
          hash_rowoper := (update_heap_hash matrix.ring s.heap_rowoper s.hash_rowoper
            (rowoper.maj_hash index) scale).2.1 } := by
  subst hscale
  simp only [inner_step, hpop, hrem, hz, hidx, hdom, hinv, Bool.false_eq_true, if_false]

lemma inner_step_pivot (matrix : SmOracle MajKey MinKey SnzVal)
    (min_to_reduce : MinKey → Bool) (majkey : MajKey) (rowoper : CSM SnzVal)
    (indexing : Indexing MinKey MajKey) (s : InnerState MinKey SnzVal)
    {minkey : MinKey} {heap1 : List MinKey} {leading_entry : SnzVal}
    {hash1 : Hash MinKey SnzVal}
    (hpop : heapPop s.heap_reduced = some (minkey, heap1))
    (hrem : hashRemoveGet s.hash_reduced minkey = some (leading_entry, hash1))
    (hz : matrix.ring.is_0 leading_entry = false)
    (hidx : hashLookup indexing.minkey_2_index minkey = none) :
    inner_step matrix min_to_reduce majkey rowoper indexing s =
      Sum.inr
        ((rowoper.push_snzval rowoper.nummaj
            matrix.ring.identity_multiplicative).append_maj s.hash_rowoper,
         { indexing with
           minkey_2_index := hashInsert indexing.minkey_2_index minkey rowoper.nummaj
           majkey_2_index := hashInsert indexing.majkey_2_index majkey rowoper.nummaj
           index_2_majkey := indexing.index_2_majkey ++ [majkey]
           index_2_minkey := indexing.index_2_minkey ++ [minkey] }) := by
  simp only [inner_step, hpop, hrem, hz, hidx, Bool.false_eq_true, if_false]

/-- Case analysis for an inner-loop step that ends the current major key:
either the heap was exhausted and nothing changed, or a new pivot was
created from the popped minor key (which was live in the accumulator and
not yet indexed). -/
lemma inner_step_inr_cases (matrix : SmOracle MajKey MinKey SnzVal)
    (min_to_reduce : MinKey → Bool) (majkey : MajKey) (rowoper : CSM SnzVal)
    (indexing : Indexing MinKey MajKey) (s : InnerState MinKey SnzVal)
    {r : CSM SnzVal × Indexing MinKey MajKey}
    (hstep : inner_step matrix min_to_reduce majkey rowoper indexing s = Sum.inr r) :
    r = (rowoper, indexing) ∨
    ∃ minkey,
      (hashLookup s.hash_reduced minkey).isSome ∧
      hashLookup indexing.minkey_2_index minkey = none ∧
      r = ((rowoper.push_snzval rowoper.nummaj
              matrix.ring.identity_multiplicative).append_maj s.hash_rowoper,
           { indexing with
             minkey_2_index := hashInsert indexing.minkey_2_index minkey rowoper.nummaj
             majkey_2_index := hashInsert indexing.majkey_2_index majkey rowoper.nummaj
             index_2_majkey := indexing.index_2_majkey ++ [majkey]
             index_2_minkey := indexing.index_2_minkey ++ [minkey] }) := by
  cases hpop : heapPop s.heap_reduced with
  | none =>
    rw [inner_step_empty matrix min_to_reduce majkey rowoper indexing s hpop] at hstep
    injection hstep with h2
    exact Or.inl h2.symm
  | some pr =>
    obtain ⟨minkey, heap1⟩ := pr
    cases hrem : hashRemoveGet s.hash_reduced minkey with
    | none =>
      rw [inner_step_stale matrix min_to_reduce majkey rowoper indexing s hpop hrem]
        at hstep
      simp at hstep
    | some pr2 =>
      obtain ⟨leading_entry, hash1⟩ := pr2
      cases hz : matrix.ring.is_0 leading_entry with
      | true =>
        rw [inner_step_zero matrix min_to_reduce majkey rowoper indexing s hpop hrem hz]
          at hstep
        simp at hstep
      | false =>
        cases hidx : hashLookup indexing.minkey_2_index minkey with
        | some index =>
          cases hdom : hashRemoveGet
              (reconstruct matrix min_to_reduce indexing (rowoper.maj_hash index))
              minkey with
          | none =>
            rw [inner_step_nodominator matrix min_to_reduce majkey rowoper indexing s
              hpop hrem hz hidx hdom] at hstep
            simp at hstep
          | some pr3 =>
            obtain ⟨dominator, row_reduced1⟩ := pr3
            cases hinv : matrix.ring.inverse dominator with
            | none =>
              rw [inner_step_noninvertible matrix min_to_reduce majkey rowoper indexing s
                hpop hrem hz hidx hdom hinv] at hstep
              simp at hstep
            | some inv =>
              rw [inner_step_eliminate matrix min_to_reduce majkey rowoper indexing s
                hpop hrem hz hidx hdom hinv rfl] at hstep
              simp at hstep
        | none =>
          rw [inner_step_pivot matrix min_to_reduce majkey rowoper indexing s
            hpop hrem hz hidx] at hstep
          injection hstep with h2
          refine Or.inr ⟨minkey, ?_, hidx, h2.symm⟩
          rw [(hashRemoveGet_some hrem).1]
          rfl

/-- Preservation along a continuing inner-loop step: the main accumulator
keys stay inside the active minor set, and the row-operation accumulator
keys stay below the current number of committed rows. -/
lemma inner_step_inl_cases (matrix : SmOracle MajKey MinKey SnzVal)
    (min_to_reduce : MinKey → Bool) (majkey : MajKey) (rowoper : CSM SnzVal)
    (indexing : Indexing MinKey MajKey) (s : InnerState MinKey SnzVal)
    {s2 : InnerState MinKey SnzVal}
    (hstep : inner_step matrix min_to_reduce majkey rowoper indexing s = Sum.inl s2)
    (hact : ∀ k, (hashLookup s.hash_reduced k).isSome → min_to_reduce k = true)
    (hkeys : ∀ p ∈ s.hash_rowoper, p.1 < rowoper.nummaj)
    (hidxb : ∀ mk i, hashLookup indexing.minkey_2_index mk = some i → i < rowoper.nummaj)
    (hrows : ∀ i, i < rowoper.nummaj → ∀ p ∈ rowoper.rows.getD i [], p.1 ≤ i) :
    (∀ k, (hashLookup s2.hash_reduced k).isSome → min_to_reduce k = true) ∧
    (∀ p ∈ s2.hash_rowoper, p.1 < rowoper.nummaj) := by
  cases hpop : heapPop s.heap_reduced with
  | none =>
    rw [inner_step_empty matrix min_to_reduce majkey rowoper indexing s hpop] at hstep
    simp at hstep
  | some pr =>
    obtain ⟨minkey, heap1⟩ := pr
    cases hrem : hashRemoveGet s.hash_reduced minkey with
    | none =>
      rw [inner_step_stale matrix min_to_reduce majkey rowoper indexing s hpop hrem]
        at hstep
      injection hstep with h2
      rw [← h2]
      exact ⟨hact, hkeys⟩
    | some pr2 =>
      obtain ⟨leading_entry, hash1⟩ := pr2
      have hsub : ∀ k, (hashLookup hash1 k).isSome → min_to_reduce k = true := by
        intro k hk
        rw [(hashRemoveGet_some hrem).2] at hk
        rw [hashLookup_isSome_iff_mem] at hk
        refine hact k ?_
        rw [hashLookup_isSome_iff_mem]
        exact keys_remove_subset _ _ hk
      cases hz : matrix.ring.is_0 leading_entry with
      | true =>
        rw [inner_step_zero matrix min_to_reduce majkey rowoper indexing s hpop hrem hz]
          at hstep
        injection hstep with h2
        rw [← h2]
        exact ⟨hsub, hkeys⟩
      | false =>
        cases hidx : hashLookup indexing.minkey_2_index minkey with
        | some index =>
          cases hdom : hashRemoveGet
              (reconstruct matrix min_to_reduce indexing (rowoper.maj_hash index))
              minkey with
          | none =>
            rw [inner_step_nodominator matrix min_to_reduce majkey rowoper indexing s
              hpop hrem hz hidx hdom] at hstep
            injection hstep with h2
            rw [← h2]
            exact ⟨hsub, hkeys⟩
          | some pr3 =>
            obtain ⟨dominator, row_reduced1⟩ := pr3
            cases hinv : matrix.ring.inverse dominator with
            | none =>
              rw [inner_step_noninvertible matrix min_to_reduce majkey rowoper indexing s
                hpop hrem hz hidx hdom hinv] at hstep
              injection hstep with h2
              rw [← h2]
              exact ⟨hsub, hkeys⟩
            | some inv =>
              rw [inner_step_eliminate matrix min_to_reduce majkey rowoper indexing s
                hpop hrem hz hidx hdom hinv rfl] at hstep
              injection hstep with h2
              rw [← h2]
              constructor
              · intro k hk
                rw [hashLookup_isSome_iff_mem] at hk
                obtain ⟨v, hv⟩ := mem_keys_exists hk
                rcases update_heap_hash_mem_keys matrix.ring _ _ _ _ (k, v) hv
                  with h1 | h1
                · refine hsub k ?_
                  rw [hashLookup_isSome_iff_mem]
                  exact h1
                · obtain ⟨w, hw⟩ := mem_keys_exists h1
                  have hw2 : (k, w) ∈ reconstruct matrix min_to_reduce indexing
                      (rowoper.maj_hash index) := by
                    have := (hashRemoveGet_some hdom).2
                    exact mem_remove_subset (this ▸ hw)
                  exact reconstruct_active matrix min_to_reduce indexing _ (k, w) hw2
              · intro p hp
                rcases update_heap_hash_mem_keys matrix.ring _ _ _ _ p hp with h1 | h1
                · obtain ⟨w, hw⟩ := mem_keys_exists h1
                  exact hkeys (p.1, w) hw
                · obtain ⟨w, hw⟩ := mem_keys_exists h1
                  have hlt : index < rowoper.nummaj := hidxb minkey index hidx
                  have := hrows index hlt (p.1, w) hw
                  omega
        | none =>
          rw [inner_step_pivot matrix min_to_reduce majkey rowoper indexing s
            hpop hrem hz hidx] at hstep
          simp at hstep

end StepCases

section LoopShape

variable {MajKey MinKey SnzVal : Type} [LinearOrder MinKey] [DecidableEq MajKey]
  [Inhabited MajKey]

lemma inner_loop_exhaust (matrix : SmOracle MajKey MinKey SnzVal)
    (min_to_reduce : MinKey → Bool) (majkey : MajKey) (rowoper : CSM SnzVal)
    (indexing : Indexing MinKey MajKey) (s : InnerState MinKey SnzVal)
    {s2 : InnerState MinKey SnzVal}
    (h : inner_step matrix min_to_reduce majkey rowoper indexing s = Sum.inl s2) :
    inner_loop matrix min_to_reduce majkey 0 rowoper indexing s = none := by
  rw [inner_loop, h]

/-- Any completing run of the inner loop either leaves the output matrix and
indexing untouched (the major key reduced to zero) or commits exactly one
pivot: a live, not-yet-indexed active minor key gets the next dense index,
both key maps and both backward sequences are extended, and the new output
row is the self-entry followed by row-operation entries at earlier
indices. -/
lemma inner_loop_shape (matrix : SmOracle MajKey MinKey SnzVal)
    (min_to_reduce : MinKey → Bool) (majkey : MajKey) :
    ∀ (fuel : Nat) (rowoper : CSM SnzVal) (indexing : Indexing MinKey MajKey)
      (s : InnerState MinKey SnzVal) {r : CSM SnzVal × Indexing MinKey MajKey},
      inner_loop matrix min_to_reduce majkey fuel rowoper indexing s = some r →
      (∀ k, (hashLookup s.hash_reduced k).isSome → min_to_reduce k = true) →
      (∀ p ∈ s.hash_rowoper, p.1 < rowoper.nummaj) →
      (∀ mk i, hashLookup indexing.minkey_2_index mk = some i → i < rowoper.nummaj) →
      (∀ i, i < rowoper.nummaj → ∀ p ∈ rowoper.rows.getD i [], p.1 ≤ i) →
      r = (rowoper, indexing) ∨
      ∃ minkey hhR2,
        min_to_reduce minkey = true ∧
        hashLookup indexing.minkey_2_index minkey = none ∧
        (∀ p ∈ hhR2, p.1 < rowoper.nummaj) ∧
        r = ((rowoper.push_snzval rowoper.nummaj
                matrix.ring.identity_multiplicative).append_maj hhR2,
             { indexing with
               minkey_2_index := hashInsert indexing.minkey_2_index minkey rowoper.nummaj
               majkey_2_index := hashInsert indexing.majkey_2_index majkey rowoper.nummaj
               index_2_majkey := indexing.index_2_majkey ++ [majkey]
               index_2_minkey := indexing.index_2_minkey ++ [minkey] }) := by
  intro fuel
  induction fuel with
  | zero =>
    intro rowoper indexing s r hrun hact hkeys hidxb hrows
    cases hstep : inner_step matrix min_to_reduce majkey rowoper indexing s with
    | inl s2 =>
      rw [inner_loop_exhaust matrix min_to_reduce majkey rowoper indexing s hstep]
        at hrun
      cases hrun
    | inr r2 =>
      rw [inner_loop_done matrix min_to_reduce majkey 0 rowoper indexing s hstep]
        at hrun
      injection hrun with h2
      subst h2
      rcases inner_step_inr_cases matrix min_to_reduce majkey rowoper indexing s hstep
        with h1 | ⟨minkey, hlive, hnone, hr⟩
      · exact Or.inl h1
      · exact Or.inr ⟨minkey, s.hash_rowoper, hact minkey hlive, hnone, hkeys, hr⟩
  | succ n ih =>
    intro rowoper indexing s r hrun hact hkeys hidxb hrows
    cases hstep : inner_step matrix min_to_reduce majkey rowoper indexing s with
    | inl s2 =>
      rw [inner_loop_cont matrix min_to_reduce majkey n rowoper indexing s hstep]
        at hrun
      obtain ⟨hact2, hkeys2⟩ := inner_step_inl_cases matrix min_to_reduce majkey
        rowoper indexing s hstep hact hkeys hidxb hrows
      exact ih rowoper indexing s2 hrun hact2 hkeys2 hidxb hrows
    | inr r2 =>
      rw [inner_loop_done matrix min_to_reduce majkey (n + 1) rowoper indexing s hstep]
        at hrun
      injection hrun with h2
      subst h2
      rcases inner_step_inr_cases matrix min_to_reduce majkey rowoper indexing s hstep
        with h1 | ⟨minkey, hlive, hnone, hr⟩
      · exact Or.inl h1
      · exact Or.inr ⟨minkey, s.hash_rowoper, hact minkey hlive, hnone, hkeys, hr⟩

lemma outer_go_nil (ifuel : Nat) (matrix : SmOracle MajKey MinKey SnzVal)
    (min_to_reduce : MinKey → Bool) (ro : CSM SnzVal) (ix : Indexing MinKey MajKey) :
    outer_go ifuel matrix min_to_reduce [] ro ix = some (ro, ix) := by
  rw [outer_go]

lemma outer_go_cons_none (ifuel : Nat) (matrix : SmOracle MajKey MinKey SnzVal)
    (min_to_reduce : MinKey → Bool) (majkey : MajKey) (rest : List MajKey)
    (ro : CSM SnzVal) (ix : Indexing MinKey MajKey)
    (hil : inner_loop matrix min_to_reduce majkey ifuel ro ix
      (initState matrix min_to_reduce majkey) = none) :
    outer_go ifuel matrix min_to_reduce (majkey :: rest) ro ix = none := by
  rw [outer_go, hil]

lemma outer_go_cons_some (ifuel : Nat) (matrix : SmOracle MajKey MinKey SnzVal)
    (min_to_reduce : MinKey → Bool) (majkey : MajKey) (rest : List MajKey)
    (ro : CSM SnzVal) (ix : Indexing MinKey MajKey) {ro1 : CSM SnzVal}
    {ix1 : Indexing MinKey MajKey}
    (hil : inner_loop matrix min_to_reduce majkey ifuel ro ix
      (initState matrix min_to_reduce majkey) = some (ro1, ix1)) :
    outer_go ifuel matrix min_to_reduce (majkey :: rest) ro ix =
      outer_go ifuel matrix min_to_reduce rest ro1 ix1 := by
  rw [outer_go, hil]

lemma loadRow_hash (matrix : SmOracle MajKey MinKey SnzVal)
    (min_to_reduce : MinKey → Bool) (majkey : MajKey) :
    (loadRow matrix min_to_reduce majkey).2 = restrictRow matrix min_to_reduce majkey := by
  unfold loadRow restrictRow
  have main : ∀ (l : List (MinKey × SnzVal)) (heapacc : List MinKey)
      (hashacc : Hash MinKey SnzVal),
      (l.foldl (fun hh kv =>
        if min_to_reduce kv.1 then (kv.1 :: hh.1, hashInsert hh.2 kv.1 kv.2) else hh)
        (heapacc, hashacc)).2 =
      l.foldl (fun h kv => if min_to_reduce kv.1 then hashInsert h kv.1 kv.2 else h)
        hashacc := by
    intro l
    induction l with
    | nil => intro heapacc hashacc; rfl
    | cons kv t ih =>
      intro heapacc hashacc
      simp only [List.foldl_cons]
      by_cases hm : min_to_reduce kv.1 = true
      · rw [if_pos hm, if_pos hm]
        exact ih _ _
      · rw [if_neg hm, if_neg hm]
        exact ih _ _
  exact main _ [] []

lemma initState_hash_active (matrix : SmOracle MajKey MinKey SnzVal)
    (min_to_reduce : MinKey → Bool) (majkey : MajKey) :
    ∀ k, (hashLookup (initState matrix min_to_reduce majkey).hash_reduced k).isSome →
      min_to_reduce k = true := by
  intro k hk
  have hk2 : (hashLookup (loadRow matrix min_to_reduce majkey).2 k).isSome := hk
  rw [loadRow_hash, hashLookup_isSome_iff_mem] at hk2
  obtain ⟨v, hv⟩ := mem_keys_exists hk2
  exact restrictRow_active matrix min_to_reduce majkey (k, v) hv

end LoopShape

section InvLemmas

variable {MajKey MinKey SnzVal : Type} [LinearOrder MinKey] [DecidableEq MajKey]
  [Inhabited MajKey]

lemma hashInsert_fresh {K V : Type} [DecidableEq K] {h : Hash K V} {k : K} (v : V)
    (hl : hashLookup h k = none) : hashInsert h k v = h ++ [(k, v)] := by
  rw [hashInsert, hl]

lemma nummaj_pivot (ro : CSM SnzVal) (one : SnzVal) (hh : Hash Nat SnzVal) :
    ((ro.push_snzval ro.nummaj one).append_maj hh).nummaj = ro.nummaj + 1 := by
  simp [CSM.push_snzval, CSM.append_maj, CSM.nummaj]

lemma rows_pivot (ro : CSM SnzVal) (one : SnzVal) (hh : Hash Nat SnzVal)
    (hpend : ro.pending = []) :
    ((ro.push_snzval ro.nummaj one).append_maj hh).rows =
      ro.rows ++ [(ro.nummaj, one) :: hh] := by
  simp [CSM.push_snzval, CSM.append_maj, hpend]

lemma Triangular_keys_le {one : SnzVal} {ro : CSM SnzVal} (htri : Triangular one ro) :
    ∀ i, i < ro.nummaj → ∀ p ∈ ro.rows.getD i [], p.1 ≤ i := by
  intro i hi p hp
  obtain ⟨rest, heq, hk⟩ := htri i hi
  rw [heq] at hp
  rcases List.mem_cons.1 hp with h1 | h1
  · rw [h1]
  · exact le_of_lt (hk p h1)

lemma Inv_empty (min_to_reduce : MinKey → Bool) (one : SnzVal) :
    Inv min_to_reduce one CSM.with_capacity
      (Indexing.with_capacity : Indexing MinKey MajKey) := by
  refine ⟨rfl, ?_, rfl, rfl, ?_, ?_, ?_⟩
  · intro i hi
    cases hi
  · intro mk i hlk
    cases hlk
  · intro i mk hget
    rw [List.getElem?_eq_none (by exact Nat.zero_le i)] at hget
    cases hget
  · intro mk hmk
    cases hmk

lemma Inv_pivot (min_to_reduce : MinKey → Bool) (one : SnzVal) (ro : CSM SnzVal)
    (ix : Indexing MinKey MajKey) (minkey : MinKey) (majkey : MajKey)
    (hhR2 : Hash Nat SnzVal)
    (hinv : Inv min_to_reduce one ro ix)
    (hmact : min_to_reduce minkey = true)
    (hnone : hashLookup ix.minkey_2_index minkey = none)
    (hh : ∀ p ∈ hhR2, p.1 < ro.nummaj) :
    Inv min_to_reduce one ((ro.push_snzval ro.nummaj one).append_maj hhR2)
      { ix with
        minkey_2_index := hashInsert ix.minkey_2_index minkey ro.nummaj
        majkey_2_index := hashInsert ix.majkey_2_index majkey ro.nummaj
        index_2_majkey := ix.index_2_majkey ++ [majkey]
        index_2_minkey := ix.index_2_minkey ++ [minkey] } := by
  obtain ⟨hpend, htri, hlenmin, hlenmaj, hfwd, hbwd, hact⟩ := hinv
  have hnum := nummaj_pivot ro one hhR2
  have hrows := rows_pivot ro one hhR2 hpend
  have hins := hashInsert_fresh ro.nummaj hnone
  have hrowlen : ro.rows.length = ro.nummaj := rfl
  refine ⟨rfl, ?_, ?_, ?_, ?_, ?_, ?_⟩
  · intro i hi
    rw [hnum] at hi
    rw [hrows]
    rcases Nat.lt_or_ge i ro.nummaj with hlt | hge
    · obtain ⟨rest, hrest, hrkeys⟩ := htri i hlt
      refine ⟨rest, ?_, hrkeys⟩
      rw [List.getD_append _ _ _ _ (hrowlen ▸ hlt)]
      exact hrest
    · have hieq : i = ro.nummaj := by omega
      subst hieq
      refine ⟨hhR2, ?_, hh⟩
      rw [List.getD_append_right _ _ _ _ (le_of_eq hrowlen)]
      rw [hrowlen, Nat.sub_self]
      rfl
  · show (ix.index_2_minkey ++ [minkey]).length = _
    rw [List.length_append, hlenmin, hnum]
    rfl
  · show (ix.index_2_majkey ++ [majkey]).length = _
    rw [List.length_append, hlenmaj, hnum]
    rfl
  · intro mk i hlk
    have hlk2 : hashLookup (hashInsert ix.minkey_2_index minkey ro.nummaj) mk =
        some i := hlk
    rw [hins] at hlk2
    rw [hnum]
    by_cases hkm : mk = minkey
    · subst hkm
      rw [hashLookup_append_of_none hnone, hashLookup_cons, if_pos rfl] at hlk2
      injection hlk2 with hlk3
      subst hlk3
      refine ⟨by omega, ?_⟩
      show (ix.index_2_minkey ++ [mk])[ro.nummaj]? = some mk
      rw [← hlenmin, List.getElem?_append_right (le_refl _), Nat.sub_self]
      rfl
    · rw [hashLookup_append_singleton_ne _ _ hkm] at hlk2
      obtain ⟨hi, hget⟩ := hfwd mk i hlk2
      refine ⟨by omega, ?_⟩
      show (ix.index_2_minkey ++ [minkey])[i]? = some mk
      rw [List.getElem?_append_left (by rw [hlenmin]; exact hi)]
      exact hget
  · intro i mk hget
    have hget2 : (ix.index_2_minkey ++ [minkey])[i]? = some mk := hget
    show hashLookup (hashInsert ix.minkey_2_index minkey ro.nummaj) mk = some i
    rcases Nat.lt_or_ge i ix.index_2_minkey.length with hlt | hge
    · rw [List.getElem?_append_left hlt] at hget2
      have hlk := hbwd i mk hget2
      have hkm : mk ≠ minkey := by
        intro he
        rw [he, hnone] at hlk
        cases hlk
      rw [hins, hashLookup_append_singleton_ne _ _ hkm]
      exact hlk
    · rw [List.getElem?_append_right hge] at hget2
      have hd : i - ix.index_2_minkey.length = 0 := by
        by_contra hne
        rw [List.getElem?_eq_none (by simp; omega)] at hget2
        cases hget2
      rw [hd] at hget2
      have hmk : mk = minkey := by
        have h0 : ([minkey])[0]? = some minkey := rfl
        rw [h0] at hget2
        injection hget2 with h2
        exact h2.symm
      subst hmk
      have hieq : i = ix.index_2_minkey.length := by omega
      rw [hins, hashLookup_append_of_none hnone, hashLookup_cons, if_pos rfl]
      rw [hieq, hlenmin]
  · intro mk hmk
    rcases List.mem_append.1 hmk with h1 | h1
    · exact hact mk h1
    · rw [List.mem_singleton.1 h1]
      exact hmact

/-- Completing inner runs preserve the minor-side invariant. -/
lemma inner_loop_inv (matrix : SmOracle MajKey MinKey SnzVal)
    (min_to_reduce : MinKey → Bool) (majkey : MajKey) (ifuel : Nat)
    (ro : CSM SnzVal) (ix : Indexing MinKey MajKey)
    {r : CSM SnzVal × Indexing MinKey MajKey}
    (hil : inner_loop matrix min_to_reduce majkey ifuel ro ix
      (initState matrix min_to_reduce majkey) = some r)
    (hinv : Inv min_to_reduce matrix.ring.identity_multiplicative ro ix) :
    Inv min_to_reduce matrix.ring.identity_multiplicative r.1 r.2 := by
  rcases inner_loop_shape matrix min_to_reduce majkey ifuel ro ix _ hil
    (initState_hash_active matrix min_to_reduce majkey)
    (fun p hp => absurd hp (List.not_mem_nil p))
    (fun mk i h => (hinv.2.2.2.2.1 mk i h).1)
    (Triangular_keys_le hinv.2.1)
    with h1 | ⟨minkey, hhR2, hmact, hnone, hhk, hr⟩
  · rw [h1]
    exact hinv
  · rw [hr]
    exact Inv_pivot min_to_reduce matrix.ring.identity_multiplicative ro ix minkey
      majkey hhR2 hinv hmact hnone hhk

/-- The outer loop preserves the minor-side invariant. -/
lemma outer_go_inv (ifuel : Nat) (matrix : SmOracle MajKey MinKey SnzVal)
    (min_to_reduce : MinKey → Bool) :
    ∀ (wl : List MajKey) (ro : CSM SnzVal) (ix : Indexing MinKey MajKey)
      {r : CSM SnzVal × Indexing MinKey MajKey},
      outer_go ifuel matrix min_to_reduce wl ro ix = some r →
      Inv min_to_reduce matrix.ring.identity_multiplicative ro ix →
      Inv min_to_reduce matrix.ring.identity_multiplicative r.1 r.2 := by
  intro wl
  induction wl with
  | nil =>
    intro ro ix r hrun hinv
    rw [outer_go_nil] at hrun
    injection hrun with h2
    rw [← h2]
    exact hinv
  | cons majkey rest ih =>
    intro ro ix r hrun hinv
    cases hil : inner_loop matrix min_to_reduce majkey ifuel ro ix
        (initState matrix min_to_reduce majkey) with
    | none =>
      rw [outer_go_cons_none ifuel matrix min_to_reduce majkey rest ro ix hil] at hrun
      cases hrun
    | some r1 =>
      obtain ⟨ro1, ix1⟩ := r1
      rw [outer_go_cons_some ifuel matrix min_to_reduce majkey rest ro ix hil] at hrun
      exact ih ro1 ix1 hrun
        (inner_loop_inv matrix min_to_reduce majkey ifuel ro ix hil hinv)

end InvLemmas

section MainClaims

variable {MajKey MinKey SnzVal : Type} [LinearOrder MinKey] [DecidableEq MajKey]
  [Inhabited MajKey]

lemma decomp_unfold_none (ifuel : Nat) (matrix : SmOracle MajKey MinKey SnzVal)
    (maj_to_reduce : List MajKey) (min_to_reduce : MinKey → Bool)
    (houter : outer_go ifuel matrix min_to_reduce maj_to_reduce.reverse
      CSM.with_capacity Indexing.with_capacity = none) :
    decomp_row_use_pairs ifuel matrix maj_to_reduce min_to_reduce = none := by
  rw [decomp_row_use_pairs, houter]

lemma decomp_unfold_some (ifuel : Nat) (matrix : SmOracle MajKey MinKey SnzVal)
    (maj_to_reduce : List MajKey) (min_to_reduce : MinKey → Bool)
    {ro2 : CSM SnzVal} {ix2 : Indexing MinKey MajKey}
    (houter : outer_go ifuel matrix min_to_reduce maj_to_reduce.reverse
      CSM.with_capacity Indexing.with_capacity = some (ro2, ix2)) :
    decomp_row_use_pairs ifuel matrix maj_to_reduce min_to_reduce =
      some (ro2,
        { ix2 with
          ordered_minind :=
            (heapDrain ix2.index_2_minkey).map
              (fun minkey => (hashLookup ix2.minkey_2_index minkey).getD 0) }) := by
  rw [decomp_row_use_pairs, houter]
  rfl

/-- Claim C2: strict triangularity of the output matrix.  Whenever
`decomp_row_use_pairs` completes, every committed row `i` of the output
matrix is the ring's multiplicative identity at index `i` itself (the
self-entry) followed by entries whose indices are all strictly less than
`i` (the coefficients of previously discovered rows combined into the
pivot). -/
theorem C2_triangularity (ifuel : Nat) (matrix : SmOracle MajKey MinKey SnzVal)
    (maj_to_reduce : List MajKey) (min_to_reduce : MinKey → Bool)
    (ro : CSM SnzVal) (ix : Indexing MinKey MajKey)
    (h : decomp_row_use_pairs ifuel matrix maj_to_reduce min_to_reduce = some (ro, ix)) :
    Triangular matrix.ring.identity_multiplicative ro := by
  cases houter : outer_go ifuel matrix min_to_reduce maj_to_reduce.reverse
      CSM.with_capacity Indexing.with_capacity with
  | none =>
    rw [decomp_unfold_none ifuel matrix maj_to_reduce min_to_reduce houter] at h
    cases h
  | some r2 =>
    obtain ⟨ro2, ix2⟩ := r2
    rw [decomp_unfold_some ifuel matrix maj_to_reduce min_to_reduce houter] at h
    injection h with h2
    have hro : ro2 = ro := congrArg Prod.fst h2
    have hinv := outer_go_inv ifuel matrix min_to_reduce maj_to_reduce.reverse
      CSM.with_capacity Indexing.with_capacity houter
      (Inv_empty min_to_reduce matrix.ring.identity_multiplicative)
    rw [← hro]
    exact hinv.2.1

/-- Witness for C2 at the end-to-end scenario: row 1 of the computed output
matrix is the self-entry (1, 1) followed by entries at indices below 1. -/
theorem C2_witness :
    ∃ rest, csm22.rows.getD 1 [] = (1, (1 : Int)) :: rest ∧ ∀ p ∈ rest, p.1 < 1 :=
  C2_triangularity 5 oracle22 [0, 1] mins01 csm22 indexing22 (by decide) 1 (by decide)

/-- Claim C7: active-minor restriction.  Restricted row loads and pivot-row
reconstructions only ever contain active minor keys, and every minor key
recorded in the returned Indexing belongs to the caller-supplied active
set. -/
theorem C7_active_restriction (matrix : SmOracle MajKey MinKey SnzVal)
    (min_to_reduce : MinKey → Bool) :
    (∀ majkey, ∀ p ∈ restrictRow matrix min_to_reduce majkey,
      min_to_reduce p.1 = true) ∧
    (∀ (indexing : Indexing MinKey MajKey) (rro : Hash Nat SnzVal),
      ∀ p ∈ reconstruct matrix min_to_reduce indexing rro, min_to_reduce p.1 = true) ∧
    (∀ (ifuel : Nat) (maj_to_reduce : List MajKey) (ro : CSM SnzVal)
      (ix : Indexing MinKey MajKey),
      decomp_row_use_pairs ifuel matrix maj_to_reduce min_to_reduce = some (ro, ix) →
      ∀ mk ∈ ix.index_2_minkey, min_to_reduce mk = true) := by
  refine ⟨restrictRow_active matrix min_to_reduce,
    reconstruct_active matrix min_to_reduce, ?_⟩
  intro ifuel maj_to_reduce ro ix h mk hmk
  cases houter : outer_go ifuel matrix min_to_reduce maj_to_reduce.reverse
      CSM.with_capacity Indexing.with_capacity with
  | none =>
    rw [decomp_unfold_none ifuel matrix maj_to_reduce min_to_reduce houter] at h
    cases h
  | some r2 =>
    obtain ⟨ro2, ix2⟩ := r2
    rw [decomp_unfold_some ifuel matrix maj_to_reduce min_to_reduce houter] at h
    injection h with h2
    have hix2 : ({ ix2 with
        ordered_minind :=
          (heapDrain ix2.index_2_minkey).map
            (fun minkey => (hashLookup ix2.minkey_2_index minkey).getD 0) } :
        Indexing MinKey MajKey) = ix := congrArg Prod.snd h2
    have hix : ix.index_2_minkey = ix2.index_2_minkey := by
      rw [← hix2]
    have hinv := outer_go_inv ifuel matrix min_to_reduce maj_to_reduce.reverse
      CSM.with_capacity Indexing.with_capacity houter
      (Inv_empty min_to_reduce matrix.ring.identity_multiplicative)
    exact hinv.2.2.2.2.2.2 mk (hix ▸ hmk)

/-- Witness for C7: restriction, reconstruction and the end-to-end run only
record minor keys inside the active set mins01. -/
theorem C7_witness :
    (mins01 0 = true) ∧ (mins01 1 = true) := by
  have h := @C7_active_restriction Nat Nat Int _ _ _ oracle22 mins01
  refine ⟨h.1 0 (0, 1) (by decide), ?_⟩
  exact h.2.2 5 [0, 1] csm22 indexing22 (by decide) 1 (by decide)

lemma loadRow_false (matrix : SmOracle MajKey MinKey SnzVal)
    (min_to_reduce : MinKey → Bool) (hmins : ∀ k, min_to_reduce k = false)
    (majkey : MajKey) : loadRow matrix min_to_reduce majkey = ([], []) := by
  unfold loadRow
  have main : ∀ (l : List (MinKey × SnzVal)) (acc : List MinKey × Hash MinKey SnzVal),
      l.foldl (fun hh kv =>
        if min_to_reduce kv.1 then (kv.1 :: hh.1, hashInsert hh.2 kv.1 kv.2) else hh)
        acc = acc := by
    intro l
    induction l with
    | nil => intro acc; rfl
    | cons kv t ih =>
      intro acc
      simp only [List.foldl_cons]
      rw [if_neg (by simp [hmins kv.1])]
      exact ih acc
  exact main _ _

/-- Claim C8: with an empty active minor set every major key reduces
trivially — for every oracle, every worklist and every fuel the run
completes (this is not a fatal condition) and yields an empty output matrix
and an empty Indexing. -/
theorem C8_empty_active (ifuel : Nat) (matrix : SmOracle MajKey MinKey SnzVal)
    (maj_to_reduce : List MajKey) (min_to_reduce : MinKey → Bool)
    (hmins : ∀ k, min_to_reduce k = false) :
    decomp_row_use_pairs ifuel matrix maj_to_reduce min_to_reduce =
      some (CSM.with_capacity, Indexing.with_capacity) := by
  have hinner : ∀ (majkey : MajKey) (ro : CSM SnzVal) (ix : Indexing MinKey MajKey),
      inner_loop matrix min_to_reduce majkey ifuel ro ix
        (initState matrix min_to_reduce majkey) = some (ro, ix) := by
    intro majkey ro ix
    refine inner_loop_done matrix min_to_reduce majkey ifuel ro ix _
      (inner_step_empty matrix min_to_reduce majkey ro ix _ ?_)
    show heapPop (loadRow matrix min_to_reduce majkey).1 = none
    rw [loadRow_false matrix min_to_reduce hmins majkey]
    rfl
  have houter : ∀ (wl2 : List MajKey) (ro : CSM SnzVal) (ix : Indexing MinKey MajKey),
      outer_go ifuel matrix min_to_reduce wl2 ro ix = some (ro, ix) := by
    intro wl2
    induction wl2 with
    | nil => intro ro ix; exact outer_go_nil ifuel matrix min_to_reduce ro ix
    | cons mj rest ih =>
      intro ro ix
      rw [outer_go_cons_some ifuel matrix min_to_reduce mj rest ro ix (hinner mj ro ix)]
      exact ih ro ix
  rw [decomp_row_use_pairs,
    houter maj_to_reduce.reverse CSM.with_capacity Indexing.with_capacity]
  rfl

/-- Witness for C8: a concrete run of the end-to-end oracle with the empty
active minor set yields the empty output matrix and empty Indexing. -/
theorem C8_witness :
    decomp_row_use_pairs 3 oracle22 [0, 1] (fun _ => false) =
      some (CSM.with_capacity, Indexing.with_capacity) :=
  C8_empty_active 3 oracle22 [0, 1] (fun _ => false) (fun _ => rfl)

end MainClaims

section MajClaims

variable {MajKey MinKey SnzVal : Type} [LinearOrder MinKey] [DecidableEq MajKey]
  [Inhabited MajKey]

lemma MajInv_empty (rest : List MajKey) :
    MajInv (CSM.with_capacity : CSM SnzVal)
      (Indexing.with_capacity : Indexing MinKey MajKey) rest := by
  refine ⟨?_, ?_, ?_⟩
  · intro i maj hget
    rw [List.getElem?_eq_none (by exact Nat.zero_le i)] at hget
    cases hget
  · intro maj i hlk
    cases hlk
  · intro maj hlk
    cases hlk

lemma MajInv_weaken {ro : CSM SnzVal} {ix : Indexing MinKey MajKey}
    {majkey : MajKey} {rest : List MajKey}
    (hmaj : MajInv ro ix (majkey :: rest)) : MajInv ro ix rest := by
  refine ⟨hmaj.1, hmaj.2.1, ?_⟩
  intro maj hlk hmem
  exact hmaj.2.2 maj hlk (List.mem_cons_of_mem _ hmem)

lemma MajInv_pivot {one : SnzVal} {ro : CSM SnzVal} {ix : Indexing MinKey MajKey}
    {majkey : MajKey} {rest : List MajKey} (minkey : MinKey) (hhR2 : Hash Nat SnzVal)
    (hmaj : MajInv ro ix (majkey :: rest))
    (hlen : ix.index_2_majkey.length = ro.nummaj)
    (hnotin : majkey ∉ rest) :
    MajInv ((ro.push_snzval ro.nummaj one).append_maj hhR2)
      { ix with
        minkey_2_index := hashInsert ix.minkey_2_index minkey ro.nummaj
        majkey_2_index := hashInsert ix.majkey_2_index majkey ro.nummaj
        index_2_majkey := ix.index_2_majkey ++ [majkey]
        index_2_minkey := ix.index_2_minkey ++ [minkey] } rest := by
  obtain ⟨hfwd, hbwd, hfresh⟩ := hmaj
  have hnum := nummaj_pivot ro one hhR2
  have hnone : hashLookup ix.majkey_2_index majkey = none := by
    cases hlk : hashLookup ix.majkey_2_index majkey with
    | none => rfl
    | some i =>
      exact absurd (List.mem_cons_self _ _)
        (hfresh majkey (by rw [hlk]; rfl))
  have hins := hashInsert_fresh ro.nummaj hnone
  refine ⟨?_, ?_, ?_⟩
  · intro i maj hget
    have hget2 : (ix.index_2_majkey ++ [majkey])[i]? = some maj := hget
    show hashLookup (hashInsert ix.majkey_2_index majkey ro.nummaj) maj = some i
    rcases Nat.lt_or_ge i ix.index_2_majkey.length with hlt | hge
    · rw [List.getElem?_append_left hlt] at hget2
      have hlk := hfwd i maj hget2
      have hkm : maj ≠ majkey := by
        intro he
        rw [he, hnone] at hlk
        cases hlk
      rw [hins, hashLookup_append_singleton_ne _ _ hkm]
      exact hlk
    · rw [List.getElem?_append_right hge] at hget2
      have hd : i - ix.index_2_majkey.length = 0 := by
        by_contra hne
        rw [List.getElem?_eq_none (by simp; omega)] at hget2
        cases hget2
      rw [hd] at hget2
      have hmk : maj = majkey := by
        have h0 : ([majkey])[0]? = some majkey := rfl
        rw [h0] at hget2
        injection hget2 with h2
        exact h2.symm
      subst hmk
      have hieq : i = ix.index_2_majkey.length := by omega
      rw [hins, hashLookup_append_of_none hnone, hashLookup_cons, if_pos rfl]
      rw [hieq, hlen]
  · intro maj i hlk
    have hlk2 : hashLookup (hashInsert ix.majkey_2_index majkey ro.nummaj) maj =
        some i := hlk
    rw [hins] at hlk2
    rw [hnum]
    by_cases hkm : maj = majkey
    · subst hkm
      rw [hashLookup_append_of_none hnone, hashLookup_cons, if_pos rfl] at hlk2
      injection hlk2 with hlk3
      subst hlk3
      refine ⟨by omega, ?_⟩
      show (ix.index_2_majkey ++ [maj])[ro.nummaj]? = some maj
      rw [← hlen, List.getElem?_append_right (le_refl _), Nat.sub_self]
      rfl
    · rw [hashLookup_append_singleton_ne _ _ hkm] at hlk2
      obtain ⟨hi, hget⟩ := hbwd maj i hlk2
      refine ⟨by omega, ?_⟩
      show (ix.index_2_majkey ++ [majkey])[i]? = some maj
      rw [List.getElem?_append_left (by rw [hlen]; exact hi)]
      exact hget
  · intro maj hlk hmem
    have hlk2 : (hashLookup (hashInsert ix.majkey_2_index majkey ro.nummaj)
        maj).isSome := hlk
    by_cases hkm : maj = majkey
    · subst hkm
      exact hnotin hmem
    · rw [hins, hashLookup_append_singleton_ne _ _ hkm] at hlk2
      exact hfresh maj hlk2 (List.mem_cons_of_mem _ hmem)

/-- The outer loop over a duplicate-free remaining worklist preserves both
invariants, finishing with no remaining keys. -/
lemma outer_go_majinv (ifuel : Nat) (matrix : SmOracle MajKey MinKey SnzVal)
    (min_to_reduce : MinKey → Bool) :
    ∀ (wl : List MajKey) (ro : CSM SnzVal) (ix : Indexing MinKey MajKey)
      {r : CSM SnzVal × Indexing MinKey MajKey},
      outer_go ifuel matrix min_to_reduce wl ro ix = some r →
      Inv min_to_reduce matrix.ring.identity_multiplicative ro ix →
      MajInv ro ix wl → wl.Nodup →
      Inv min_to_reduce matrix.ring.identity_multiplicative r.1 r.2 ∧
      MajInv r.1 r.2 [] := by
  intro wl
  induction wl with
  | nil =>
    intro ro ix r hrun hinv hmaj hnd
    rw [outer_go_nil] at hrun
    injection hrun with h2
    rw [← h2]
    exact ⟨hinv, hmaj⟩
  | cons majkey rest ih =>
    intro ro ix r hrun hinv hmaj hnd
    have hnd2 := List.nodup_cons.1 hnd
    cases hil : inner_loop matrix min_to_reduce majkey ifuel ro ix
        (initState matrix min_to_reduce majkey) with
    | none =>
      rw [outer_go_cons_none ifuel matrix min_to_reduce majkey rest ro ix hil] at hrun
      cases hrun
    | some r1 =>
      obtain ⟨ro1, ix1⟩ := r1
      rw [outer_go_cons_some ifuel matrix min_to_reduce majkey rest ro ix hil] at hrun
      have hinv1 : Inv min_to_reduce matrix.ring.identity_multiplicative ro1 ix1 :=
        inner_loop_inv matrix min_to_reduce majkey ifuel ro ix hil hinv
      have hmaj1 : MajInv ro1 ix1 rest := by
        rcases inner_loop_shape matrix min_to_reduce majkey ifuel ro ix _ hil
          (initState_hash_active matrix min_to_reduce majkey)
          (fun p hp => absurd hp (List.not_mem_nil p))
          (fun mk i hh => (hinv.2.2.2.2.1 mk i hh).1)
          (Triangular_keys_le hinv.2.1)
          with h1 | ⟨minkey, hhR2, hmact, hnone, hhk, hr⟩
        · have hro : ro1 = ro := congrArg Prod.fst h1
          have hix : ix1 = ix := congrArg Prod.snd h1
          rw [hro, hix]
          exact MajInv_weaken hmaj
        · have hro : ro1 = _ := congrArg Prod.fst hr
          have hix : ix1 = _ := congrArg Prod.snd hr
          rw [hro, hix]
          exact MajInv_pivot minkey hhR2 hmaj hinv.2.2.2.1 hnd2.1
      exact ih ro1 ix1 hrun hinv1 hmaj1 hnd2.2

/-- Claim C4 (amended): provided the worklist contains no duplicate major
key, the returned Indexing is a bijection: the backward sequences have one
entry per dense index, and for every recorded index `i` both
`minkey_2_index[index_2_minkey[i]] = i` and
`majkey_2_index[index_2_majkey[i]] = i` (so no dense index is assigned
twice and each index carries exactly one major and one minor key). -/
theorem C4_bijection_amended (ifuel : Nat) (matrix : SmOracle MajKey MinKey SnzVal)
    (maj_to_reduce : List MajKey) (min_to_reduce : MinKey → Bool)
    (ro : CSM SnzVal) (ix : Indexing MinKey MajKey)
    (hnd : maj_to_reduce.Nodup)
    (h : decomp_row_use_pairs ifuel matrix maj_to_reduce min_to_reduce = some (ro, ix)) :
    ix.index_2_minkey.length = ro.nummaj ∧
    ix.index_2_majkey.length = ro.nummaj ∧
    ∀ i, i < ro.nummaj →
      ∃ mk maj, ix.index_2_minkey[i]? = some mk ∧
        hashLookup ix.minkey_2_index mk = some i ∧
        ix.index_2_majkey[i]? = some maj ∧
        hashLookup ix.majkey_2_index maj = some i := by
  cases houter : outer_go ifuel matrix min_to_reduce maj_to_reduce.reverse
      CSM.with_capacity Indexing.with_capacity with
  | none =>
    rw [decomp_unfold_none ifuel matrix maj_to_reduce min_to_reduce houter] at h
    cases h
  | some r2 =>
    obtain ⟨ro2, ix2⟩ := r2
    rw [decomp_unfold_some ifuel matrix maj_to_reduce min_to_reduce houter] at h
    injection h with h2
    have hro : ro2 = ro := congrArg Prod.fst h2
    have hix2 : ({ ix2 with
        ordered_minind :=
          (heapDrain ix2.index_2_minkey).map
            (fun minkey => (hashLookup ix2.minkey_2_index minkey).getD 0) } :
        Indexing MinKey MajKey) = ix := congrArg Prod.snd h2
    have hixmin : ix.index_2_minkey = ix2.index_2_minkey := by rw [← hix2]
    have hixmaj : ix.index_2_majkey = ix2.index_2_majkey := by rw [← hix2]
    have hixminmap : ix.minkey_2_index = ix2.minkey_2_index := by rw [← hix2]
    have hixmajmap : ix.majkey_2_index = ix2.majkey_2_index := by rw [← hix2]
    obtain ⟨hinv, hmaj⟩ := outer_go_majinv ifuel matrix min_to_reduce
      maj_to_reduce.reverse CSM.with_capacity Indexing.with_capacity houter
      (Inv_empty min_to_reduce matrix.ring.identity_multiplicative)
      (MajInv_empty maj_to_reduce.reverse)
      (List.nodup_reverse.2 hnd)
    refine ⟨by rw [hixmin, ← hro]; exact hinv.2.2.1,
      by rw [hixmaj, ← hro]; exact hinv.2.2.2.1, ?_⟩
    intro i hi
    rw [← hro] at hi
    have hilen : i < ix2.index_2_minkey.length := by
      rw [hinv.2.2.1]
      exact hi
    have hilen2 : i < ix2.index_2_majkey.length := by
      rw [hinv.2.2.2.1]
      exact hi
    refine ⟨ix2.index_2_minkey[i], ix2.index_2_majkey[i], ?_, ?_, ?_, ?_⟩
    · rw [hixmin]
      exact List.getElem?_eq_getElem hilen
    · rw [hixminmap]
      exact hinv.2.2.2.2.2.1 i _ (List.getElem?_eq_getElem hilen)
    · rw [hixmaj]
      exact List.getElem?_eq_getElem hilen2
    · rw [hixmajmap]
      exact hmaj.1 i _ (List.getElem?_eq_getElem hilen2)

/-- Witness for C4 (amended) at the end-to-end scenario: index 0 of the
computed Indexing round-trips through both key maps. -/
theorem C4_witness :
    ∃ mk maj, indexing22.index_2_minkey[0]? = some mk ∧
      hashLookup indexing22.minkey_2_index mk = some 0 ∧
      indexing22.index_2_majkey[0]? = some maj ∧
      hashLookup indexing22.majkey_2_index maj = some 0 :=
  (C4_bijection_amended 5 oracle22 [0, 1] mins01 csm22 indexing22 (by decide)
    (by decide)).2.2 0 (by decide)

/-- Counterexample for C4 as stated: with the worklist [A, A] (major key 0
twice) over the modulus-4 oracle, major 0 pivots twice — once on x while
its leading value 2 is not invertible, and again on y after the
non-invertible dominator drops the x entry — so `index_2_majkey` records
major 0 at both indices while `majkey_2_index` keeps only index 1:
`majkey_2_index[index_2_majkey[0]]` is 1, not 0, and index 0 has no
registered major key. -/
theorem C4_counterexample :
    decomp_row_use_pairs 10 oracle4 [0, 0] mins01 = some (csm4, indexing4) ∧
    indexing4.index_2_majkey = [0, 0] ∧
    indexing4.index_2_majkey[0]? = some 0 ∧
    hashLookup indexing4.majkey_2_index 0 = some 1 ∧
    ¬hashLookup indexing4.majkey_2_index 0 = some 0 := by
  decide

end MajClaims

section TermBasics

variable {K MajKey MinKey SnzVal Q : Type}

lemma heapPop_eq_none [LinearOrder K] : ∀ (l : List K), heapPop l = none ↔ l = [] := by
  intro l
  cases l with
  | nil => simp [heapPop]
  | cons a t =>
    simp only [heapPop]
    cases heapPop t with
    | none => simp
    | some pr =>
      obtain ⟨m, rest⟩ := pr
      by_cases hle : a ≤ m
      · simp [hle]
      · simp [hle]

lemma heapPop_perm [LinearOrder K] :
    ∀ (l : List K) {m : K} {h1 : List K}, heapPop l = some (m, h1) →
      l.Perm (m :: h1) ∧ ∀ x ∈ l, m ≤ x := by
  intro l
  induction l with
  | nil => intro m h1 hp; cases hp
  | cons a t ih =>
    intro m h1 hp
    rw [heapPop] at hp
    cases hpt : heapPop t with
    | none =>
      rw [hpt] at hp
      simp only [Option.some.injEq, Prod.mk.injEq] at hp
      obtain ⟨hpa, hpb⟩ := hp
      subst hpa
      subst hpb
      have ht : t = [] := (heapPop_eq_none t).1 hpt
      subst ht
      refine ⟨List.Perm.refl _, ?_⟩
      intro x hx
      rw [List.mem_singleton.1 hx]
    | some pr =>
      obtain ⟨m2, rest2⟩ := pr
      rw [hpt] at hp
      obtain ⟨hperm2, hmin2⟩ := ih hpt
      by_cases hle : a ≤ m2
      · simp only [hle, if_true, Option.some.injEq, Prod.mk.injEq] at hp
        obtain ⟨hpa, hpb⟩ := hp
        rw [← hpa, ← hpb]
        refine ⟨List.Perm.refl _, ?_⟩
        intro x hx
        rcases List.mem_cons.1 hx with h1 | h1
        · exact le_of_eq h1.symm
        · exact le_trans hle (hmin2 x h1)
      · simp only [hle, if_false, Option.some.injEq, Prod.mk.injEq] at hp
        obtain ⟨hpa, hpb⟩ := hp
        rw [← hpa, ← hpb]
        have hma : m2 ≤ a := le_of_lt (lt_of_not_le hle)
        refine ⟨?_, ?_⟩
        · exact ((hperm2.cons a).trans (List.Perm.swap m2 a rest2))
        · intro x hx
          rcases List.mem_cons.1 hx with h1 | h1
          · exact h1 ▸ hma
          · exact hmin2 x h1

lemma update_heap_length [DecidableEq K] (ring : RingMetadata SnzVal) :
    ∀ (row : Hash K SnzVal) (heap : List K) (hash : Hash K SnzVal) (scale : SnzVal),
      (update_heap_hash ring heap hash row scale).1.length ≤ heap.length + row.length := by
  intro row
  induction row with
  | nil => intro heap hash scale; exact Nat.le_add_right _ _
  | cons q rest ih =>
    intro heap hash scale
    obtain ⟨key, val⟩ := q
    simp only [update_heap_hash]
    cases hashLookup hash key with
    | some x =>
      by_cases hz : ring.is_0 (ring.add x (ring.mul scale val))
      · simp only [hz, if_true]
        calc (update_heap_hash ring heap _ rest scale).1.length
            ≤ heap.length + rest.length := ih heap _ scale
          _ ≤ heap.length + (rest.length + 1) := by omega
      · simp only [hz, if_false]
        calc (update_heap_hash ring heap _ rest scale).1.length
            ≤ heap.length + rest.length := ih heap _ scale
          _ ≤ heap.length + (rest.length + 1) := by omega
    | none =>
      by_cases hz : ring.is_0 (ring.mul scale val)
      · simp only [hz, if_true]
        calc (update_heap_hash ring heap hash rest scale).1.length
            ≤ heap.length + rest.length := ih heap hash scale
          _ ≤ heap.length + (rest.length + 1) := by omega
      · simp only [hz, if_false]
        calc (update_heap_hash ring (key :: heap) _ rest scale).1.length
            ≤ (key :: heap).length + rest.length := ih (key :: heap) _ scale
          _ = heap.length + (rest.length + 1) := by simp; omega

lemma update_hash_eq_add_assign [DecidableEq K] (ring : RingMetadata SnzVal) :
    ∀ (row : Hash K SnzVal) (heap : List K) (hash : Hash K SnzVal) (scale : SnzVal),
      (update_heap_hash ring heap hash row scale).2.1 =
        (add_assign_hash ring hash row scale).1 := by
  intro row
  induction row with
  | nil => intro heap hash scale; rfl
  | cons q rest ih =>
    intro heap hash scale
    obtain ⟨key, val⟩ := q
    simp only [update_heap_hash, add_assign_hash]
    cases hashLookup hash key with
    | some x =>
      by_cases hz : ring.is_0 (ring.add x (ring.mul scale val))
      · simp only [hz, if_true]
        exact ih heap _ scale
      · simp only [hz, if_false]
        exact ih heap _ scale
    | none =>
      by_cases hz : ring.is_0 (ring.mul scale val)
      · simp only [hz, if_true]
        exact ih heap hash scale
      · simp only [hz, if_false]
        exact ih (key :: heap) _ scale

lemma add_assign_nodup [DecidableEq K] (ring : RingMetadata SnzVal) :
    ∀ (row : Hash K SnzVal) (hash : Hash K SnzVal) (scale : SnzVal),
      hashNodup hash → hashNodup (add_assign_hash ring hash row scale).1 := by
  intro row
  induction row with
  | nil => intro hash scale hn; exact hn
  | cons q rest ih =>
    intro hash scale hn
    obtain ⟨key, val⟩ := q
    simp only [add_assign_hash]
    cases hashLookup hash key with
    | some x =>
      by_cases hz : ring.is_0 (ring.add x (ring.mul scale val))
      · simp only [hz, if_true]
        exact ih _ scale (hashNodup_remove hn key)
      · simp only [hz, if_false]
        exact ih _ scale (hashNodup_set hn key _)
    | none =>
      by_cases hz : ring.is_0 (ring.mul scale val)
      · simp only [hz, if_true]
        exact ih hash scale hn
      · simp only [hz, if_false]
        exact ih _ scale (hashNodup_insert hn key _)

lemma add_assign_lookup_not_mem [DecidableEq K] (ring : RingMetadata SnzVal) :
    ∀ (row : Hash K SnzVal) (hash : Hash K SnzVal) (scale : SnzVal) (k : K),
      k ∉ row.map Prod.fst →
      hashLookup (add_assign_hash ring hash row scale).1 k = hashLookup hash k := by
  intro row
  induction row with
  | nil => intro hash scale k hk; rfl
  | cons q rest ih =>
    intro hash scale k hk
    obtain ⟨key, val⟩ := q
    simp only [List.map_cons, List.mem_cons] at hk
    push_neg at hk
    have hkk : k ≠ key := hk.1
    simp only [add_assign_hash]
    cases hashLookup hash key with
    | some x =>
      by_cases hz : ring.is_0 (ring.add x (ring.mul scale val))
      · simp only [hz, if_true]
        rw [ih _ scale k hk.2, hashLookup_remove_ne hkk]
      · simp only [hz, Bool.false_eq_true, if_false]
        rw [ih _ scale k hk.2, hashLookup_set_ne _ hkk]
    | none =>
      by_cases hz : ring.is_0 (ring.mul scale val)
      · simp only [hz, if_true]
        exact ih hash scale k hk.2
      · simp only [hz, Bool.false_eq_true, if_false]
        rw [ih _ scale k hk.2, hashLookup_insert_ne _ hkk]

lemma restrictRow_nodup [DecidableEq MinKey] (matrix : SmOracle MajKey MinKey SnzVal)
    (min_to_reduce : MinKey → Bool) (majkey : MajKey) :
    hashNodup (restrictRow matrix min_to_reduce majkey) := by
  have main : ∀ (l : List (MinKey × SnzVal)) (acc : Hash MinKey SnzVal),
      hashNodup acc →
      hashNodup (l.foldl
        (fun h kv => if min_to_reduce kv.1 then hashInsert h kv.1 kv.2 else h) acc) := by
    intro l
    induction l with
    | nil => intro acc hacc; exact hacc
    | cons kv t ih =>
      intro acc hacc
      simp only [List.foldl_cons]
      by_cases hm : min_to_reduce kv.1 = true
      · rw [if_pos hm]
        exact ih _ (hashNodup_insert hacc _ _)
      · rw [if_neg hm]
        exact ih acc hacc
  exact main _ [] (by simp [hashNodup])

lemma reconstruct_nodup [DecidableEq MinKey] [Inhabited MajKey]
    (matrix : SmOracle MajKey MinKey SnzVal) (min_to_reduce : MinKey → Bool)
    (ix : Indexing MinKey MajKey) (rro : Hash Nat SnzVal) :
    hashNodup (reconstruct matrix min_to_reduce ix rro) := by
  have main : ∀ (l : Hash Nat SnzVal) (acc : Hash MinKey SnzVal),
      hashNodup acc →
      hashNodup (l.foldl
        (fun row_reduced q =>
          (add_assign_hash matrix.ring row_reduced
            (restrictRow matrix min_to_reduce
              (ix.index_2_majkey.getD q.1 default)) q.2).1) acc) := by
    intro l
    induction l with
    | nil => intro acc hacc; exact hacc
    | cons q t ih =>
      intro acc hacc
      simp only [List.foldl_cons]
      exact ih _ (add_assign_nodup matrix.ring _ acc q.2 hacc)
  exact main rro [] (by simp [hashNodup])

lemma add_assign_values_nz [DecidableEq K] (ring : RingMetadata SnzVal) :
    ∀ (row : Hash K SnzVal) (hash : Hash K SnzVal) (scale : SnzVal),
      (∀ p ∈ hash, ring.is_0 p.2 = false) →
      ∀ p ∈ (add_assign_hash ring hash row scale).1, ring.is_0 p.2 = false := by
  intro row
  induction row with
  | nil => intro hash scale hnz; exact hnz
  | cons q rest ih =>
    intro hash scale hnz
    obtain ⟨key, val⟩ := q
    simp only [add_assign_hash]
    cases hashLookup hash key with
    | some x =>
      by_cases hz : ring.is_0 (ring.add x (ring.mul scale val))
      · simp only [hz, if_true]
        exact ih _ scale (fun p hp => hnz p (mem_remove_subset hp))
      · simp only [hz, if_false]
        refine ih _ scale (fun p hp => ?_)
        rcases mem_hashSet hp with h1 | h1
        · exact hnz p h1
        · rw [h1]
          simpa using eq_false_of_ne_true hz
    | none =>
      by_cases hz : ring.is_0 (ring.mul scale val)
      · simp only [hz, if_true]
        exact ih hash scale hnz
      · simp only [hz, if_false]
        refine ih _ scale (fun p hp => ?_)
        rcases mem_hashInsert hp with h1 | h1
        · exact hnz p h1
        · rw [h1]
          simpa using eq_false_of_ne_true hz

lemma reconstruct_values_nz [DecidableEq MinKey] [Inhabited MajKey]
    (matrix : SmOracle MajKey MinKey SnzVal) (min_to_reduce : MinKey → Bool)
    (ix : Indexing MinKey MajKey) (rro : Hash Nat SnzVal) :
    ∀ p ∈ reconstruct matrix min_to_reduce ix rro, matrix.ring.is_0 p.2 = false := by
  have main : ∀ (l : Hash Nat SnzVal) (acc : Hash MinKey SnzVal),
      (∀ p ∈ acc, matrix.ring.is_0 p.2 = false) →
      ∀ p ∈ l.foldl
        (fun row_reduced q =>
          (add_assign_hash matrix.ring row_reduced
            (restrictRow matrix min_to_reduce
              (ix.index_2_majkey.getD q.1 default)) q.2).1) acc,
        matrix.ring.is_0 p.2 = false := by
    intro l
    induction l with
    | nil => intro acc hacc; exact hacc
    | cons q t ih =>
      intro acc hacc
      simp only [List.foldl_cons]
      exact ih _ (add_assign_values_nz matrix.ring _ acc q.2 hacc)
  exact main rro [] (by simp)

end TermBasics

section TermValue

variable {K MajKey MinKey SnzVal Q : Type}

lemma valphi_nil [DecidableEq K] [CommRing Q] (phi : SnzVal → Q) (k : K) :
    valphi phi ([] : Hash K SnzVal) k = 0 := rfl

lemma valphi_some [DecidableEq K] [CommRing Q] (phi : SnzVal → Q) {h : Hash K SnzVal}
    {k : K} {v : SnzVal} (hl : hashLookup h k = some v) : valphi phi h k = phi v := by
  rw [valphi, hl]

lemma valphi_none [DecidableEq K] [CommRing Q] (phi : SnzVal → Q) {h : Hash K SnzVal}
    {k : K} (hl : hashLookup h k = none) : valphi phi h k = 0 := by
  rw [valphi, hl]

lemma valphi_congr [DecidableEq K] [CommRing Q] (phi : SnzVal → Q)
    {h1 h2 : Hash K SnzVal} {k : K} (h : hashLookup h1 k = hashLookup h2 k) :
    valphi phi h1 k = valphi phi h2 k := by
  rw [valphi, valphi, h]

lemma valphi_cons_self [DecidableEq K] [CommRing Q] (phi : SnzVal → Q) (k : K)
    (v : SnzVal) (t : Hash K SnzVal) : valphi phi ((k, v) :: t) k = phi v :=
  valphi_some phi (by rw [hashLookup_cons, if_pos rfl])

lemma valphi_cons_ne [DecidableEq K] [CommRing Q] (phi : SnzVal → Q) {k key : K}
    (hne : key ≠ k) (v : SnzVal) (t : Hash K SnzVal) :
    valphi phi ((key, v) :: t) k = valphi phi t k :=
  valphi_congr phi (by rw [hashLookup_cons, if_neg hne])

/-- The merge primitive is pointwise exact in the interpretation ring: the
value of the merged accumulator at any key is the old value plus the scale
times the source-row value. -/
lemma valphi_add_assign [DecidableEq K] [CommRing Q] {ring : RingMetadata SnzVal}
    {phi : SnzVal → Q} (hlaws : RingLaws ring phi) :
    ∀ (row : Hash K SnzVal) (hash : Hash K SnzVal) (scale : SnzVal) (k : K),
      hashNodup hash → hashNodup row →
      valphi phi (add_assign_hash ring hash row scale).1 k =
        valphi phi hash k + phi scale * valphi phi row k := by
  intro row
  induction row with
  | nil =>
    intro hash scale k hn hr
    show valphi phi hash k =
      valphi phi hash k + phi scale * valphi phi ([] : Hash K SnzVal) k
    rw [valphi_nil]
    ring
  | cons q rest ih =>
    intro hash scale k hn hr
    obtain ⟨key, val⟩ := q
    rw [hashNodup_cons] at hr
    simp only [add_assign_hash]
    cases hl : hashLookup hash key with
    | some x =>
      by_cases hz : ring.is_0 (ring.add x (ring.mul scale val))
      · simp only [hz, if_true]
        rw [ih _ scale k (hashNodup_remove hn key) hr.2]
        by_cases hkk : k = key
        · subst hkk
          rw [valphi_none phi (hashLookup_remove_self hn k),
            valphi_none phi (hashLookup_eq_none_of_not_mem hr.1),
            valphi_cons_self, valphi_some phi hl]
          have h0 : phi (ring.add x (ring.mul scale val)) = 0 := (hlaws.is0_iff _).1 hz
          rw [hlaws.map_add, hlaws.map_mul] at h0
          rw [h0]
          ring
        · rw [valphi_congr phi (hashLookup_remove_ne hkk),
            valphi_cons_ne phi (fun h => hkk h.symm)]
      · simp only [hz, Bool.false_eq_true, if_false]
        rw [ih _ scale k (hashNodup_set hn key _) hr.2]
        by_cases hkk : k = key
        · subst hkk
          rw [valphi_some phi (hashLookup_set_self _ (by rw [hl]; rfl)),
            valphi_none phi (hashLookup_eq_none_of_not_mem hr.1),
            valphi_cons_self, valphi_some phi hl,
            hlaws.map_add, hlaws.map_mul]
          ring
        · rw [valphi_congr phi (hashLookup_set_ne _ hkk),
            valphi_cons_ne phi (fun h => hkk h.symm)]
    | none =>
      by_cases hz : ring.is_0 (ring.mul scale val)
      · simp only [hz, if_true]
        rw [ih hash scale k hn hr.2]
        by_cases hkk : k = key
        · subst hkk
          rw [valphi_none phi (hashLookup_eq_none_of_not_mem hr.1),
            valphi_cons_self]
          have h0 : phi (ring.mul scale val) = 0 := (hlaws.is0_iff _).1 hz
          rw [hlaws.map_mul] at h0
          rw [h0]
          ring
        · rw [valphi_cons_ne phi (fun h => hkk h.symm)]
      · simp only [hz, Bool.false_eq_true, if_false]
        rw [ih _ scale k (hashNodup_insert hn key _) hr.2]
        by_cases hkk : k = key
        · subst hkk
          rw [valphi_some phi (hashLookup_insert_self hash k _),
            valphi_none phi (hashLookup_eq_none_of_not_mem hr.1),
            valphi_cons_self, valphi_none phi hl,
            hlaws.map_mul]
          ring
        · rw [valphi_congr phi (hashLookup_insert_ne _ hkk),
            valphi_cons_ne phi (fun h => hkk h.symm)]

/-- The value of a reconstruction fold, generalized over the accumulator. -/
lemma valphi_foldl_add_assign [LinearOrder MinKey] [DecidableEq MajKey]
    [Inhabited MajKey] [CommRing Q] {matrix : SmOracle MajKey MinKey SnzVal}
    {phi : SnzVal → Q} (hlaws : RingLaws matrix.ring phi)
    (min_to_reduce : MinKey → Bool) (ix : Indexing MinKey MajKey) :
    ∀ (rro : Hash Nat SnzVal) (acc : Hash MinKey SnzVal) (k : MinKey), hashNodup acc →
      valphi phi (rro.foldl
        (fun row_reduced p =>
          (add_assign_hash matrix.ring row_reduced
            (restrictRow matrix min_to_reduce (ix.index_2_majkey.getD p.1 default))
            p.2).1) acc) k =
      valphi phi acc k +
        (rro.map (fun p => phi p.2 *
          valphi phi (restrictRow matrix min_to_reduce
            (ix.index_2_majkey.getD p.1 default)) k)).sum := by
  intro rro
  induction rro with
  | nil => intro acc k hacc; simp
  | cons p t ih =>
    intro acc k hacc
    simp only [List.foldl_cons, List.map_cons, List.sum_cons]
    rw [ih _ k (add_assign_nodup matrix.ring _ acc p.2 hacc)]
    rw [valphi_add_assign hlaws _ acc p.2 k hacc
      (restrictRow_nodup matrix min_to_reduce _)]
    ring

/-- The value of a reconstructed pivot row at a key is the coefficient
combination of the restricted oracle rows named by the row-operation row. -/
lemma valphi_reconstruct [LinearOrder MinKey] [DecidableEq MajKey] [Inhabited MajKey]
    [CommRing Q] {matrix : SmOracle MajKey MinKey SnzVal} {phi : SnzVal → Q}
    (hlaws : RingLaws matrix.ring phi) (min_to_reduce : MinKey → Bool)
    (ix : Indexing MinKey MajKey) (rro : Hash Nat SnzVal) (k : MinKey) :
    valphi phi (reconstruct matrix min_to_reduce ix rro) k =
      (rro.map (fun p => phi p.2 *
        valphi phi (restrictRow matrix min_to_reduce
          (ix.index_2_majkey.getD p.1 default)) k)).sum := by
  rw [reconstruct,
    valphi_foldl_add_assign hlaws min_to_reduce ix rro [] k (by simp [hashNodup]),
    valphi_nil]
  ring

/-- An entry sum of a duplicate-free hash with bounded keys equals the
corresponding dense-range sum of its values. -/
lemma entries_sum_range [CommRing Q] (phi : SnzVal → Q) :
    ∀ (l : Hash Nat SnzVal) (f : Nat → Q) (n : Nat), hashNodup l →
      (∀ p ∈ l, p.1 < n) →
      (l.map (fun p => phi p.2 * f p.1)).sum =
        (Finset.range n).sum (fun j => valphi phi l j * f j) := by
  intro l
  induction l with
  | nil =>
    intro f n hn hb
    simp [valphi_nil]
  | cons p t ih =>
    intro f n hn hb
    obtain ⟨j0, c⟩ := p
    rw [hashNodup_cons] at hn
    have hj0 : j0 ∈ Finset.range n :=
      Finset.mem_range.2 (hb (j0, c) (List.mem_cons_self _ _))
    have hsplit : (Finset.range n).sum (fun j => valphi phi ((j0, c) :: t) j * f j) =
        phi c * f j0 + (Finset.range n).sum (fun j => valphi phi t j * f j) := by
      rw [← Finset.add_sum_erase _ _ hj0, valphi_cons_self]
      congr 1
      calc ((Finset.range n).erase j0).sum (fun j => valphi phi ((j0, c) :: t) j * f j)
          = ((Finset.range n).erase j0).sum (fun j => valphi phi t j * f j) :=
            Finset.sum_congr rfl (fun j hj => by
              rw [valphi_cons_ne phi (fun h => (Finset.mem_erase.1 hj).1 h.symm)])
        _ = (Finset.range n).sum (fun j => valphi phi t j * f j) :=
            Finset.sum_erase _ (by
              rw [valphi_none phi (hashLookup_eq_none_of_not_mem hn.1)]
              ring)
    rw [List.map_cons, List.sum_cons,
      ih f n hn.2 (fun p hp => hb p (List.mem_cons_of_mem _ hp)), hsplit]

/-- Dense-range form of the reconstruction value. -/
lemma valphi_reconstruct_range [LinearOrder MinKey] [DecidableEq MajKey]
    [Inhabited MajKey] [CommRing Q] {matrix : SmOracle MajKey MinKey SnzVal}
    {phi : SnzVal → Q} (hlaws : RingLaws matrix.ring phi)
    (min_to_reduce : MinKey → Bool) (ix : Indexing MinKey MajKey)
    (rro : Hash Nat SnzVal) (n : Nat) (k : MinKey)
    (hnod : hashNodup rro) (hb : ∀ p ∈ rro, p.1 < n) :
    valphi phi (reconstruct matrix min_to_reduce ix rro) k =
      (Finset.range n).sum (fun j => valphi phi rro j *
        valphi phi (restrictRow matrix min_to_reduce
          (ix.index_2_majkey.getD j default)) k) := by
  rw [valphi_reconstruct hlaws min_to_reduce ix rro k]
  exact entries_sum_range phi rro
    (fun j => valphi phi (restrictRow matrix min_to_reduce
      (ix.index_2_majkey.getD j default)) k) n hnod hb

end TermValue

section TermStep

variable {MajKey MinKey SnzVal Q : Type} [LinearOrder MinKey] [DecidableEq MajKey]
  [Inhabited MajKey] [CommRing Q]

lemma heapPop_length {K : Type} [LinearOrder K] {l : List K} {m : K} {h1 : List K}
    (hp : heapPop l = some (m, h1)) : l.length = h1.length + 1 := by
  have := (heapPop_perm l hp).1.length_eq
  simpa using this

lemma heapPop_mem_rest {K : Type} [LinearOrder K] {l : List K} {m : K} {h1 : List K}
    (hp : heapPop l = some (m, h1)) {k : K} (hk : k ∈ l) (hne : k ≠ m) : k ∈ h1 := by
  have := ((heapPop_perm l hp).1.mem_iff).1 hk
  rcases List.mem_cons.1 this with h2 | h2
  · exact absurd h2 hne
  · exact h2

lemma hashRemoveKey_length {K V : Type} [DecidableEq K] :
    ∀ (h : Hash K V) (k : K), k ∈ h.map Prod.fst →
      (hashRemoveKey h k).length + 1 ≤ h.length := by
  intro h
  induction h with
  | nil => intro k hk; simp at hk
  | cons p t ih =>
    intro k hk
    rw [List.map_cons] at hk
    by_cases hp : p.1 = k
    · rw [hashRemoveKey, if_pos hp]
      simp
    · rw [hashRemoveKey, if_neg hp]
      have hk2 : k ∈ t.map Prod.fst := by
        rcases List.mem_cons.1 hk with h2 | h2
        · exact absurd h2.symm hp
        · exact h2
      have := ih k hk2
      simp only [List.length_cons]
      omega

lemma not_mem_keys_remove {K V : Type} [DecidableEq K] {h : Hash K V}
    (hn : hashNodup h) (k : K) : k ∉ (hashRemoveKey h k).map Prod.fst := by
  intro hk
  have := (hashLookup_isSome_iff_mem _ k).2 hk
  rw [hashLookup_remove_self hn k] at this
  simp at this

lemma remove_isSome_sub {K V : Type} [DecidableEq K] {h : Hash K V} (hn : hashNodup h)
    (k : K) : ∀ g, (hashLookup (hashRemoveKey h k) g).isSome = true →
      (hashLookup h g).isSome = true := by
  intro g hg
  by_cases hgk : g = k
  · subst hgk
    rw [hashLookup_remove_self hn g] at hg
    simp at hg
  · rw [hashLookup_remove_ne hgk] at hg
    exact hg

lemma le_foldr_max : ∀ (l : List Nat) (x : Nat), x ∈ l → x ≤ l.foldr Nat.max 0 := by
  intro l
  induction l with
  | nil => intro x hx; exact absurd hx (List.not_mem_nil x)
  | cons a t ih =>
    intro x hx
    rcases List.mem_cons.1 hx with h1 | h1
    · subst h1
      exact Nat.le_max_left _ _
    · exact le_trans (ih x h1) (Nat.le_max_right _ _)

lemma length_le_maxRecon (matrix : SmOracle MajKey MinKey SnzVal)
    (min_to_reduce : MinKey → Bool) (ro : CSM SnzVal) (ix : Indexing MinKey MajKey)
    {i : Nat} (hi : i < ro.nummaj) :
    (reconOf matrix min_to_reduce ro ix i).length ≤
      maxRecon matrix min_to_reduce ro ix := by
  refine le_foldr_max _ _ ?_
  exact List.mem_map.2 ⟨i, List.mem_range.2 hi, rfl⟩

lemma mem_goodSet {matrix : SmOracle MajKey MinKey SnzVal}
    {min_to_reduce : MinKey → Bool} {ro : CSM SnzVal} {ix : Indexing MinKey MajKey}
    {k : MinKey} (hmem : k ∈ ix.index_2_minkey)
    (hg : goodKey matrix min_to_reduce ro ix k = true) :
    k ∈ GoodSet matrix min_to_reduce ro ix := by
  rw [GoodSet, List.mem_toFinset]
  exact List.mem_filter.2 ⟨hmem, hg⟩

lemma goodSet_goodKey {matrix : SmOracle MajKey MinKey SnzVal}
    {min_to_reduce : MinKey → Bool} {ro : CSM SnzVal} {ix : Indexing MinKey MajKey}
    {k : MinKey} (hk : k ∈ GoodSet matrix min_to_reduce ro ix) :
    goodKey matrix min_to_reduce ro ix k = true := by
  rw [GoodSet, List.mem_toFinset] at hk
  exact (List.mem_filter.1 hk).2

lemma termB_pos (matrix : SmOracle MajKey MinKey SnzVal)
    (min_to_reduce : MinKey → Bool) (ro : CSM SnzVal) (ix : Indexing MinKey MajKey) :
    0 < termB matrix min_to_reduce ro ix := by
  rw [termB]
  omega

lemma aboveCount_succ_le (matrix : SmOracle MajKey MinKey SnzVal)
    (min_to_reduce : MinKey → Bool) (ro : CSM SnzVal) (ix : Indexing MinKey MajKey)
    {g mk : MinKey} (hg : g ∈ GoodSet matrix min_to_reduce ro ix) (hlt : mk < g) :
    aboveCount matrix min_to_reduce ro ix g + 1 ≤
      aboveCount matrix min_to_reduce ro ix mk := by
  rw [aboveCount, aboveCount]
  have hsub : insert g ((GoodSet matrix min_to_reduce ro ix).filter (fun h2 => g < h2)) ⊆
      (GoodSet matrix min_to_reduce ro ix).filter (fun h2 => mk < h2) := by
    intro x hx
    rcases Finset.mem_insert.1 hx with h1 | h1
    · subst h1
      exact Finset.mem_filter.2 ⟨hg, hlt⟩
    · obtain ⟨hx1, hx2⟩ := Finset.mem_filter.1 h1
      exact Finset.mem_filter.2 ⟨hx1, lt_trans hlt hx2⟩
  have hnotmem : g ∉ (GoodSet matrix min_to_reduce ro ix).filter (fun h2 => g < h2) :=
    fun hmem => absurd (Finset.mem_filter.1 hmem).2 (lt_irrefl g)
  calc ((GoodSet matrix min_to_reduce ro ix).filter (fun h2 => g < h2)).card + 1
      = (insert g ((GoodSet matrix min_to_reduce ro ix).filter
          (fun h2 => g < h2))).card := (Finset.card_insert_of_not_mem hnotmem).symm
    _ ≤ ((GoodSet matrix min_to_reduce ro ix).filter (fun h2 => mk < h2)).card :=
        Finset.card_le_card hsub

lemma keyWeight_le_of_lt (matrix : SmOracle MajKey MinKey SnzVal)
    (min_to_reduce : MinKey → Bool) (ro : CSM SnzVal) (ix : Indexing MinKey MajKey)
    {g mk : MinKey} (hg : g ∈ GoodSet matrix min_to_reduce ro ix) (hlt : mk < g) :
    keyWeight matrix min_to_reduce ro ix g ≤
      termB matrix min_to_reduce ro ix ^ aboveCount matrix min_to_reduce ro ix mk := by
  rw [keyWeight]
  exact Nat.pow_le_pow_right (termB_pos matrix min_to_reduce ro ix)
    (aboveCount_succ_le matrix min_to_reduce ro ix hg hlt)

lemma sum_weight_old {α : Type} [DecidableEq α] (G : Finset α) (w : α → Nat)
    (live1 : α → Bool) (m : α) (hm : m ∈ G) (hlive : live1 m = true) :
    G.sum (fun g => if live1 g then w g else 0) =
      w m + (G.erase m).sum (fun g => if live1 g then w g else 0) := by
  rw [← Finset.add_sum_erase G _ hm, if_pos hlive]

lemma sum_weight_elim {α : Type} [DecidableEq α] (G : Finset α) (w : α → Nat)
    (live1 live2 : α → Bool) (m : α) (X : Nat)
    (hm : m ∈ G) (hlive2m : live2 m = false)
    (hmono : ∀ g ∈ G.erase m, live2 g = true → live1 g = true ∨ w g ≤ X) :
    G.sum (fun g => if live2 g then w g else 0) ≤
      (G.erase m).sum (fun g => if live1 g then w g else 0) + G.card * X := by
  calc G.sum (fun g => if live2 g then w g else 0)
      = (if live2 m then w m else 0) +
          (G.erase m).sum (fun g => if live2 g then w g else 0) :=
        (Finset.add_sum_erase G _ hm).symm
    _ = (G.erase m).sum (fun g => if live2 g then w g else 0) := by
        rw [if_neg (by rw [hlive2m]; exact Bool.false_ne_true), zero_add]
    _ ≤ (G.erase m).sum (fun g => (if live1 g then w g else 0) + X) := by
        refine Finset.sum_le_sum (fun g hg => ?_)
        by_cases h2 : live2 g = true
        · rw [if_pos h2]
          rcases hmono g hg h2 with h3 | h3
          · rw [if_pos h3]
            exact Nat.le_add_right _ _
          · exact le_trans h3 (Nat.le_add_left _ _)
        · rw [if_neg h2]
          exact Nat.zero_le _
    _ = (G.erase m).sum (fun g => if live1 g then w g else 0) +
          (G.erase m).card * X := by
        rw [Finset.sum_add_distrib, Finset.sum_const, smul_eq_mul]
    _ ≤ (G.erase m).sum (fun g => if live1 g then w g else 0) + G.card * X := by
        have := Finset.card_le_card (Finset.erase_subset m G)
        exact Nat.add_le_add_left (Nat.mul_le_mul this (le_refl X)) _

lemma term_arith (rl ec mR X B S : Nat) (h1 : 1 ≤ X) (h2 : rl + 1 ≤ mR)
    (h4 : S = ec + mR + 1) (h5 : B = 2 * S + 2) :
    rl + ec * X < 1 + X * B := by
  have h6 : mR ≤ mR * X := by
    calc mR = mR * 1 := (Nat.mul_one _).symm
      _ ≤ mR * X := Nat.mul_le_mul (le_refl _) h1
  have h7 : (mR + ec) * X < B * X := by
    refine mul_lt_mul_of_pos_right ?_ h1
    omega
  have h8 : mR + ec * X ≤ (mR + ec) * X := by
    rw [Nat.add_mul]
    omega
  have h9 : X * B = B * X := Nat.mul_comm _ _
  omega

lemma phiMeasure_drop (matrix : SmOracle MajKey MinKey SnzVal)
    (min_to_reduce : MinKey → Bool) (ro : CSM SnzVal) (ix : Indexing MinKey MajKey)
    (s : InnerState MinKey SnzVal) {minkey : MinKey} {heap1 : List MinKey}
    (hpop : heapPop s.heap_reduced = some (minkey, heap1))
    (hash1 : Hash MinKey SnzVal)
    (hsub : ∀ g, (hashLookup hash1 g).isSome = true →
      (hashLookup s.hash_reduced g).isSome = true)
    (hp2 : List Nat) (hh2 : Hash Nat SnzVal) :
    phiMeasure matrix min_to_reduce ro ix
      { heap_reduced := heap1, hash_reduced := hash1,
        heap_rowoper := hp2, hash_rowoper := hh2 } <
      phiMeasure matrix min_to_reduce ro ix s := by
  have hlen := heapPop_length hpop
  simp only [phiMeasure]
  have hsum : (GoodSet matrix min_to_reduce ro ix).sum
      (fun g => if (hashLookup hash1 g).isSome then
        keyWeight matrix min_to_reduce ro ix g else 0) ≤
      (GoodSet matrix min_to_reduce ro ix).sum
      (fun g => if (hashLookup s.hash_reduced g).isSome then
        keyWeight matrix min_to_reduce ro ix g else 0) := by
    refine Finset.sum_le_sum (fun g hg => ?_)
    by_cases h1 : (hashLookup hash1 g).isSome = true
    · rw [if_pos h1, if_pos (hsub g h1)]
    · rw [if_neg h1]
      exact Nat.zero_le _
  omega

lemma badKey_nodominator {matrix : SmOracle MajKey MinKey SnzVal}
    (min_to_reduce : MinKey → Bool) (ro : CSM SnzVal) (ix : Indexing MinKey MajKey)
    {minkey : MinKey} {index : Nat}
    (hidx : hashLookup ix.minkey_2_index minkey = some index)
    (hdom : hashRemoveGet
      (reconstruct matrix min_to_reduce ix (ro.maj_hash index)) minkey = none) :
    BadKey matrix min_to_reduce ro ix minkey := by
  show (hashLookup ix.minkey_2_index minkey).isSome ∧
    goodKey matrix min_to_reduce ro ix minkey = false
  refine ⟨by rw [hidx]; rfl, ?_⟩
  simp only [goodKey, hidx, reconOf, hashRemoveGet_none hdom]

lemma badKey_noninvertible {matrix : SmOracle MajKey MinKey SnzVal}
    (min_to_reduce : MinKey → Bool) (ro : CSM SnzVal) (ix : Indexing MinKey MajKey)
    {minkey : MinKey} {index : Nat} {dominator : SnzVal}
    {row_reduced1 : Hash MinKey SnzVal}
    (hidx : hashLookup ix.minkey_2_index minkey = some index)
    (hdom : hashRemoveGet
      (reconstruct matrix min_to_reduce ix (ro.maj_hash index)) minkey =
      some (dominator, row_reduced1))
    (hinv : matrix.ring.inverse dominator = none) :
    BadKey matrix min_to_reduce ro ix minkey := by
  show (hashLookup ix.minkey_2_index minkey).isSome ∧
    goodKey matrix min_to_reduce ro ix minkey = false
  refine ⟨by rw [hidx]; rfl, ?_⟩
  simp only [goodKey, hidx, reconOf, (hashRemoveGet_some hdom).1, hinv,
    Option.isSome_none]

lemma phiMeasure_elim (matrix : SmOracle MajKey MinKey SnzVal)
    (min_to_reduce : MinKey → Bool) (ro : CSM SnzVal) (ix : Indexing MinKey MajKey)
    (s : InnerState MinKey SnzVal) {minkey : MinKey} {heap1 : List MinKey}
    {leading_entry dominator : SnzVal} {hash1 row_reduced1 : Hash MinKey SnzVal}
    {index : Nat} (scale : SnzVal)
    (hpop : heapPop s.heap_reduced = some (minkey, heap1))
    (hrem : hashRemoveGet s.hash_reduced minkey = some (leading_entry, hash1))
    (hidx : hashLookup ix.minkey_2_index minkey = some index)
    (hdom : hashRemoveGet
      (reconstruct matrix min_to_reduce ix (ro.maj_hash index)) minkey =
      some (dominator, row_reduced1))
    (hinvd : (matrix.ring.inverse dominator).isSome = true)
    (hnodred : hashNodup s.hash_reduced)
    (hInv : Inv min_to_reduce matrix.ring.identity_multiplicative ro ix)
    (hGood : GoodInv matrix min_to_reduce ro ix)
    (hp2 : List Nat) (hh2 : Hash Nat SnzVal) :
    phiMeasure matrix min_to_reduce ro ix
      { heap_reduced := (update_heap_hash matrix.ring heap1 hash1 row_reduced1 scale).1,
        hash_reduced := (update_heap_hash matrix.ring heap1 hash1 row_reduced1 scale).2.1,
        heap_rowoper := hp2, hash_rowoper := hh2 } <
      phiMeasure matrix min_to_reduce ro ix s := by
  have hidxlt : index < ro.nummaj := (hInv.2.2.2.2.1 minkey index hidx).1
  have hminmem : ix.index_2_minkey[index]? = some minkey :=
    (hInv.2.2.2.2.1 minkey index hidx).2
  have hrecon := hashRemoveGet_some hdom
  have hrem2 := hashRemoveGet_some hrem
  have hnodrecon : hashNodup (reconstruct matrix min_to_reduce ix (ro.maj_hash index)) :=
    reconstruct_nodup matrix min_to_reduce ix _
  have hgoodmin : goodKey matrix min_to_reduce ro ix minkey = true := by
    simp only [goodKey, hidx, reconOf, hrecon.1]
    exact hinvd
  have hminGood : minkey ∈ GoodSet matrix min_to_reduce ro ix :=
    mem_goodSet (List.getElem?_mem hminmem) hgoodmin
  have hsur : ∀ g,
      (hashLookup (update_heap_hash matrix.ring heap1 hash1 row_reduced1
        scale).2.1 g).isSome = true →
      (hashLookup hash1 g).isSome = true ∨ g ∈ row_reduced1.map Prod.fst := by
    intro g hg
    by_cases hmem : g ∈ row_reduced1.map Prod.fst
    · exact Or.inr hmem
    · rw [update_hash_eq_add_assign,
        add_assign_lookup_not_mem matrix.ring row_reduced1 hash1 scale g hmem] at hg
      exact Or.inl hg
  have hminnone : hashLookup (update_heap_hash matrix.ring heap1 hash1 row_reduced1
      scale).2.1 minkey = none := by
    rw [update_hash_eq_add_assign,
      add_assign_lookup_not_mem matrix.ring row_reduced1 hash1 scale minkey
        (by rw [hrecon.2]; exact not_mem_keys_remove hnodrecon minkey),
      hrem2.2]
    exact hashLookup_remove_self hnodred minkey
  have hglt : ∀ g, g ∈ GoodSet matrix min_to_reduce ro ix → g ≠ minkey →
      g ∈ row_reduced1.map Prod.fst → minkey < g := by
    intro g hgS hgne hgmem
    by_contra hnlt
    have hglt2 : g < minkey := lt_of_le_of_ne (le_of_not_lt hnlt) hgne
    have hsur2 : (hashLookup (reconstruct matrix min_to_reduce ix
        (ro.maj_hash index)) g).isSome = true := by
      rw [hashLookup_isSome_iff_mem]
      have hmem2 : g ∈ (hashRemoveKey (reconstruct matrix min_to_reduce ix
          (ro.maj_hash index)) minkey).map Prod.fst := by
        rw [← hrecon.2]
        exact hgmem
      exact keys_remove_subset _ _ hmem2
    have hbad := hGood index hidxlt minkey g hminmem hglt2 hsur2
    have hgood := goodSet_goodKey hgS
    rw [hbad.2] at hgood
    simp at hgood
  have hlen := heapPop_length hpop
  have hupd := update_heap_length matrix.ring row_reduced1 heap1 hash1 scale
  have hrowlen : row_reduced1.length + 1 ≤ maxRecon matrix min_to_reduce ro ix := by
    have h1 : minkey ∈ (reconstruct matrix min_to_reduce ix
        (ro.maj_hash index)).map Prod.fst := by
      rw [← hashLookup_isSome_iff_mem, hrecon.1]
      rfl
    have h2 := hashRemoveKey_length
      (reconstruct matrix min_to_reduce ix (ro.maj_hash index)) minkey h1
    have h3 : (reconstruct matrix min_to_reduce ix (ro.maj_hash index)).length ≤
        maxRecon matrix min_to_reduce ro ix :=
      length_le_maxRecon matrix min_to_reduce ro ix hidxlt
    rw [hrecon.2]
    omega
  have hold := sum_weight_old (GoodSet matrix min_to_reduce ro ix)
    (keyWeight matrix min_to_reduce ro ix)
    (fun g => (hashLookup s.hash_reduced g).isSome) minkey hminGood
    (by show (hashLookup s.hash_reduced minkey).isSome = true
        rw [hrem2.1]
        rfl)
  have hnew := sum_weight_elim (GoodSet matrix min_to_reduce ro ix)
    (keyWeight matrix min_to_reduce ro ix)
    (fun g => (hashLookup s.hash_reduced g).isSome)
    (fun g => (hashLookup (update_heap_hash matrix.ring heap1 hash1 row_reduced1
      scale).2.1 g).isSome)
    minkey (termB matrix min_to_reduce ro ix ^
      aboveCount matrix min_to_reduce ro ix minkey) hminGood
    (by show (hashLookup (update_heap_hash matrix.ring heap1 hash1 row_reduced1
          scale).2.1 minkey).isSome = false
        rw [hminnone]
        rfl)
    (by
      intro g hg h2
      rcases hsur g h2 with h3 | h3
      · left
        refine remove_isSome_sub hnodred minkey g ?_
        rw [← hrem2.2]
        exact h3
      · right
        exact keyWeight_le_of_lt matrix min_to_reduce ro ix
          (Finset.mem_of_mem_erase hg)
          (hglt g (Finset.mem_of_mem_erase hg) (Finset.mem_erase.1 hg).1 h3))
  simp only [] at hold hnew
  have hWm : keyWeight matrix min_to_reduce ro ix minkey =
      termB matrix min_to_reduce ro ix ^
        aboveCount matrix min_to_reduce ro ix minkey *
        termB matrix min_to_reduce ro ix := by
    rw [keyWeight, pow_succ]
  have hX1 : 1 ≤ termB matrix min_to_reduce ro ix ^
      aboveCount matrix min_to_reduce ro ix minkey :=
    Nat.one_le_pow _ _ (termB_pos matrix min_to_reduce ro ix)
  have harith := term_arith row_reduced1.length
    (GoodSet matrix min_to_reduce ro ix).card
    (maxRecon matrix min_to_reduce ro ix)
    (termB matrix min_to_reduce ro ix ^
      aboveCount matrix min_to_reduce ro ix minkey)
    (termB matrix min_to_reduce ro ix)
    (termS matrix min_to_reduce ro ix)
    hX1 hrowlen rfl rfl
  simp only [phiMeasure]
  omega

end TermStep

section TermInner

variable {MajKey MinKey SnzVal Q : Type} [LinearOrder MinKey] [DecidableEq MajKey]
  [Inhabited MajKey] [CommRing Q]

/-- A skipped leading entry (zero value, or a bad pivot key) keeps the value
invariant. -/
lemma innerval_drop {matrix : SmOracle MajKey MinKey SnzVal} {phi : SnzVal → Q}
    (min_to_reduce : MinKey → Bool) (ro : CSM SnzVal) (ix : Indexing MinKey MajKey)
    (majkey : MajKey) (s : InnerState MinKey SnzVal) {minkey : MinKey}
    {leading_entry : SnzVal} {hash1 : Hash MinKey SnzVal}
    (hrem : hashRemoveGet s.hash_reduced minkey = some (leading_entry, hash1))
    (hnodred : hashNodup s.hash_reduced)
    (hval : InnerVal phi matrix min_to_reduce ro ix majkey s)
    (hcase : phi leading_entry = 0 ∨ BadKey matrix min_to_reduce ro ix minkey)
    (hp1 : List MinKey) :
    InnerVal phi matrix min_to_reduce ro ix majkey
      { heap_reduced := hp1, hash_reduced := hash1,
        heap_rowoper := s.heap_rowoper, hash_rowoper := s.hash_rowoper } := by
  intro k
  have hremk := hashRemoveGet_some hrem
  by_cases hkk : k = minkey
  · subst hkk
    rcases hcase with h0 | hbad
    · rcases hval k with hbad | heq
      · exact Or.inl hbad
      · right
        show valphi phi hash1 k = _
        rw [hremk.2, valphi_none phi (hashLookup_remove_self hnodred k),
          ← heq, valphi_some phi hremk.1, h0]
    · exact Or.inl hbad
  · rcases hval k with hbad | heq
    · exact Or.inl hbad
    · right
      show valphi phi hash1 k = _
      rw [hremk.2, valphi_congr phi (hashLookup_remove_ne hkk)]
      exact heq

/-- A successful elimination step keeps the value invariant: the value
added to the main accumulator is exactly the value the row-operation update
adds to the assembled combination. -/
lemma innerval_elim {matrix : SmOracle MajKey MinKey SnzVal} {phi : SnzVal → Q}
    (hlaws : RingLaws matrix.ring phi) (min_to_reduce : MinKey → Bool)
    (ro : CSM SnzVal) (ix : Indexing MinKey MajKey) (majkey : MajKey)
    (s : InnerState MinKey SnzVal) {minkey : MinKey}
    {leading_entry dominator inv : SnzVal} {hash1 row_reduced1 : Hash MinKey SnzVal}
    {index : Nat}
    (hrem : hashRemoveGet s.hash_reduced minkey = some (leading_entry, hash1))
    (hidx : hashLookup ix.minkey_2_index minkey = some index)
    (hdom : hashRemoveGet
      (reconstruct matrix min_to_reduce ix (ro.maj_hash index)) minkey =
      some (dominator, row_reduced1))
    (hinv : matrix.ring.inverse dominator = some inv)
    (hnodred : hashNodup s.hash_reduced) (hnodro : hashNodup s.hash_rowoper)
    (hrownod : hashNodup (ro.maj_hash index))
    (hrowkeys : ∀ p ∈ ro.maj_hash index, p.1 < ro.nummaj)
    (hval : InnerVal phi matrix min_to_reduce ro ix majkey s)
    (hp1 : List MinKey) (hp2 : List Nat) :
    InnerVal phi matrix min_to_reduce ro ix majkey
      { heap_reduced := hp1,
        hash_reduced := (add_assign_hash matrix.ring hash1 row_reduced1
          (matrix.ring.simplify (matrix.ring.mul (matrix.ring.neg leading_entry)
            inv))).1,
        heap_rowoper := hp2,
        hash_rowoper := (add_assign_hash matrix.ring s.hash_rowoper (ro.maj_hash index)
          (matrix.ring.simplify (matrix.ring.mul (matrix.ring.neg leading_entry)
            inv))).1 } := by
  have hremk := hashRemoveGet_some hrem
  have hdomk := hashRemoveGet_some hdom
  have hnodr : hashNodup (reconstruct matrix min_to_reduce ix (ro.maj_hash index)) :=
    reconstruct_nodup matrix min_to_reduce ix _
  have hnodh1 : hashNodup hash1 := by
    rw [hremk.2]
    exact hashNodup_remove hnodred _
  have hnodrr1 : hashNodup row_reduced1 := by
    rw [hdomk.2]
    exact hashNodup_remove hnodr _
  have hphis : phi (matrix.ring.simplify (matrix.ring.mul
      (matrix.ring.neg leading_entry) inv)) = -(phi leading_entry) * phi inv := by
    rw [hlaws.map_simplify, hlaws.map_mul, hlaws.map_neg]
  have hinvspec : phi inv * phi dominator = 1 := hlaws.inverse_spec dominator inv hinv
  have hreconval : ∀ k2 : MinKey,
      valphi phi (reconstruct matrix min_to_reduce ix (ro.maj_hash index)) k2 =
      (Finset.range ro.nummaj).sum (fun j => valphi phi (ro.maj_hash index) j *
        valphi phi (restrictRow matrix min_to_reduce
          (ix.index_2_majkey.getD j default)) k2) :=
    fun k2 => valphi_reconstruct_range hlaws min_to_reduce ix _ ro.nummaj k2
      hrownod hrowkeys
  have hhRj : ∀ j, valphi phi (add_assign_hash matrix.ring s.hash_rowoper
      (ro.maj_hash index) (matrix.ring.simplify (matrix.ring.mul
        (matrix.ring.neg leading_entry) inv))).1 j =
      valphi phi s.hash_rowoper j +
        phi (matrix.ring.simplify (matrix.ring.mul
          (matrix.ring.neg leading_entry) inv)) *
          valphi phi (ro.maj_hash index) j :=
    fun j => valphi_add_assign hlaws _ _ _ j hnodro hrownod
  have hvcomb : ∀ k : MinKey, Vcomb phi matrix min_to_reduce ix majkey ro.nummaj
      (add_assign_hash matrix.ring s.hash_rowoper (ro.maj_hash index)
        (matrix.ring.simplify (matrix.ring.mul (matrix.ring.neg leading_entry)
          inv))).1 k =
      Vcomb phi matrix min_to_reduce ix majkey ro.nummaj s.hash_rowoper k +
        phi (matrix.ring.simplify (matrix.ring.mul (matrix.ring.neg leading_entry)
          inv)) *
          valphi phi (reconstruct matrix min_to_reduce ix (ro.maj_hash index)) k := by
    intro k
    simp only [Vcomb, Rrow]
    rw [hreconval k, Finset.mul_sum, add_assoc, ← Finset.sum_add_distrib]
    congr 1
    refine Finset.sum_congr rfl (fun j _ => ?_)
    rw [hhRj j]
    ring
  intro k
  rcases hval k with hbad | heq
  · exact Or.inl hbad
  · right
    show valphi phi (add_assign_hash matrix.ring hash1 row_reduced1 _).1 k = _
    rw [valphi_add_assign hlaws row_reduced1 hash1 _ k hnodh1 hnodrr1, hvcomb k]
    by_cases hkk : k = minkey
    · subst hkk
      rw [valphi_none phi (by rw [hremk.2]; exact hashLookup_remove_self hnodred k),
        valphi_none phi (by rw [hdomk.2]; exact hashLookup_remove_self hnodr k),
        ← heq, valphi_some phi hremk.1, valphi_some phi hdomk.1, hphis]
      have hcancel : -(phi leading_entry) * phi inv * phi dominator =
          -(phi leading_entry) := by
        rw [mul_assoc, hinvspec, mul_one]
      rw [hcancel]
      ring
    · have h1 : valphi phi hash1 k = valphi phi s.hash_reduced k :=
        valphi_congr phi (by rw [hremk.2]; exact hashLookup_remove_ne hkk)
      have h2 : valphi phi row_reduced1 k =
          valphi phi (reconstruct matrix min_to_reduce ix (ro.maj_hash index)) k :=
        valphi_congr phi (by rw [hdomk.2]; exact hashLookup_remove_ne hkk)
      rw [h1, h2, heq]

/-- Stale pop: the state invariant is preserved and the measure drops. -/
lemma step_stale_post {matrix : SmOracle MajKey MinKey SnzVal} {phi : SnzVal → Q}
    (min_to_reduce : MinKey → Bool) (ro : CSM SnzVal) (ix : Indexing MinKey MajKey)
    (majkey : MajKey) (s : InnerState MinKey SnzVal) {minkey : MinKey}
    {heap1 : List MinKey}
    (hpop : heapPop s.heap_reduced = some (minkey, heap1))
    (hrem : hashRemoveGet s.hash_reduced minkey = none)
    (hSt : StateInv phi matrix min_to_reduce ro ix majkey s) :
    StateInv phi matrix min_to_reduce ro ix majkey { s with heap_reduced := heap1 } ∧
      phiMeasure matrix min_to_reduce ro ix { s with heap_reduced := heap1 } <
        phiMeasure matrix min_to_reduce ro ix s := by
  obtain ⟨hnodred, hnodro, hkeys, hcov, hval⟩ := hSt
  have hln := hashRemoveGet_none hrem
  constructor
  · refine ⟨hnodred, hnodro, hkeys, ?_, hval⟩
    intro k hk
    refine heapPop_mem_rest hpop (hcov k hk) ?_
    intro he
    rw [he, hln] at hk
    simp at hk
  · exact phiMeasure_drop matrix min_to_reduce ro ix s hpop s.hash_reduced
      (fun g h => h) _ _

/-- Dropped leading entry (zero value, missing dominator, or non-invertible
dominator): the state invariant is preserved and the measure drops. -/
lemma step_drop_post {matrix : SmOracle MajKey MinKey SnzVal} {phi : SnzVal → Q}
    (min_to_reduce : MinKey → Bool) (ro : CSM SnzVal) (ix : Indexing MinKey MajKey)
    (majkey : MajKey) (s : InnerState MinKey SnzVal) {minkey : MinKey}
    {heap1 : List MinKey} {leading_entry : SnzVal} {hash1 : Hash MinKey SnzVal}
    (hpop : heapPop s.heap_reduced = some (minkey, heap1))
    (hrem : hashRemoveGet s.hash_reduced minkey = some (leading_entry, hash1))
    (hcase : phi leading_entry = 0 ∨ BadKey matrix min_to_reduce ro ix minkey)
    (hSt : StateInv phi matrix min_to_reduce ro ix majkey s) :
    StateInv phi matrix min_to_reduce ro ix majkey
      { s with heap_reduced := heap1, hash_reduced := hash1 } ∧
      phiMeasure matrix min_to_reduce ro ix
        { s with heap_reduced := heap1, hash_reduced := hash1 } <
        phiMeasure matrix min_to_reduce ro ix s := by
  obtain ⟨hnodred, hnodro, hkeys, hcov, hval⟩ := hSt
  have hremk := hashRemoveGet_some hrem
  have hsub : ∀ g, (hashLookup hash1 g).isSome = true →
      (hashLookup s.hash_reduced g).isSome = true := by
    intro g hg
    rw [hremk.2] at hg
    exact remove_isSome_sub hnodred minkey g hg
  constructor
  · refine ⟨?_, hnodro, hkeys, ?_, ?_⟩
    · show hashNodup hash1
      rw [hremk.2]
      exact hashNodup_remove hnodred minkey
    · intro k hk
      have hk2 : (hashLookup hash1 k).isSome = true := hk
      refine heapPop_mem_rest hpop (hcov k (hsub k hk2)) ?_
      intro he
      rw [hremk.2, he, hashLookup_remove_self hnodred minkey] at hk2
      simp at hk2
    · exact innerval_drop min_to_reduce ro ix majkey s hrem hnodred hval hcase heap1
  · exact phiMeasure_drop matrix min_to_reduce ro ix s hpop hash1 hsub _ _

/-- Successful elimination: the state invariant is preserved and the measure
drops. -/
lemma step_elim_post {matrix : SmOracle MajKey MinKey SnzVal} {phi : SnzVal → Q}
    (hlaws : RingLaws matrix.ring phi) (min_to_reduce : MinKey → Bool)
    (ro : CSM SnzVal) (ix : Indexing MinKey MajKey) (majkey : MajKey)
    (s : InnerState MinKey SnzVal) {minkey : MinKey} {heap1 : List MinKey}
    {leading_entry dominator inv : SnzVal} {hash1 row_reduced1 : Hash MinKey SnzVal}
    {index : Nat}
    (hpop : heapPop s.heap_reduced = some (minkey, heap1))
    (hrem : hashRemoveGet s.hash_reduced minkey = some (leading_entry, hash1))
    (hidx : hashLookup ix.minkey_2_index minkey = some index)
    (hdom : hashRemoveGet
      (reconstruct matrix min_to_reduce ix (ro.maj_hash index)) minkey =
      some (dominator, row_reduced1))
    (hinv : matrix.ring.inverse dominator = some inv)
    (hInv : Inv min_to_reduce matrix.ring.identity_multiplicative ro ix)
    (hGood : GoodInv matrix min_to_reduce ro ix) (hRows : RowsNodup ro)
    (hSt : StateInv phi matrix min_to_reduce ro ix majkey s) :
    StateInv phi matrix min_to_reduce ro ix majkey
      { heap_reduced := (update_heap_hash matrix.ring heap1 hash1 row_reduced1
          (matrix.ring.simplify (matrix.ring.mul (matrix.ring.neg leading_entry)
            inv))).1,
        hash_reduced := (update_heap_hash matrix.ring heap1 hash1 row_reduced1
          (matrix.ring.simplify (matrix.ring.mul (matrix.ring.neg leading_entry)
            inv))).2.1,
        heap_rowoper := (update_heap_hash matrix.ring s.heap_rowoper s.hash_rowoper
          (ro.maj_hash index) (matrix.ring.simplify (matrix.ring.mul
            (matrix.ring.neg leading_entry) inv))).1,
        hash_rowoper := (update_heap_hash matrix.ring s.heap_rowoper s.hash_rowoper
          (ro.maj_hash index) (matrix.ring.simplify (matrix.ring.mul
            (matrix.ring.neg leading_entry) inv))).2.1 } ∧
      phiMeasure matrix min_to_reduce ro ix
        { heap_reduced := (update_heap_hash matrix.ring heap1 hash1 row_reduced1
            (matrix.ring.simplify (matrix.ring.mul (matrix.ring.neg leading_entry)
              inv))).1,
          hash_reduced := (update_heap_hash matrix.ring heap1 hash1 row_reduced1
            (matrix.ring.simplify (matrix.ring.mul (matrix.ring.neg leading_entry)
              inv))).2.1,
          heap_rowoper := (update_heap_hash matrix.ring s.heap_rowoper s.hash_rowoper
            (ro.maj_hash index) (matrix.ring.simplify (matrix.ring.mul
              (matrix.ring.neg leading_entry) inv))).1,
          hash_rowoper := (update_heap_hash matrix.ring s.heap_rowoper s.hash_rowoper
            (ro.maj_hash index) (matrix.ring.simplify (matrix.ring.mul
              (matrix.ring.neg leading_entry) inv))).2.1 } <
        phiMeasure matrix min_to_reduce ro ix s := by
  obtain ⟨hnodred, hnodro, hkeys, hcov, hval⟩ := hSt
  have hremk := hashRemoveGet_some hrem
  have hidxlt : index < ro.nummaj := (hInv.2.2.2.2.1 minkey index hidx).1
  have hrownod : hashNodup (ro.maj_hash index) := hRows index hidxlt
  have hrowkeys : ∀ p ∈ ro.maj_hash index, p.1 < ro.nummaj := by
    intro p hp
    have := Triangular_keys_le hInv.2.1 index hidxlt p hp
    omega
  have hnodh1 : hashNodup hash1 := by
    rw [hremk.2]
    exact hashNodup_remove hnodred _
  have hcov1 : ∀ k, (hashLookup hash1 k).isSome = true → k ∈ heap1 := by
    intro k hk
    rw [hremk.2] at hk
    refine heapPop_mem_rest hpop
      (hcov k (remove_isSome_sub hnodred minkey k hk)) ?_
    intro he
    rw [he, hashLookup_remove_self hnodred minkey] at hk
    simp at hk
  constructor
  · refine ⟨?_, ?_, ?_, ?_, ?_⟩
    · show hashNodup (update_heap_hash matrix.ring heap1 hash1 row_reduced1 _).2.1
      rw [update_hash_eq_add_assign]
      exact add_assign_nodup matrix.ring _ _ _ hnodh1
    · show hashNodup (update_heap_hash matrix.ring s.heap_rowoper s.hash_rowoper
        (ro.maj_hash index) _).2.1
      rw [update_hash_eq_add_assign]
      exact add_assign_nodup matrix.ring _ _ _ hnodro
    · intro p hp
      have hp2 : p ∈ (update_heap_hash matrix.ring s.heap_rowoper s.hash_rowoper
          (ro.maj_hash index) (matrix.ring.simplify (matrix.ring.mul
            (matrix.ring.neg leading_entry) inv))).2.1 := hp
      rcases update_heap_hash_mem_keys matrix.ring _ _ _ _ p hp2 with h1 | h1
      · obtain ⟨w, hw⟩ := mem_keys_exists h1
        exact hkeys (p.1, w) hw
      · obtain ⟨w, hw⟩ := mem_keys_exists h1
        exact hrowkeys (p.1, w) hw
    · intro k hk
      exact update_heap_hash_cover matrix.ring row_reduced1 heap1 hash1 _ hcov1 k hk
    · show InnerVal phi matrix min_to_reduce ro ix majkey _
      simp only [update_hash_eq_add_assign]
      exact innerval_elim hlaws min_to_reduce ro ix majkey s hrem hidx hdom hinv
        hnodred hnodro hrownod hrowkeys hval _ _
  · exact phiMeasure_elim matrix min_to_reduce ro ix s _ hpop hrem hidx hdom
      (by rw [hinv]; rfl) hnodred hInv hGood _ _

end TermInner

section TermPivot

variable {MajKey MinKey SnzVal Q : Type} [LinearOrder MinKey] [DecidableEq MajKey]
  [Inhabited MajKey] [CommRing Q]

/-- Reconstruction only reads the backward major-key sequence. -/
lemma reconstruct_congr (matrix : SmOracle MajKey MinKey SnzVal)
    (min_to_reduce : MinKey → Bool) (ix1 ix2 : Indexing MinKey MajKey)
    (rro : Hash Nat SnzVal)
    (h : ∀ p ∈ rro, ix1.index_2_majkey.getD p.1 default =
      ix2.index_2_majkey.getD p.1 default) :
    reconstruct matrix min_to_reduce ix1 rro =
      reconstruct matrix min_to_reduce ix2 rro := by
  have main : ∀ (l : Hash Nat SnzVal) (acc : Hash MinKey SnzVal),
      (∀ p ∈ l, ix1.index_2_majkey.getD p.1 default =
        ix2.index_2_majkey.getD p.1 default) →
      l.foldl (fun row_reduced p =>
        (add_assign_hash matrix.ring row_reduced
          (restrictRow matrix min_to_reduce (ix1.index_2_majkey.getD p.1 default))
          p.2).1) acc =
      l.foldl (fun row_reduced p =>
        (add_assign_hash matrix.ring row_reduced
          (restrictRow matrix min_to_reduce (ix2.index_2_majkey.getD p.1 default))
          p.2).1) acc := by
    intro l
    induction l with
    | nil => intro acc h2; rfl
    | cons q t ih =>
      intro acc h2
      simp only [List.foldl_cons]
      rw [h2 q (List.mem_cons_self _ _)]
      exact ih _ (fun p hp => h2 p (List.mem_cons_of_mem _ hp))
  rw [reconstruct, reconstruct]
  exact main rro [] h

/-- Committing a pivot leaves the stored rows below the new index
untouched. -/
lemma maj_hash_pivot_lt (ro : CSM SnzVal) (one : SnzVal) (hh : Hash Nat SnzVal)
    {i : Nat} (hi : i < ro.nummaj) :
    ((ro.push_snzval ro.nummaj one).append_maj hh).maj_hash i = ro.maj_hash i := by
  simp only [CSM.maj_hash, CSM.append_maj, CSM.push_snzval]
  exact List.getD_append _ _ _ _ hi

/-- The freshly committed row is the self-entry followed by the drained
row-operation accumulator. -/
lemma maj_hash_pivot_self (ro : CSM SnzVal) (one : SnzVal) (hh : Hash Nat SnzVal)
    (hpend : ro.pending = []) :
    ((ro.push_snzval ro.nummaj one).append_maj hh).maj_hash ro.nummaj =
      (ro.nummaj, one) :: hh := by
  show ((ro.push_snzval ro.nummaj one).append_maj hh).rows.getD ro.nummaj [] = _
  rw [rows_pivot ro one hh hpend,
    List.getD_append_right _ _ _ _ (show ro.rows.length ≤ ro.nummaj from le_of_eq rfl)]
  have h0 : ro.nummaj - ro.rows.length = 0 := Nat.sub_self _
  rw [h0]
  rfl

/-- Reconstructions of previously committed pivots are unchanged by a new
pivot. -/
lemma reconOf_pivot_lt {matrix : SmOracle MajKey MinKey SnzVal}
    (min_to_reduce : MinKey → Bool) {ro : CSM SnzVal} {ix : Indexing MinKey MajKey}
    (majkey : MajKey) (minkey : MinKey) (hh : Hash Nat SnzVal)
    (hInv : Inv min_to_reduce matrix.ring.identity_multiplicative ro ix)
    {i : Nat} (hi : i < ro.nummaj) :
    reconOf matrix min_to_reduce
      ((ro.push_snzval ro.nummaj matrix.ring.identity_multiplicative).append_maj hh)
      { ix with
        minkey_2_index := hashInsert ix.minkey_2_index minkey ro.nummaj
        majkey_2_index := hashInsert ix.majkey_2_index majkey ro.nummaj
        index_2_majkey := ix.index_2_majkey ++ [majkey]
        index_2_minkey := ix.index_2_minkey ++ [minkey] } i =
    reconOf matrix min_to_reduce ro ix i := by
  show reconstruct matrix min_to_reduce _
    (((ro.push_snzval ro.nummaj matrix.ring.identity_multiplicative).append_maj
      hh).maj_hash i) = reconstruct matrix min_to_reduce ix (ro.maj_hash i)
  rw [maj_hash_pivot_lt ro _ hh hi]
  refine reconstruct_congr matrix min_to_reduce _ ix (ro.maj_hash i) ?_
  intro p hp
  have hple : p.1 ≤ i := Triangular_keys_le hInv.2.1 i hi p hp
  show (ix.index_2_majkey ++ [majkey]).getD p.1 default =
    ix.index_2_majkey.getD p.1 default
  refine List.getD_append _ _ _ _ ?_
  rw [hInv.2.2.2.1]
  omega

/-- Bad pivot keys stay bad after a new pivot is committed. -/
lemma badKey_pivot_stable {matrix : SmOracle MajKey MinKey SnzVal}
    (min_to_reduce : MinKey → Bool) {ro : CSM SnzVal} {ix : Indexing MinKey MajKey}
    (majkey : MajKey) (minkey : MinKey) (hh : Hash Nat SnzVal)
    (hInv : Inv min_to_reduce matrix.ring.identity_multiplicative ro ix)
    (hnone : hashLookup ix.minkey_2_index minkey = none)
    {k : MinKey} (hbad : BadKey matrix min_to_reduce ro ix k) :
    BadKey matrix min_to_reduce
      ((ro.push_snzval ro.nummaj matrix.ring.identity_multiplicative).append_maj hh)
      { ix with
        minkey_2_index := hashInsert ix.minkey_2_index minkey ro.nummaj
        majkey_2_index := hashInsert ix.majkey_2_index majkey ro.nummaj
        index_2_majkey := ix.index_2_majkey ++ [majkey]
        index_2_minkey := ix.index_2_minkey ++ [minkey] } k := by
  obtain ⟨hb1, hb2⟩ := hbad
  have hkne : k ≠ minkey := by
    intro he
    rw [he, hnone] at hb1
    simp at hb1
  have hlk' : hashLookup (hashInsert ix.minkey_2_index minkey ro.nummaj) k =
      hashLookup ix.minkey_2_index k := hashLookup_insert_ne _ hkne
  cases hlk : hashLookup ix.minkey_2_index k with
  | none =>
    rw [hlk] at hb1
    simp at hb1
  | some i0 =>
    have hi0 : i0 < ro.nummaj := (hInv.2.2.2.2.1 k i0 hlk).1
    have hrec := reconOf_pivot_lt min_to_reduce majkey minkey hh hInv hi0
    refine ⟨?_, ?_⟩
    · show (hashLookup (hashInsert ix.minkey_2_index minkey ro.nummaj) k).isSome = true
      rw [hlk', hlk]
      rfl
    · show goodKey matrix min_to_reduce _ _ k = false
      simp only [goodKey, hlk', hlk, hrec]
      simp only [goodKey, hlk] at hb2
      exact hb2

lemma goodInv_empty (matrix : SmOracle MajKey MinKey SnzVal)
    (min_to_reduce : MinKey → Bool) :
    GoodInv matrix min_to_reduce CSM.with_capacity Indexing.with_capacity := by
  intro i hi
  exact absurd hi (Nat.not_lt_zero i)

lemma rowsNodup_empty : RowsNodup (CSM.with_capacity : CSM SnzVal) := by
  intro i hi
  exact absurd hi (Nat.not_lt_zero i)

/-- At a pivot break the history invariant is re-established for the
extended output, and the new row is duplicate-free: every key below the new
pivot's minor key surviving in the new row's reconstruction would have a
nonzero accumulator value, which the heap minimality of the popped key
forbids unless the key is bad. -/
lemma pivot_post {matrix : SmOracle MajKey MinKey SnzVal} {phi : SnzVal → Q}
    (hlaws : RingLaws matrix.ring phi) (min_to_reduce : MinKey → Bool)
    (ro : CSM SnzVal) (ix : Indexing MinKey MajKey) (majkey : MajKey)
    (s : InnerState MinKey SnzVal) {minkey : MinKey} {heap1 : List MinKey}
    {leading_entry : SnzVal} {hash1 : Hash MinKey SnzVal}
    (hpop : heapPop s.heap_reduced = some (minkey, heap1))
    (hrem : hashRemoveGet s.hash_reduced minkey = some (leading_entry, hash1))
    (hidx : hashLookup ix.minkey_2_index minkey = none)
    (hInv : Inv min_to_reduce matrix.ring.identity_multiplicative ro ix)
    (hGood : GoodInv matrix min_to_reduce ro ix) (hRows : RowsNodup ro)
    (hSt : StateInv phi matrix min_to_reduce ro ix majkey s) :
    GoodInv matrix min_to_reduce
      ((ro.push_snzval ro.nummaj matrix.ring.identity_multiplicative).append_maj
        s.hash_rowoper)
      { ix with
        minkey_2_index := hashInsert ix.minkey_2_index minkey ro.nummaj
        majkey_2_index := hashInsert ix.majkey_2_index majkey ro.nummaj
        index_2_majkey := ix.index_2_majkey ++ [majkey]
        index_2_minkey := ix.index_2_minkey ++ [minkey] } ∧
    RowsNodup
      ((ro.push_snzval ro.nummaj matrix.ring.identity_multiplicative).append_maj
        s.hash_rowoper) := by
  obtain ⟨hnodred, hnodro, hkeys, hcov, hval⟩ := hSt
  have hnum := nummaj_pivot ro matrix.ring.identity_multiplicative s.hash_rowoper
  have hlenmin : ix.index_2_minkey.length = ro.nummaj := hInv.2.2.1
  have hlenmaj : ix.index_2_majkey.length = ro.nummaj := hInv.2.2.2.1
  have hnotmemhh : ro.nummaj ∉ s.hash_rowoper.map Prod.fst := by
    intro hmm
    obtain ⟨w, hw⟩ := mem_keys_exists hmm
    have := hkeys (ro.nummaj, w) hw
    omega
  have hrows := rows_pivot ro matrix.ring.identity_multiplicative s.hash_rowoper hInv.1
  have hrowsN : RowsNodup
      ((ro.push_snzval ro.nummaj matrix.ring.identity_multiplicative).append_maj
        s.hash_rowoper) := by
    intro i hi
    rw [hnum] at hi
    rcases Nat.lt_or_ge i ro.nummaj with hlt | hge
    · have heqr : ((ro.push_snzval ro.nummaj
          matrix.ring.identity_multiplicative).append_maj
          s.hash_rowoper).rows.getD i [] = ro.rows.getD i [] := by
        rw [hrows]
        exact List.getD_append _ _ _ _ hlt
      rw [heqr]
      exact hRows i hlt
    · have hieq : i = ro.nummaj := by omega
      subst hieq
      have heqr : ((ro.push_snzval ro.nummaj
          matrix.ring.identity_multiplicative).append_maj
          s.hash_rowoper).rows.getD ro.nummaj [] =
          (ro.nummaj, matrix.ring.identity_multiplicative) :: s.hash_rowoper :=
        maj_hash_pivot_self ro matrix.ring.identity_multiplicative s.hash_rowoper
          hInv.1
      rw [heqr, hashNodup_cons]
      exact ⟨hnotmemhh, hnodro⟩
  refine ⟨?_, hrowsN⟩
  intro i hi mk k hmk hklt hsur
  rw [hnum] at hi
  rcases Nat.lt_or_ge i ro.nummaj with hlt | hge
  · have hmk2 : ix.index_2_minkey[i]? = some mk := by
      have h1 : (ix.index_2_minkey ++ [minkey])[i]? = some mk := hmk
      rwa [List.getElem?_append_left (by rw [hlenmin]; exact hlt)] at h1
    have hrec := reconOf_pivot_lt min_to_reduce majkey minkey s.hash_rowoper hInv hlt
    rw [hrec] at hsur
    exact badKey_pivot_stable min_to_reduce majkey minkey s.hash_rowoper hInv hidx
      (hGood i hlt mk k hmk2 hklt hsur)
  · have hieq : i = ro.nummaj := by omega
    subst hieq
    have hmk2 : mk = minkey := by
      have h1 : (ix.index_2_minkey ++ [minkey])[ro.nummaj]? = some mk := hmk
      rw [List.getElem?_append_right (le_of_eq hlenmin)] at h1
      have h0 : ro.nummaj - ix.index_2_minkey.length = 0 := by omega
      rw [h0] at h1
      have h2 : some minkey = some mk := h1
      injection h2 with h3
      exact h3.symm
    subst hmk2
    have hnodcons : hashNodup ((ro.nummaj, matrix.ring.identity_multiplicative) ::
        s.hash_rowoper) := by
      rw [hashNodup_cons]
      exact ⟨hnotmemhh, hnodro⟩
    have hkeyscons : ∀ p ∈ (ro.nummaj, matrix.ring.identity_multiplicative) ::
        s.hash_rowoper, p.1 < ro.nummaj + 1 := by
      intro p hp
      rcases List.mem_cons.1 hp with h1 | h1
      · rw [h1]
        exact Nat.lt_succ_self _
      · have := hkeys p h1
        omega
    have hrecn : reconOf matrix min_to_reduce
        ((ro.push_snzval ro.nummaj matrix.ring.identity_multiplicative).append_maj
          s.hash_rowoper)
        { ix with
          minkey_2_index := hashInsert ix.minkey_2_index mk ro.nummaj
          majkey_2_index := hashInsert ix.majkey_2_index majkey ro.nummaj
          index_2_majkey := ix.index_2_majkey ++ [majkey]
          index_2_minkey := ix.index_2_minkey ++ [mk] } ro.nummaj =
        reconstruct matrix min_to_reduce
        { ix with
          minkey_2_index := hashInsert ix.minkey_2_index mk ro.nummaj
          majkey_2_index := hashInsert ix.majkey_2_index majkey ro.nummaj
          index_2_majkey := ix.index_2_majkey ++ [majkey]
          index_2_minkey := ix.index_2_minkey ++ [mk] }
        ((ro.nummaj, matrix.ring.identity_multiplicative) :: s.hash_rowoper) := by
      show reconstruct matrix min_to_reduce _
        (((ro.push_snzval ro.nummaj matrix.ring.identity_multiplicative).append_maj
          s.hash_rowoper).maj_hash ro.nummaj) = _
      rw [maj_hash_pivot_self ro matrix.ring.identity_multiplicative
        s.hash_rowoper hInv.1]
    have hgetDn : (ix.index_2_majkey ++ [majkey]).getD ro.nummaj default = majkey := by
      rw [List.getD_append_right _ _ _ _ (le_of_eq hlenmaj)]
      have h0 : ro.nummaj - ix.index_2_majkey.length = 0 := by omega
      rw [h0]
      rfl
    have hgetDj : ∀ j, j < ro.nummaj →
        (ix.index_2_majkey ++ [majkey]).getD j default =
          ix.index_2_majkey.getD j default := by
      intro j hj
      refine List.getD_append _ _ _ _ ?_
      rw [hlenmaj]
      exact hj
    have hVal : valphi phi (reconOf matrix min_to_reduce
        ((ro.push_snzval ro.nummaj matrix.ring.identity_multiplicative).append_maj
          s.hash_rowoper)
        { ix with
          minkey_2_index := hashInsert ix.minkey_2_index mk ro.nummaj
          majkey_2_index := hashInsert ix.majkey_2_index majkey ro.nummaj
          index_2_majkey := ix.index_2_majkey ++ [majkey]
          index_2_minkey := ix.index_2_minkey ++ [mk] } ro.nummaj) k =
        Vcomb phi matrix min_to_reduce ix majkey ro.nummaj s.hash_rowoper k := by
      rw [hrecn, valphi_reconstruct_range hlaws min_to_reduce _ _ (ro.nummaj + 1) k
        hnodcons hkeyscons, Finset.range_succ,
        Finset.sum_insert Finset.not_mem_range_self]
      simp only [Vcomb, Rrow]
      congr 1
      · rw [valphi_cons_self, hlaws.map_one, one_mul, hgetDn]
      · refine Finset.sum_congr rfl (fun j hj => ?_)
        have hjlt : j < ro.nummaj := Finset.mem_range.1 hj
        rw [valphi_cons_ne phi (show ro.nummaj ≠ j by omega)
          matrix.ring.identity_multiplicative s.hash_rowoper, hgetDj j hjlt]
    rcases hval k with hbad | heq
    · exact badKey_pivot_stable min_to_reduce majkey mk s.hash_rowoper hInv hidx hbad
    · exfalso
      have hvnz : valphi phi (reconOf matrix min_to_reduce
          ((ro.push_snzval ro.nummaj matrix.ring.identity_multiplicative).append_maj
            s.hash_rowoper)
          { ix with
            minkey_2_index := hashInsert ix.minkey_2_index mk ro.nummaj
            majkey_2_index := hashInsert ix.majkey_2_index majkey ro.nummaj
            index_2_majkey := ix.index_2_majkey ++ [majkey]
            index_2_minkey := ix.index_2_minkey ++ [mk] } ro.nummaj) k ≠ 0 := by
        cases hlkk : hashLookup (reconOf matrix min_to_reduce
            ((ro.push_snzval ro.nummaj matrix.ring.identity_multiplicative).append_maj
              s.hash_rowoper)
            { ix with
              minkey_2_index := hashInsert ix.minkey_2_index mk ro.nummaj
              majkey_2_index := hashInsert ix.majkey_2_index majkey ro.nummaj
              index_2_majkey := ix.index_2_majkey ++ [majkey]
              index_2_minkey := ix.index_2_minkey ++ [mk] } ro.nummaj) k with
        | none =>
          rw [hlkk] at hsur
          simp at hsur
        | some v =>
          rw [valphi_some phi hlkk]
          have hmem := hashLookup_mem hlkk
          have hnz : matrix.ring.is_0 v = false :=
            reconstruct_values_nz matrix min_to_reduce _ _ (k, v) hmem
          intro h0
          have h1 := (hlaws.is0_iff v).2 h0
          rw [h1] at hnz
          simp at hnz
      have hV : Vcomb phi matrix min_to_reduce ix majkey ro.nummaj
          s.hash_rowoper k ≠ 0 := by
        rw [← hVal]
        exact hvnz
      have hne0 : valphi phi s.hash_reduced k ≠ 0 := by
        rw [heq]
        exact hV
      have hlks : (hashLookup s.hash_reduced k).isSome = true := by
        cases hc : hashLookup s.hash_reduced k with
        | none => exact absurd (valphi_none phi hc) hne0
        | some v => rfl
      have hminle : mk ≤ k :=
        (heapPop_perm s.heap_reduced hpop).2 k (hcov k hlks)
      exact absurd hklt (not_lt.2 hminle)

end TermPivot

section TermLoop

variable {MajKey MinKey SnzVal Q : Type} [LinearOrder MinKey] [DecidableEq MajKey]
  [Inhabited MajKey] [CommRing Q]

lemma loadRow_cover (matrix : SmOracle MajKey MinKey SnzVal)
    (min_to_reduce : MinKey → Bool) (majkey : MajKey) :
    ∀ k, (hashLookup (loadRow matrix min_to_reduce majkey).2 k).isSome = true →
      k ∈ (loadRow matrix min_to_reduce majkey).1 := by
  have main : ∀ (l : List (MinKey × SnzVal)) (acc : List MinKey × Hash MinKey SnzVal),
      (∀ k, (hashLookup acc.2 k).isSome = true → k ∈ acc.1) →
      ∀ k, (hashLookup (l.foldl (fun hh kv =>
        if min_to_reduce kv.1 then (kv.1 :: hh.1, hashInsert hh.2 kv.1 kv.2) else hh)
        acc).2 k).isSome = true →
      k ∈ (l.foldl (fun hh kv =>
        if min_to_reduce kv.1 then (kv.1 :: hh.1, hashInsert hh.2 kv.1 kv.2) else hh)
        acc).1 := by
    intro l
    induction l with
    | nil => intro acc hacc k hk; exact hacc k hk
    | cons kv t ih =>
      intro acc hacc k hk2
      simp only [List.foldl_cons] at hk2 ⊢
      by_cases hm : min_to_reduce kv.1 = true
      · rw [if_pos hm] at hk2 ⊢
        refine ih _ ?_ k hk2
        intro k2 hk3
        by_cases hkk : k2 = kv.1
        · rw [hkk]
          exact List.mem_cons_self _ _
        · have hk4 : (hashLookup (hashInsert acc.2 kv.1 kv.2) k2).isSome = true := hk3
          rw [hashLookup_insert_ne _ hkk] at hk4
          exact List.mem_cons_of_mem _ (hacc k2 hk4)
      · rw [if_neg hm] at hk2 ⊢
        exact ih acc hacc k hk2
  intro k hk
  exact main _ ([], []) (fun k2 hk2 => by simp [hashLookup] at hk2) k hk

lemma loadRow_nodup (matrix : SmOracle MajKey MinKey SnzVal)
    (min_to_reduce : MinKey → Bool) (majkey : MajKey) :
    hashNodup (loadRow matrix min_to_reduce majkey).2 := by
  rw [loadRow_hash]
  exact restrictRow_nodup matrix min_to_reduce majkey

/-- The cleared working state with the freshly loaded row satisfies the
inner-loop run invariant (the assembled combination is just the restricted
row). -/
lemma initState_stateinv {matrix : SmOracle MajKey MinKey SnzVal} (phi : SnzVal → Q)
    (min_to_reduce : MinKey → Bool) (ro : CSM SnzVal) (ix : Indexing MinKey MajKey)
    (majkey : MajKey) :
    StateInv phi matrix min_to_reduce ro ix majkey
      (initState matrix min_to_reduce majkey) := by
  refine ⟨?_, ?_, ?_, ?_, ?_⟩
  · exact loadRow_nodup matrix min_to_reduce majkey
  · show hashNodup ([] : Hash Nat SnzVal)
    simp [hashNodup]
  · intro p hp
    exact absurd hp (List.not_mem_nil p)
  · intro k hk
    exact loadRow_cover matrix min_to_reduce majkey k hk
  · intro k
    right
    show valphi phi (loadRow matrix min_to_reduce majkey).2 k =
      Vcomb phi matrix min_to_reduce ix majkey ro.nummaj [] k
    rw [loadRow_hash]
    simp only [Vcomb]
    have hz : (Finset.range ro.nummaj).sum (fun j =>
        valphi phi ([] : Hash Nat SnzVal) j *
        valphi phi (Rrow matrix min_to_reduce ix j) k) = 0 := by
      refine Finset.sum_eq_zero (fun j hj => ?_)
      rw [valphi_nil]
      ring
    rw [hz, add_zero]

/-- With fuel at least the termination potential, the inner loop completes,
and its result keeps the triangularity, history and duplicate-freeness
invariants. -/
lemma inner_loop_term {matrix : SmOracle MajKey MinKey SnzVal} {phi : SnzVal → Q}
    (hlaws : RingLaws matrix.ring phi) (min_to_reduce : MinKey → Bool)
    (majkey : MajKey) :
    ∀ (fb : Nat) (ro : CSM SnzVal) (ix : Indexing MinKey MajKey)
      (s : InnerState MinKey SnzVal),
      Inv min_to_reduce matrix.ring.identity_multiplicative ro ix →
      GoodInv matrix min_to_reduce ro ix → RowsNodup ro →
      StateInv phi matrix min_to_reduce ro ix majkey s →
      (∀ k, (hashLookup s.hash_reduced k).isSome → min_to_reduce k = true) →
      phiMeasure matrix min_to_reduce ro ix s ≤ fb →
      ∃ ro1 ix1, inner_loop matrix min_to_reduce majkey fb ro ix s = some (ro1, ix1) ∧
        Inv min_to_reduce matrix.ring.identity_multiplicative ro1 ix1 ∧
        GoodInv matrix min_to_reduce ro1 ix1 ∧ RowsNodup ro1 := by
  intro fb
  induction fb with
  | zero =>
    intro ro ix s hInv hGood hRows hSt hact hm
    have hheap : s.heap_reduced = [] := by
      have h2 : s.heap_reduced.length = 0 := by
        have h3 := hm
        simp only [phiMeasure] at h3
        omega
      exact List.length_eq_zero.1 h2
    have hpop : heapPop s.heap_reduced = none := by
      rw [hheap]
      rfl
    refine ⟨ro, ix, ?_, hInv, hGood, hRows⟩
    exact inner_loop_done matrix min_to_reduce majkey 0 ro ix s
      (inner_step_empty matrix min_to_reduce majkey ro ix s hpop)
  | succ fb ih =>
    intro ro ix s hInv hGood hRows hSt hact hm
    cases hpop : heapPop s.heap_reduced with
    | none =>
      refine ⟨ro, ix, ?_, hInv, hGood, hRows⟩
      exact inner_loop_done matrix min_to_reduce majkey (fb + 1) ro ix s
        (inner_step_empty matrix min_to_reduce majkey ro ix s hpop)
    | some pr =>
      obtain ⟨minkey, heap1⟩ := pr
      have hidxb : ∀ mk i, hashLookup ix.minkey_2_index mk = some i →
          i < ro.nummaj := fun mk i h => (hInv.2.2.2.2.1 mk i h).1
      have hrowle := Triangular_keys_le hInv.2.1
      cases hrem : hashRemoveGet s.hash_reduced minkey with
      | none =>
        have hstep := inner_step_stale matrix min_to_reduce majkey ro ix s hpop hrem
        obtain ⟨hSt2, hdec⟩ := step_stale_post min_to_reduce ro ix majkey s hpop
          hrem hSt
        have hact2 := (inner_step_inl_cases matrix min_to_reduce majkey ro ix s hstep
          hact hSt.2.2.1 hidxb hrowle).1
        rw [inner_loop_cont matrix min_to_reduce majkey fb ro ix s hstep]
        exact ih ro ix _ hInv hGood hRows hSt2 hact2 (by omega)
      | some pr2 =>
        obtain ⟨leading_entry, hash1⟩ := pr2
        cases hz : matrix.ring.is_0 leading_entry with
        | true =>
          have hstep := inner_step_zero matrix min_to_reduce majkey ro ix s hpop
            hrem hz
          obtain ⟨hSt2, hdec⟩ := step_drop_post min_to_reduce ro ix majkey s hpop hrem
            (Or.inl ((hlaws.is0_iff leading_entry).1 hz)) hSt
          have hact2 := (inner_step_inl_cases matrix min_to_reduce majkey ro ix s
            hstep hact hSt.2.2.1 hidxb hrowle).1
          rw [inner_loop_cont matrix min_to_reduce majkey fb ro ix s hstep]
          exact ih ro ix _ hInv hGood hRows hSt2 hact2 (by omega)
        | false =>
          cases hidx : hashLookup ix.minkey_2_index minkey with
          | some index =>
            cases hdom : hashRemoveGet
                (reconstruct matrix min_to_reduce ix (ro.maj_hash index)) minkey with
            | none =>
              have hstep := inner_step_nodominator matrix min_to_reduce majkey ro ix s
                hpop hrem hz hidx hdom
              obtain ⟨hSt2, hdec⟩ := step_drop_post min_to_reduce ro ix majkey s hpop
                hrem (Or.inr (badKey_nodominator min_to_reduce ro ix hidx hdom)) hSt
              have hact2 := (inner_step_inl_cases matrix min_to_reduce majkey ro ix s
                hstep hact hSt.2.2.1 hidxb hrowle).1
              rw [inner_loop_cont matrix min_to_reduce majkey fb ro ix s hstep]
              exact ih ro ix _ hInv hGood hRows hSt2 hact2 (by omega)
            | some pr3 =>
              obtain ⟨dominator, row_reduced1⟩ := pr3
              cases hinv : matrix.ring.inverse dominator with
              | none =>
                have hstep := inner_step_noninvertible matrix min_to_reduce majkey ro
                  ix s hpop hrem hz hidx hdom hinv
                obtain ⟨hSt2, hdec⟩ := step_drop_post min_to_reduce ro ix majkey s
                  hpop hrem
                  (Or.inr (badKey_noninvertible min_to_reduce ro ix hidx hdom hinv))
                  hSt
                have hact2 := (inner_step_inl_cases matrix min_to_reduce majkey ro ix
                  s hstep hact hSt.2.2.1 hidxb hrowle).1
                rw [inner_loop_cont matrix min_to_reduce majkey fb ro ix s hstep]
                exact ih ro ix _ hInv hGood hRows hSt2 hact2 (by omega)
              | some inv =>
                have hstep := inner_step_eliminate matrix min_to_reduce majkey ro ix s
                  hpop hrem hz hidx hdom hinv rfl
                obtain ⟨hSt2, hdec⟩ := step_elim_post hlaws min_to_reduce ro ix majkey
                  s hpop hrem hidx hdom hinv hInv hGood hRows hSt
                have hact2 := (inner_step_inl_cases matrix min_to_reduce majkey ro ix
                  s hstep hact hSt.2.2.1 hidxb hrowle).1
                rw [inner_loop_cont matrix min_to_reduce majkey fb ro ix s hstep]
                exact ih ro ix _ hInv hGood hRows hSt2 hact2 (by omega)
          | none =>
            have hstep := inner_step_pivot matrix min_to_reduce majkey ro ix s hpop
              hrem hz hidx
            obtain ⟨hGood2, hRows2⟩ := pivot_post hlaws min_to_reduce ro ix majkey s
              hpop hrem hidx hInv hGood hRows hSt
            have hmact : min_to_reduce minkey = true := by
              refine hact minkey ?_
              rw [(hashRemoveGet_some hrem).1]
              rfl
            have hInv2 := Inv_pivot min_to_reduce matrix.ring.identity_multiplicative
              ro ix minkey majkey s.hash_rowoper hInv hmact hidx hSt.2.2.1
            refine ⟨_, _, ?_, hInv2, hGood2, hRows2⟩
            exact inner_loop_done matrix min_to_reduce majkey (fb + 1) ro ix s hstep

/-- A completing inner run completes with the same result at any larger
fuel. -/
lemma inner_loop_mono (matrix : SmOracle MajKey MinKey SnzVal)
    (min_to_reduce : MinKey → Bool) (majkey : MajKey) :
    ∀ (f f' : Nat) (ro : CSM SnzVal) (ix : Indexing MinKey MajKey)
      (s : InnerState MinKey SnzVal) {r : CSM SnzVal × Indexing MinKey MajKey},
      f ≤ f' → inner_loop matrix min_to_reduce majkey f ro ix s = some r →
      inner_loop matrix min_to_reduce majkey f' ro ix s = some r := by
  intro f
  induction f with
  | zero =>
    intro f' ro ix s r hle hrun
    cases hstep : inner_step matrix min_to_reduce majkey ro ix s with
    | inl s2 =>
      rw [inner_loop_exhaust matrix min_to_reduce majkey ro ix s hstep] at hrun
      cases hrun
    | inr r2 =>
      rw [inner_loop_done matrix min_to_reduce majkey 0 ro ix s hstep] at hrun
      rw [inner_loop_done matrix min_to_reduce majkey f' ro ix s hstep]
      exact hrun
  | succ n ih =>
    intro f' ro ix s r hle hrun
    cases hstep : inner_step matrix min_to_reduce majkey ro ix s with
    | inr r2 =>
      rw [inner_loop_done matrix min_to_reduce majkey (n + 1) ro ix s hstep] at hrun
      rw [inner_loop_done matrix min_to_reduce majkey f' ro ix s hstep]
      exact hrun
    | inl s2 =>
      rw [inner_loop_cont matrix min_to_reduce majkey n ro ix s hstep] at hrun
      cases f' with
      | zero => omega
      | succ n' =>
        rw [inner_loop_cont matrix min_to_reduce majkey n' ro ix s hstep]
        exact ih n' ro ix s2 (by omega) hrun

/-- A completing outer run completes with the same result at any larger
fuel. -/
lemma outer_go_mono (matrix : SmOracle MajKey MinKey SnzVal)
    (min_to_reduce : MinKey → Bool) :
    ∀ (wl : List MajKey) (f f' : Nat) (ro : CSM SnzVal) (ix : Indexing MinKey MajKey)
      {r : CSM SnzVal × Indexing MinKey MajKey},
      f ≤ f' → outer_go f matrix min_to_reduce wl ro ix = some r →
      outer_go f' matrix min_to_reduce wl ro ix = some r := by
  intro wl
  induction wl with
  | nil =>
    intro f f' ro ix r hle hrun
    rw [outer_go_nil] at hrun
    rw [outer_go_nil]
    exact hrun
  | cons majkey rest ih =>
    intro f f' ro ix r hle hrun
    cases hil : inner_loop matrix min_to_reduce majkey f ro ix
        (initState matrix min_to_reduce majkey) with
    | none =>
      rw [outer_go_cons_none f matrix min_to_reduce majkey rest ro ix hil] at hrun
      cases hrun
    | some r1 =>
      obtain ⟨ro1, ix1⟩ := r1
      rw [outer_go_cons_some f matrix min_to_reduce majkey rest ro ix hil] at hrun
      rw [outer_go_cons_some f' matrix min_to_reduce majkey rest ro ix
        (inner_loop_mono matrix min_to_reduce majkey f f' ro ix _ hle hil)]
      exact ih f f' ro1 ix1 hle hrun

/-- There is a fuel at which the outer loop runs the whole worklist to
completion. -/
lemma outer_total {matrix : SmOracle MajKey MinKey SnzVal} {phi : SnzVal → Q}
    (hlaws : RingLaws matrix.ring phi) (min_to_reduce : MinKey → Bool) :
    ∀ (wl : List MajKey) (ro : CSM SnzVal) (ix : Indexing MinKey MajKey),
      Inv min_to_reduce matrix.ring.identity_multiplicative ro ix →
      GoodInv matrix min_to_reduce ro ix → RowsNodup ro →
      ∃ f r, outer_go f matrix min_to_reduce wl ro ix = some r := by
  intro wl
  induction wl with
  | nil =>
    intro ro ix hInv hGood hRows
    exact ⟨0, (ro, ix), outer_go_nil 0 matrix min_to_reduce ro ix⟩
  | cons majkey rest ih =>
    intro ro ix hInv hGood hRows
    obtain ⟨ro1, ix1, hil, hInv1, hGood1, hRows1⟩ :=
      inner_loop_term hlaws min_to_reduce majkey
        (phiMeasure matrix min_to_reduce ro ix (initState matrix min_to_reduce majkey))
        ro ix (initState matrix min_to_reduce majkey) hInv hGood hRows
        (initState_stateinv phi min_to_reduce ro ix majkey)
        (initState_hash_active matrix min_to_reduce majkey) (le_refl _)
    obtain ⟨f1, r, hrest⟩ := ih ro1 ix1 hInv1 hGood1 hRows1
    refine ⟨max (phiMeasure matrix min_to_reduce ro ix
      (initState matrix min_to_reduce majkey)) f1, r, ?_⟩
    rw [outer_go_cons_some _ matrix min_to_reduce majkey rest ro ix
      (inner_loop_mono matrix min_to_reduce majkey _ _ ro ix _ (le_max_left _ _) hil)]
    exact outer_go_mono matrix min_to_reduce rest f1 _ ro1 ix1 (le_max_right _ _) hrest

/-- Totality: whenever the coefficient ring admits an interpretation into a
commutative ring satisfying the ring-capability laws, the factorization
always returns for a sufficiently large inner fuel — for every oracle and
every worklist. -/
lemma decomp_total {matrix : SmOracle MajKey MinKey SnzVal} {phi : SnzVal → Q}
    (hlaws : RingLaws matrix.ring phi) (maj_to_reduce : List MajKey)
    (min_to_reduce : MinKey → Bool) :
    ∃ ifuel r,
      decomp_row_use_pairs ifuel matrix maj_to_reduce min_to_reduce = some r := by
  obtain ⟨f, r, hout⟩ := outer_total hlaws min_to_reduce maj_to_reduce.reverse
    CSM.with_capacity Indexing.with_capacity
    (Inv_empty min_to_reduce matrix.ring.identity_multiplicative)
    (goodInv_empty matrix min_to_reduce) rowsNodup_empty
  obtain ⟨ro2, ix2⟩ := r
  exact ⟨f, _, decomp_unfold_some f matrix maj_to_reduce min_to_reduce hout⟩

end TermLoop

section ZModLaws

lemma intCast_emod_zmod (n : Nat) (x : Int) :
    (((x % (n : Int)) : Int) : ZMod n) = (x : ZMod n) := by
  rw [Int.emod_def]
  push_cast
  rw [ZMod.natCast_self]
  ring

/-- The modulus ring of the spec realizes the ring-capability laws through
the canonical interpretation into `ZMod n`. -/
lemma modRing_laws (n : Nat) [NeZero n] :
    RingLaws (modRing (n : Int)) (fun v : Int => (v : ZMod n)) := by
  refine ⟨?_, ?_, ?_, ?_, ?_, ?_, ?_⟩
  · intro x y
    show ((x + y : Int) : ZMod n) = (x : ZMod n) + (y : ZMod n)
    push_cast
    ring
  · intro x
    show ((-x : Int) : ZMod n) = -(x : ZMod n)
    push_cast
    ring
  · intro x y
    show ((x * y : Int) : ZMod n) = (x : ZMod n) * (y : ZMod n)
    push_cast
    ring
  · show ((1 : Int) : ZMod n) = 1
    push_cast
    ring
  · intro x
    show ((x % (n : Int) == 0) = true) ↔ ((x : ZMod n) = 0)
    rw [beq_iff_eq]
    constructor
    · intro h
      rw [← intCast_emod_zmod n x, h]
      push_cast
      ring
    · intro h
      have hdvd : (n : Int) ∣ x := (ZMod.intCast_zmod_eq_zero_iff_dvd x n).1 h
      exact Int.emod_eq_zero_of_dvd hdvd
  · intro x
    exact intCast_emod_zmod n x
  · intro d v hfind
    show (v : ZMod n) * (d : ZMod n) = 1
    have hfind2 : ((List.range (n : Int).natAbs).map (fun u => (u : Int))).find?
        (fun u => (d * u) % (n : Int) == 1) = some v := hfind
    have hp := List.find?_some hfind2
    rw [beq_iff_eq] at hp
    have h1 : ((d * v : Int) : ZMod n) = ((1 : Int) : ZMod n) := by
      rw [← intCast_emod_zmod n (d * v), hp]
    push_cast at h1
    rw [mul_comm]
    exact h1

/-- The modulus-2 ring of the end-to-end oracle satisfies the capability
laws via `ZMod 2`. -/
lemma ringlaws22 : RingLaws oracle22.ring (fun v : Int => (v : ZMod 2)) := by
  have h := modRing_laws 2
  have h2 : ((2 : Nat) : Int) = (2 : Int) := by norm_num
  rw [h2] at h
  exact h

/-- The modulus-4 ring of the `2x` oracle satisfies the capability laws via
`ZMod 4`. -/
lemma ringlaws4 : RingLaws oracleTwoX.ring (fun v : Int => (v : ZMod 4)) := by
  have h := modRing_laws 4
  have h2 : ((4 : Nat) : Int) = (4 : Int) := by norm_num
  rw [h2] at h
  exact h

end ZModLaws

section TermClaims

/-- Claim C9: worklist consumption and termination.  First conjunct —
worklist discipline: the outer loop removes major keys one at a time from
the end of the worklist (the last element is processed first) and performs
exactly one inner elimination run per major key; completing that run
continues with the remaining worklist and the run's output, and an inner
run that exhausts its fuel aborts the whole computation.  Second conjunct —
termination: whenever the coefficient ring admits an interpretation into a
commutative ring satisfying the ring-capability laws (as the spec's modulus
rings do), the algorithm runs to worklist exhaustion: for every finite-row
oracle and every worklist there is an inner fuel at which
`decomp_row_use_pairs` returns a result. -/
theorem C9_worklist_consumption {MajKey MinKey SnzVal Q : Type} [LinearOrder MinKey]
    [DecidableEq MajKey] [Inhabited MajKey] [CommRing Q]
    (matrix : SmOracle MajKey MinKey SnzVal) (min_to_reduce : MinKey → Bool)
    (phi : SnzVal → Q) (hlaws : RingLaws matrix.ring phi) :
    (∀ (ifuel : Nat) (wl : List MajKey) (majkey : MajKey) (ro : CSM SnzVal)
       (ix : Indexing MinKey MajKey),
       (inner_loop matrix min_to_reduce majkey ifuel ro ix
           (initState matrix min_to_reduce majkey) = none →
         outer_go ifuel matrix min_to_reduce (wl ++ [majkey]).reverse ro ix = none) ∧
       (∀ ro1 ix1,
         inner_loop matrix min_to_reduce majkey ifuel ro ix
             (initState matrix min_to_reduce majkey) = some (ro1, ix1) →
         outer_go ifuel matrix min_to_reduce (wl ++ [majkey]).reverse ro ix =
           outer_go ifuel matrix min_to_reduce wl.reverse ro1 ix1)) ∧
    (∀ wl : List MajKey,
      ∃ ifuel r, decomp_row_use_pairs ifuel matrix wl min_to_reduce = some r) := by
  constructor
  · intro ifuel wl majkey ro ix
    have hrev : (wl ++ [majkey]).reverse = majkey :: wl.reverse := by
      rw [List.reverse_append]
      rfl
    constructor
    · intro hnone
      rw [hrev]
      exact outer_go_cons_none ifuel matrix min_to_reduce majkey wl.reverse ro ix
        hnone
    · intro ro1 ix1 hsome
      rw [hrev]
      exact outer_go_cons_some ifuel matrix min_to_reduce majkey wl.reverse ro ix
        hsome
  · intro wl
    exact decomp_total hlaws wl min_to_reduce

/-- Witness for C9 at the end-to-end scenario: over the modulus-2 ring
(interpreted in ZMod 2) the run on worklist [A, B] returns for some fuel. -/
theorem C9_witness :
    ∃ ifuel r, decomp_row_use_pairs ifuel oracle22 [0, 1] mins01 = some r :=
  (C9_worklist_consumption oracle22 mins01 (fun v : Int => (v : ZMod 2))
    ringlaws22).2 [0, 1]

/-- Claim C5: when the dominator of a reconstructed pivot row has no
multiplicative inverse in the ring, neither accumulator is updated — the
leading entry is dropped from the heap and the hash and the inner loop
proceeds to the next candidate — and such ring-level failures never
propagate to the caller: under the ring-capability laws
`decomp_row_use_pairs` always returns a (possibly trivial) output matrix
and Indexing, for every worklist. -/
theorem C5_noninvertible_dominator {MajKey MinKey SnzVal Q : Type}
    [LinearOrder MinKey] [DecidableEq MajKey] [Inhabited MajKey] [CommRing Q]
    (matrix : SmOracle MajKey MinKey SnzVal) (min_to_reduce : MinKey → Bool)
    (phi : SnzVal → Q) (hlaws : RingLaws matrix.ring phi) :
    (∀ (majkey : MajKey) (rowoper : CSM SnzVal) (indexing : Indexing MinKey MajKey)
       (s : InnerState MinKey SnzVal) (minkey : MinKey) (heap1 : List MinKey)
       (leading_entry dominator : SnzVal) (hash1 row_reduced1 : Hash MinKey SnzVal)
       (index : Nat),
       heapPop s.heap_reduced = some (minkey, heap1) →
       hashRemoveGet s.hash_reduced minkey = some (leading_entry, hash1) →
       matrix.ring.is_0 leading_entry = false →
       hashLookup indexing.minkey_2_index minkey = some index →
       hashRemoveGet (reconstruct matrix min_to_reduce indexing
         (rowoper.maj_hash index)) minkey = some (dominator, row_reduced1) →
       matrix.ring.inverse dominator = none →
       inner_step matrix min_to_reduce majkey rowoper indexing s =
         Sum.inl { s with heap_reduced := heap1, hash_reduced := hash1 }) ∧
    (∀ wl : List MajKey,
      ∃ ifuel r, decomp_row_use_pairs ifuel matrix wl min_to_reduce = some r) := by
  constructor
  · intro majkey rowoper indexing s minkey heap1 leading_entry dominator hash1
      row_reduced1 index hpop hrem hz hidx hdom hinv
    exact inner_step_noninvertible matrix min_to_reduce majkey rowoper indexing s
      hpop hrem hz hidx hdom hinv
  · intro wl
    exact decomp_total hlaws wl min_to_reduce

/-- Witness for C5 at the `2x` oracle over the modulus-4 ring: the
reconstructed dominator 2 has no inverse modulo 4, the step drops the
leading entry with both accumulators untouched, and the run still returns
for some fuel. -/
theorem C5_witness :
    inner_step oracleTwoX mins01 0 rowoper0 indexing0 state0 =
      Sum.inl { state0 with heap_reduced := [], hash_reduced := [] } ∧
    ∃ ifuel r, decomp_row_use_pairs ifuel oracleTwoX [0] mins01 = some r := by
  have h := C5_noninvertible_dominator oracleTwoX mins01
    (fun v : Int => (v : ZMod 4)) ringlaws4
  refine ⟨?_, h.2 [0]⟩
  refine h.1 0 rowoper0 indexing0 state0 0 [] 1 2 [] [] 0 ?_ ?_ ?_ ?_ ?_ ?_
  · rfl
  · rfl
  · rfl
  · rfl
  · rfl
  · rfl

end TermClaims

end Umatch
